import Mathlib

/-! Gamma: board state and area bookkeeping.

A shallow embedding of `src/src/gamma.c`.  Machine integers are natural
numbers reduced modulo `2^32` (`uint32_t`) or `2^64` (`uint64_t`) wherever the
C code can overflow.  The heap arrays `owner[y][x]`, `area_id[y][x]`,
`area_count[p]`, `made_golden_move[p]` and `occupied_count[p]` are total
functions that the operations update point-wise.
-/

namespace Gamma

/-- Default owner of an empty field. -/
def NOBODY : Nat := 0

/-- Default area id of an empty field. -/
def EMPTY : Nat := 0

/-- Number of sides of a field. -/
def SIDE_COUNT : Nat := 4

/-- Number of values of a `uint32_t`. -/
def UINT32_SIZE : Nat := 4294967296

/-- Number of values of a `uint64_t`. -/
def UINT64_SIZE : Nat := 18446744073709551616

/-- Addition of `uint32_t` values. -/
def add32 (a b : Nat) : Nat := (a + b) % UINT32_SIZE

/-- Subtraction of `uint32_t` values. -/
def sub32 (a b : Nat) : Nat := (a + (UINT32_SIZE - b % UINT32_SIZE)) % UINT32_SIZE

/-- Addition of `uint64_t` values. -/
def add64 (a b : Nat) : Nat := (a + b) % UINT64_SIZE

/-- Subtraction of `uint64_t` values. -/
def sub64 (a b : Nat) : Nat := (a + (UINT64_SIZE - b % UINT64_SIZE)) % UINT64_SIZE

/-- Modelled from the spec: the declaration of `struct gamma` lives in `gamma.h`,
which is not among the sources.  The fields are the ones `gamma.c` reads and
writes; `area_count`, `next_id` and the grid entries are `uint32_t` (they are
allocated and copied as such), `occupied_count` and `free_count` are
`uint64_t`. -/
structure gamma_t where
  width : Nat
  height : Nat
  player_count : Nat
  areas_limit : Nat
  owner : Nat → Nat → Nat
  area_id : Nat → Nat → Nat
  area_count : Nat → Nat
  made_golden_move : Nat → Bool
  occupied_count : Nat → Nat
  free_count : Nat
  next_id : Nat
  frame : Nat

/-- Assignment `a[i] = v` to a one-dimensional array. -/
def set1 {α : Type} (a : Nat → α) (i : Nat) (v : α) : Nat → α :=
  fun j => if j = i then v else a j

/-- Assignment `a[y][x] = v` to a two-dimensional array. -/
def set2 (a : Nat → Nat → Nat) (y x v : Nat) : Nat → Nat → Nat :=
  fun y' x' => if y' = y ∧ x' = x then v else a y' x'

/-- Embeds `player_correct` (the pointer `g` is always valid here). -/
def player_correct (g : gamma_t) (player : Nat) : Bool :=
  if player = NOBODY ∨ player > g.player_count then false else true

/-- The loop of `digit_count`; `fuel` bounds the number of iterations. -/
def digit_count_loop : Nat → Nat → Nat → Nat
  | 0, _, digits => digits
  | fuel + 1, n, digits =>
    if n ≠ 0 then digit_count_loop fuel (n / 10) (digits + 1) else digits

/-- Embeds `digit_count`. -/
def digit_count (n : Nat) : Nat :=
  if n = 0 then 1 else digit_count_loop n n 0

/-- Embeds `bordering_area_id`. -/
def bordering_area_id (g : gamma_t) (player x y : Nat) : Nat :=
  if player_correct g player = false ∨ x ≥ g.width ∨ y ≥ g.height then 0
  else
    let id := 0
    let id := if x > 0 ∧ g.owner y (x - 1) = player then g.area_id y (x - 1) else id
    let id := if x < sub32 g.width 1 ∧ g.owner y (x + 1) = player
      then g.area_id y (x + 1) else id
    let id := if y > 0 ∧ g.owner (y - 1) x = player then g.area_id (y - 1) x else id
    let id := if y < sub32 g.height 1 ∧ g.owner (y + 1) x = player
      then g.area_id (y + 1) x else id
    id

/-- The state `g` with the grid of labels replaced. -/
def with_area_id (g : gamma_t) (area_id : Nat → Nat → Nat) : gamma_t :=
  { g with area_id := area_id }

/-- The skip test of `merge_areas`: is `previous_id` one of `ids[0..length-1]`? -/
def skip_id (ids : List Nat) (length previous_id : Nat) : Bool :=
  (List.range length).any (fun i => previous_id == ids.getD i 0)

/-- Embeds `merge_areas`.  The C function is recursive without a bound; `fuel`
bounds the recursion depth and `none` means the bound was hit. -/
def merge_areas_fuel : Nat → gamma_t → Nat → Nat → Nat → List Nat → Nat → Option gamma_t
  | 0, _, _, _, _, _, _ => none
  | fuel + 1, g, player, x, y, ids, length =>
    if player_correct g player = false ∨ x ≥ g.width ∨ y ≥ g.height ∨ length < 1 then
      some g
    else if g.owner y x ≠ player then some g
    else if skip_id ids length (g.area_id y x) = true then some g
    else
      let g0 := with_area_id g (set2 g.area_id y x (ids.getD (length - 1) 0))
      match merge_areas_fuel fuel g0 player (sub32 x 1) y ids length with
      | none => none
      | some g1 =>
        match merge_areas_fuel fuel g1 player (add32 x 1) y ids length with
        | none => none
        | some g2 =>
          match merge_areas_fuel fuel g2 player x (sub32 y 1) ids length with
          | none => none
          | some g3 => merge_areas_fuel fuel g3 player x (add32 y 1) ids length

/-- The function `merge_areas` run with a recursion depth that always suffices
(see `merge_areas_fuel_isSome`): one level per field of the board, plus one. -/
def merge_areas (g : gamma_t) (player x y : Nat) (ids : List Nat) (length : Nat) : gamma_t :=
  (merge_areas_fuel (g.width * g.height + 1) g player x y ids length).getD g

/-- Embeds `add_distinct`; the array and its length are one list. -/
def add_distinct (array : List Nat) (x : Nat) : List Nat :=
  if array.any (fun a => x == a) then array else array ++ [x]

/-- The array `ids` that `distinct_neighbour_count` fills. -/
def distinct_neighbour_ids (g : gamma_t) (player x y : Nat) : List Nat :=
  let ids : List Nat := []
  let ids := if x > 0 ∧ g.owner y (x - 1) = player
    then add_distinct ids (g.area_id y (x - 1)) else ids
  let ids := if x < sub32 g.width 1 ∧ g.owner y (x + 1) = player
    then add_distinct ids (g.area_id y (x + 1)) else ids
  let ids := if y > 0 ∧ g.owner (y - 1) x = player
    then add_distinct ids (g.area_id (y - 1) x) else ids
  let ids := if y < sub32 g.height 1 ∧ g.owner (y + 1) x = player
    then add_distinct ids (g.area_id (y + 1) x) else ids
  ids

/-- Embeds `distinct_neighbour_count`. -/
def distinct_neighbour_count (g : gamma_t) (player x y : Nat) : Nat :=
  if player_correct g player = false ∨ x ≥ g.width ∨ y ≥ g.height then 0
  else (distinct_neighbour_ids g player x y).length

/-- Embeds `gamma_new`; allocation is taken to succeed.  The result is the
board that comes back, `none` when none does: the call returns `NULL` for a
parameter below 1, and for `players = 2^32 - 1` the sum `players + 1` wraps to
0, the three arrays get no element and the loop
`for (uint32_t i = 0; i <= players; ++i)` never ends while it writes past
them (see `gamma_new_returns`). -/
def gamma_new (width height players areas : Nat) : Option gamma_t :=
  if width < 1 ∨ height < 1 ∨ players < 1 ∨ areas < 1 then none
  else if add32 players 1 = 0 then none
  else some
    { width := width
      height := height
      player_count := players
      areas_limit := areas
      owner := fun _ _ => NOBODY
      area_id := fun _ _ => EMPTY
      area_count := fun _ => 0
      made_golden_move := fun _ => false
      occupied_count := fun _ => 0
      free_count := (width * height) % UINT64_SIZE
      next_id := 1
      frame := digit_count players }

/-- Whether the call of `gamma_new` comes back (allocation taken to succeed):
at once with `NULL` for a parameter below 1; otherwise after the loop
`for (uint32_t i = 0; i <= players; ++i)`, which ends only when `players + 1`
does not wrap to 0. -/
def gamma_new_returns (width height players areas : Nat) : Bool :=
  decide (width < 1 ∨ height < 1 ∨ players < 1 ∨ areas < 1 ∨ add32 players 1 ≠ 0)

/-- Embeds `gamma_move`: the new state and the returned flag. -/
def gamma_move (g : gamma_t) (player x y : Nat) : gamma_t × Bool :=
  if player_correct g player = false then (g, false)
  else if x ≥ g.width ∨ y ≥ g.height then (g, false)
  else if g.owner y x > NOBODY then (g, false)
  else
    let id := bordering_area_id g player x y
    if id = 0 ∧ g.area_count player ≥ g.areas_limit then (g, false)
    else
      let neighbours := distinct_neighbour_count g player x y
      let g1 := { g with
        area_count := set1 g.area_count player (sub32 (g.area_count player) (sub32 neighbours 1)) }
      let g2 := { g1 with owner := set2 g1.owner y x player }
      let g3 := { g2 with
        occupied_count := set1 g2.occupied_count player (add64 (g2.occupied_count player) 1) }
      let g4 := { g3 with free_count := sub64 g3.free_count 1 }
      let id := if id ≠ 0 then id else g4.next_id
      let g5 := { g4 with next_id := add32 g4.next_id 1 }
      (merge_areas g5 player x y [id] 1, true)

/-- Embeds `check_golden_move_parameters`. -/
def check_golden_move_parameters (g : gamma_t) (player x y : Nat) : Bool :=
  if player_correct g player = false then false
  else if x ≥ g.width ∨ y ≥ g.height then false
  else if g.made_golden_move player = true then false
  else if g.owner y x = player ∨ g.owner y x = NOBODY then false
  else if bordering_area_id g player x y = 0 ∧ g.area_count player ≥ g.areas_limit then false
  else true

/-- Embeds `golden_move_possible`: the new state and the returned flag. -/
def golden_move_possible (g : gamma_t) (player x y : Nat) (always_reverse : Bool) :
    gamma_t × Bool :=
  if check_golden_move_parameters g player x y = false then (g, false)
  else
    let previous_owner := g.owner y x
    let g1 := { g with owner := set2 g.owner y x player }
    let ids := [g1.next_id, add32 g1.next_id 1, add32 g1.next_id 2, add32 g1.next_id 3]
    let g2 := { g1 with next_id := add32 g1.next_id 4 }
    let g3 := merge_areas g2 previous_owner (sub32 x 1) y ids 1
    let g4 := merge_areas g3 previous_owner (add32 x 1) y ids 2
    let g5 := merge_areas g4 previous_owner x (sub32 y 1) ids 3
    let g6 := merge_areas g5 previous_owner x (add32 y 1) ids 4
    let neighbours := distinct_neighbour_count g6 previous_owner x y
    let over := decide
      (sub32 (add32 (g6.area_count previous_owner) neighbours) 1 > g6.areas_limit)
    let g8 :=
      if always_reverse = true ∨ over = true then
        let g7 := { g6 with owner := set2 g6.owner y x previous_owner }
        merge_areas g7 previous_owner x y ids 1
      else g6
    (g8, decide
      (sub32 (add32 (g8.area_count previous_owner) neighbours) 1 ≤ g8.areas_limit))

/-- Embeds `gamma_golden_move`: the new state and the returned flag. -/
def gamma_golden_move (g : gamma_t) (player x y : Nat) : gamma_t × Bool :=
  if check_golden_move_parameters g player x y = false then (g, false)
  else
    let previous_owner := g.owner y x
    let r := golden_move_possible g player x y false
    if r.2 = true then
      let g1 := r.1
      let neighbours := distinct_neighbour_count g1 previous_owner x y
      let mine := distinct_neighbour_count g1 player x y
      let g2 := { g1 with
        area_count := set1 g1.area_count player (sub32 (g1.area_count player) (sub32 mine 1)) }
      let g3 := { g2 with
        area_count := set1 g2.area_count previous_owner
          (add32 (g2.area_count previous_owner) (sub32 neighbours 1)) }
      let g4 := { g3 with
        occupied_count := set1 g3.occupied_count player (add64 (g3.occupied_count player) 1) }
      let g5 := { g4 with
        occupied_count := set1 g4.occupied_count previous_owner
          (sub64 (g4.occupied_count previous_owner) 1) }
      let g6 := { g5 with made_golden_move := set1 g5.made_golden_move player true }
      let ids := [g6.next_id]
      let g7 := { g6 with next_id := add32 g6.next_id 1 }
      (merge_areas g7 player x y ids 1, true)
    else (r.1, false)

/-- Embeds `gamma_busy_fields`. -/
def gamma_busy_fields (g : gamma_t) (player : Nat) : Nat :=
  if player_correct g player = false then 0 else g.occupied_count player

/-- The fields of the board in the order the two nested loops
`for y < height`, `for x < width` visit them, as pairs `(x, y)`. -/
def board_fields (g : gamma_t) : List (Nat × Nat) :=
  (List.range g.height).flatMap (fun y => (List.range g.width).map (fun x => (x, y)))

/-- Embeds `gamma_free_fields`. -/
def gamma_free_fields (g : gamma_t) (player : Nat) : Nat :=
  if player_correct g player = false then 0
  else if g.area_count player < g.areas_limit then g.free_count
  else if g.area_count player > g.areas_limit then 0
  else
    (board_fields g).foldl
      (fun counter c =>
        if g.owner c.2 c.1 = NOBODY then
          if bordering_area_id g player c.1 c.2 ≠ 0 then add64 counter 1 else counter
        else counter) 0

/-- The two nested loops of `gamma_golden_possible` over the fields still to
visit, with the early `return true`. -/
def golden_possible_loop (player : Nat) : List (Nat × Nat) → gamma_t → gamma_t × Bool
  | [], g => (g, false)
  | c :: cs, g =>
    let r := golden_move_possible g player c.1 c.2 true
    if r.2 = true then (r.1, true) else golden_possible_loop player cs r.1

/-- Embeds `gamma_golden_possible`: the new state and the returned flag. -/
def gamma_golden_possible (g : gamma_t) (player : Nat) : gamma_t × Bool :=
  if player_correct g player = false then (g, false)
  else if g.made_golden_move player = true then (g, false)
  else golden_possible_loop player (board_fields g) g

end Gamma

namespace Gamma

/-- One call of the public interface, with its arguments. -/
inductive Call where
  | move (player x y : Nat)
  | golden_move (player x y : Nat)
  | golden_possible (player : Nat)
  | free_fields (player : Nat)
  | busy_fields (player : Nat)

/-- The state a call leaves behind; the two counting queries only read. -/
def Call.run (g : gamma_t) : Call → gamma_t
  | Call.move player x y => (gamma_move g player x y).1
  | Call.golden_move player x y => (gamma_golden_move g player x y).1
  | Call.golden_possible player => (gamma_golden_possible g player).1
  | Call.free_fields _ => g
  | Call.busy_fields _ => g

/-- The state after a finite sequence of calls. -/
def run_calls (g : gamma_t) (cs : List Call) : gamma_t :=
  cs.foldl Call.run g

/-- States reachable from a board made by `gamma_new` (with `uint32_t`
arguments) through any finite sequence of calls with arbitrary arguments. -/
inductive Reachable : gamma_t → Prop where
  | new (width height players areas : Nat) (g : gamma_t) :
      width < UINT32_SIZE → height < UINT32_SIZE → players < UINT32_SIZE →
      areas < UINT32_SIZE → gamma_new width height players areas = some g → Reachable g
  | step (g : gamma_t) (c : Call) : Reachable g → Reachable (c.run g)

/-- The board of the given size, or an empty record when `gamma_new` fails. -/
def board (width height players areas : Nat) : gamma_t :=
  (gamma_new width height players areas).getD
    ⟨0, 0, 0, 0, fun _ _ => 0, fun _ _ => 0, fun _ => 0, fun _ => false, fun _ => 0, 0, 0, 0⟩

/-- A row of three fields, all taken by player 1 as one area (limit 1). -/
def row3_full : gamma_t :=
  run_calls (board 3 1 2 1) [Call.move 1 0 0, Call.move 1 1 0, Call.move 1 2 0]

/-- The same row with area limit 2. -/
def row3_full_limit2 : gamma_t :=
  run_calls (board 3 1 2 2) [Call.move 1 0 0, Call.move 1 1 0, Call.move 1 2 0]

/-! ## Frame of `merge_areas` -/

theorem set2_self (a : Nat → Nat → Nat) (y x : Nat) : set2 a y x (a y x) = a := by
  funext y' x'
  unfold set2
  split
  · rename_i h; rw [h.1, h.2]
  · rfl

theorem set2_set2 (a : Nat → Nat → Nat) (y x v w : Nat) :
    set2 (set2 a y x v) y x w = set2 a y x w := by
  funext y' x'
  unfold set2
  split <;> rfl

theorem set1_same {α : Type} (a : Nat → α) (i : Nat) (v : α) : set1 a i v i = v := by
  unfold set1
  rw [if_pos rfl]

theorem set1_other {α : Type} (a : Nat → α) (i j : Nat) (v : α) (h : j ≠ i) :
    set1 a i v j = a j := by
  unfold set1
  rw [if_neg h]

theorem set2_same (a : Nat → Nat → Nat) (y x v : Nat) : set2 a y x v y x = v := by
  unfold set2
  rw [if_pos ⟨rfl, rfl⟩]

theorem set2_other (a : Nat → Nat → Nat) (y x v y' x' : Nat) (h : ¬ (y' = y ∧ x' = x)) :
    set2 a y x v y' x' = a y' x' := by
  unfold set2
  rw [if_neg h]

@[simp] theorem with_area_id_owner (g : gamma_t) (a : Nat → Nat → Nat) :
    (with_area_id g a).owner = g.owner := rfl

@[simp] theorem with_area_id_area_id (g : gamma_t) (a : Nat → Nat → Nat) :
    (with_area_id g a).area_id = a := rfl

@[simp] theorem with_area_id_twice (g : gamma_t) (a b : Nat → Nat → Nat) :
    with_area_id (with_area_id g a) b = with_area_id g b := rfl

@[simp] theorem with_area_id_self (g : gamma_t) : with_area_id g g.area_id = g := rfl

/-- Whatever `merge_areas_fuel` returns differs from its argument in the labels
of fields of `player` only. -/
theorem merge_areas_fuel_frame (fuel : Nat) : ∀ (g : gamma_t) (player x y : Nat)
    (ids : List Nat) (length : Nat) (g' : gamma_t),
    merge_areas_fuel fuel g player x y ids length = some g' →
    ∃ a, g' = with_area_id g a ∧
      ∀ y' x', g.owner y' x' ≠ player → a y' x' = g.area_id y' x' := by
  induction fuel with
  | zero => intro g player x y ids length g' h; simp [merge_areas_fuel] at h
  | succ fuel ih =>
    intro g player x y ids length g' h
    rw [merge_areas_fuel] at h
    split at h
    · injection h with h; subst h; exact ⟨g.area_id, rfl, fun _ _ _ => rfl⟩
    split at h
    · injection h with h; subst h; exact ⟨g.area_id, rfl, fun _ _ _ => rfl⟩
    split at h
    · injection h with h; subst h; exact ⟨g.area_id, rfl, fun _ _ _ => rfl⟩
    rename_i hguard hown hskip
    simp only at h
    split at h
    · exact absurd h (by simp)
    rename_i g1 h1
    split at h
    · exact absurd h (by simp)
    rename_i g2 h2
    split at h
    · exact absurd h (by simp)
    rename_i g3 h3
    obtain ⟨a1, e1, f1⟩ := ih _ _ _ _ _ _ _ h1
    obtain ⟨a2, e2, f2⟩ := ih _ _ _ _ _ _ _ h2
    obtain ⟨a3, e3, f3⟩ := ih _ _ _ _ _ _ _ h3
    obtain ⟨a4, e4, f4⟩ := ih _ _ _ _ _ _ _ h
    rw [e1] at e2 f2
    rw [e2] at e3 f3
    rw [e3] at e4 f4
    refine ⟨a4, e4, ?_⟩
    intro y' x' hne
    have hown' : g.owner y x = player := by simpa using hown
    have hcell : ¬ (y' = y ∧ x' = x) := by
      rintro ⟨rfl, rfl⟩; exact hne hown'
    have h1' : a1 y' x' = set2 g.area_id y x (ids.getD (length - 1) 0) y' x' := f1 y' x' hne
    have h2' : a2 y' x' = a1 y' x' := f2 y' x' hne
    have h3' : a3 y' x' = a2 y' x' := f3 y' x' hne
    have h4' : a4 y' x' = a3 y' x' := f4 y' x' hne
    rw [h4', h3', h2', h1']
    simp [set2, hcell]

/-- The frame of `merge_areas`: only labels of fields of `player` change. -/
theorem merge_areas_frame (g : gamma_t) (player x y : Nat) (ids : List Nat) (length : Nat) :
    ∃ a, merge_areas g player x y ids length = with_area_id g a ∧
      ∀ y' x', g.owner y' x' ≠ player → a y' x' = g.area_id y' x' := by
  unfold merge_areas
  cases h : merge_areas_fuel (g.width * g.height + 1) g player x y ids length with
  | none => exact ⟨g.area_id, rfl, fun _ _ _ => rfl⟩
  | some g' => exact merge_areas_fuel_frame _ _ _ _ _ _ _ _ h

/-! ## The two outcomes of `golden_move_possible` -/

/-- The four labels `golden_move_possible` draws from the counter. -/
def fresh_ids (g : gamma_t) : List Nat :=
  [g.next_id, add32 g.next_id 1, add32 g.next_id 2, add32 g.next_id 3]

/-- The state of `golden_move_possible` after the field has been handed to
`player` and the four neighbours of the field have been flooded. -/
def tentative (g : gamma_t) (player x y : Nat) : gamma_t :=
  let previous_owner := g.owner y x
  let g1 := { g with owner := set2 g.owner y x player }
  let ids := fresh_ids g
  let g2 := { g1 with next_id := add32 g1.next_id 4 }
  let g3 := merge_areas g2 previous_owner (sub32 x 1) y ids 1
  let g4 := merge_areas g3 previous_owner (add32 x 1) y ids 2
  let g5 := merge_areas g4 previous_owner x (sub32 y 1) ids 3
  merge_areas g5 previous_owner x (add32 y 1) ids 4

/-- The state of `golden_move_possible` after the move has been taken back. -/
def reverted (g : gamma_t) (player x y : Nat) : gamma_t :=
  let g6 := tentative g player x y
  let g7 := { g6 with owner := set2 g6.owner y x (g.owner y x) }
  merge_areas g7 (g.owner y x) x y (fresh_ids g) 1

/-- Everything but the owners, the labels and the label counter agrees. -/
def same_stats (g g' : gamma_t) : Prop :=
  g'.width = g.width ∧ g'.height = g.height ∧ g'.player_count = g.player_count ∧
  g'.areas_limit = g.areas_limit ∧ g'.area_count = g.area_count ∧
  g'.made_golden_move = g.made_golden_move ∧ g'.occupied_count = g.occupied_count ∧
  g'.free_count = g.free_count ∧ g'.frame = g.frame

theorem same_stats_refl (g : gamma_t) : same_stats g g :=
  ⟨rfl, rfl, rfl, rfl, rfl, rfl, rfl, rfl, rfl⟩

theorem same_stats_trans {g g' g'' : gamma_t} (h : same_stats g g') (h' : same_stats g' g'') :
    same_stats g g'' := by
  obtain ⟨a1, a2, a3, a4, a5, a6, a7, a8, a9⟩ := h
  obtain ⟨b1, b2, b3, b4, b5, b6, b7, b8, b9⟩ := h'
  exact ⟨b1.trans a1, b2.trans a2, b3.trans a3, b4.trans a4, b5.trans a5, b6.trans a6,
    b7.trans a7, b8.trans a8, b9.trans a9⟩

theorem merge_areas_same_stats (g : gamma_t) (player x y : Nat) (ids : List Nat)
    (length : Nat) : same_stats g (merge_areas g player x y ids length) := by
  obtain ⟨a, e, -⟩ := merge_areas_frame g player x y ids length
  rw [e]; exact same_stats_refl g

theorem merge_areas_owner (g : gamma_t) (player x y : Nat) (ids : List Nat) (length : Nat) :
    (merge_areas g player x y ids length).owner = g.owner := by
  obtain ⟨a, e, -⟩ := merge_areas_frame g player x y ids length
  rw [e]; rfl

theorem merge_areas_next_id (g : gamma_t) (player x y : Nat) (ids : List Nat) (length : Nat) :
    (merge_areas g player x y ids length).next_id = g.next_id := by
  obtain ⟨a, e, -⟩ := merge_areas_frame g player x y ids length
  rw [e]; rfl

theorem merge_areas_area_id_of_ne (g : gamma_t) (player x y : Nat) (ids : List Nat)
    (length : Nat) (y' x' : Nat) (h : g.owner y' x' ≠ player) :
    (merge_areas g player x y ids length).area_id y' x' = g.area_id y' x' := by
  obtain ⟨a, e, f⟩ := merge_areas_frame g player x y ids length
  rw [e]; exact f y' x' h

theorem tentative_owner (g : gamma_t) (player x y : Nat) :
    (tentative g player x y).owner = set2 g.owner y x player := by
  simp only [tentative, merge_areas_owner]

theorem tentative_next_id (g : gamma_t) (player x y : Nat) :
    (tentative g player x y).next_id = add32 g.next_id 4 := by
  simp only [tentative, merge_areas_next_id]

theorem tentative_same_stats (g : gamma_t) (player x y : Nat) :
    same_stats g (tentative g player x y) := by
  unfold tentative
  refine same_stats_trans ?_ (merge_areas_same_stats _ _ _ _ _ _)
  refine same_stats_trans ?_ (merge_areas_same_stats _ _ _ _ _ _)
  refine same_stats_trans ?_ (merge_areas_same_stats _ _ _ _ _ _)
  refine same_stats_trans ?_ (merge_areas_same_stats _ _ _ _ _ _)
  exact same_stats_refl g

/-- The tentative seizure leaves alone the label of the seized field and of
every field the previous owner does not hold. -/
theorem tentative_area_id_of_ne (g : gamma_t) (player x y : Nat) (y' x' : Nat)
    (h : set2 g.owner y x player y' x' ≠ g.owner y x) :
    (tentative g player x y).area_id y' x' = g.area_id y' x' := by
  unfold tentative
  simp only
  rw [merge_areas_area_id_of_ne, merge_areas_area_id_of_ne, merge_areas_area_id_of_ne,
    merge_areas_area_id_of_ne]
  all_goals simp only [merge_areas_owner]
  all_goals exact h

theorem reverted_owner (g : gamma_t) (player x y : Nat) :
    (reverted g player x y).owner = g.owner := by
  simp only [reverted, merge_areas_owner, tentative_owner, set2_set2, set2_self]

theorem reverted_next_id (g : gamma_t) (player x y : Nat) :
    (reverted g player x y).next_id = add32 g.next_id 4 := by
  simp only [reverted, merge_areas_next_id, tentative_next_id]

theorem reverted_same_stats (g : gamma_t) (player x y : Nat) :
    same_stats g (reverted g player x y) := by
  unfold reverted
  refine same_stats_trans ?_ (merge_areas_same_stats _ _ _ _ _ _)
  exact same_stats_trans (tentative_same_stats g player x y) (same_stats_refl _)

/-- Taking the move back leaves alone the label of every field the previous
owner does not hold. -/
theorem reverted_area_id_of_ne (g : gamma_t) (player x y : Nat) (y' x' : Nat)
    (h : g.owner y' x' ≠ g.owner y x) :
    (reverted g player x y).area_id y' x' = g.area_id y' x' := by
  unfold reverted
  simp only
  rw [merge_areas_area_id_of_ne]
  · apply tentative_area_id_of_ne
    unfold set2
    split
    · rename_i hc
      intro hp
      apply h
      rw [hc.1, hc.2]
    · exact h
  · simp only [tentative_owner, set2_set2, set2_self]
    exact h

/-- The verdict of `golden_move_possible` once the parameters are accepted. -/
def split_ok (g : gamma_t) (player x y : Nat) : Bool :=
  decide (sub32 (add32 (g.area_count (g.owner y x))
    (distinct_neighbour_count (tentative g player x y) (g.owner y x) x y)) 1 ≤ g.areas_limit)

/-- Closed form of `golden_move_possible`. -/
theorem golden_move_possible_eq (g : gamma_t) (player x y : Nat) (always_reverse : Bool)
    (hc : check_golden_move_parameters g player x y = true) :
    golden_move_possible g player x y always_reverse =
      (if always_reverse = true ∨ split_ok g player x y = false
        then reverted g player x y else tentative g player x y, split_ok g player x y) := by
  have hs := tentative_same_stats g player x y
  have hr := reverted_same_stats g player x y
  obtain ⟨-, -, -, t4, t5, -⟩ := hs
  obtain ⟨-, -, -, r4, r5, -⟩ := hr
  unfold golden_move_possible
  rw [if_neg (by simp [hc])]
  simp only
  have e1 : (merge_areas (merge_areas (merge_areas (merge_areas
      { g with owner := set2 g.owner y x player, next_id := add32 g.next_id 4 }
      (g.owner y x) (sub32 x 1) y
      [g.next_id, add32 g.next_id 1, add32 g.next_id 2, add32 g.next_id 3] 1)
      (g.owner y x) (add32 x 1) y
      [g.next_id, add32 g.next_id 1, add32 g.next_id 2, add32 g.next_id 3] 2)
      (g.owner y x) x (sub32 y 1)
      [g.next_id, add32 g.next_id 1, add32 g.next_id 2, add32 g.next_id 3] 3)
      (g.owner y x) x (add32 y 1)
      [g.next_id, add32 g.next_id 1, add32 g.next_id 2, add32 g.next_id 3] 4)
      = tentative g player x y := rfl
  rw [e1]
  have e2 : merge_areas
      { tentative g player x y with
        owner := set2 (tentative g player x y).owner y x (g.owner y x) }
      (g.owner y x) x y
      [g.next_id, add32 g.next_id 1, add32 g.next_id 2, add32 g.next_id 3] 1
      = reverted g player x y := rfl
  rw [e2]
  have e3 : decide (sub32 (add32 ((tentative g player x y).area_count (g.owner y x))
      (distinct_neighbour_count (tentative g player x y) (g.owner y x) x y)) 1 ≤
      (tentative g player x y).areas_limit) = split_ok g player x y := by
    rw [t4, t5]; rfl
  by_cases hrev : always_reverse = true ∨ split_ok g player x y = false
  · have hrev' : always_reverse = true ∨
        decide (sub32 (add32 ((tentative g player x y).area_count (g.owner y x))
          (distinct_neighbour_count (tentative g player x y) (g.owner y x) x y)) 1 >
          (tentative g player x y).areas_limit) = true := by
      rcases hrev with h | h
      · exact Or.inl h
      · right
        rw [← e3] at h
        simpa using h
    rw [if_pos hrev', if_pos hrev, r4, r5]
    rfl
  · have hrev' : ¬ (always_reverse = true ∨
        decide (sub32 (add32 ((tentative g player x y).area_count (g.owner y x))
          (distinct_neighbour_count (tentative g player x y) (g.owner y x) x y)) 1 >
          (tentative g player x y).areas_limit) = true) := by
      rintro (h | h)
      · exact hrev (Or.inl h)
      · apply hrev
        right
        rw [← e3]
        simpa using h
    rw [if_neg hrev', if_neg hrev, e3]

/-- The state `gamma_golden_move` returns when the move is carried out. -/
def committed (g : gamma_t) (player x y : Nat) : gamma_t :=
  let previous_owner := g.owner y x
  let g1 := tentative g player x y
  let neighbours := distinct_neighbour_count g1 previous_owner x y
  let mine := distinct_neighbour_count g1 player x y
  let g2 := { g1 with
    area_count := set1 g1.area_count player (sub32 (g1.area_count player) (sub32 mine 1)) }
  let g3 := { g2 with
    area_count := set1 g2.area_count previous_owner
      (add32 (g2.area_count previous_owner) (sub32 neighbours 1)) }
  let g4 := { g3 with
    occupied_count := set1 g3.occupied_count player (add64 (g3.occupied_count player) 1) }
  let g5 := { g4 with
    occupied_count := set1 g4.occupied_count previous_owner
      (sub64 (g4.occupied_count previous_owner) 1) }
  let g6 := { g5 with made_golden_move := set1 g5.made_golden_move player true }
  let ids := [g6.next_id]
  let g7 := { g6 with next_id := add32 g6.next_id 1 }
  merge_areas g7 player x y ids 1

/-- Closed form of `gamma_golden_move` when the parameters are rejected. -/
theorem gamma_golden_move_of_check_false (g : gamma_t) (player x y : Nat)
    (hc : check_golden_move_parameters g player x y = false) :
    gamma_golden_move g player x y = (g, false) := by
  unfold gamma_golden_move
  rw [if_pos hc]

/-- Closed form of `gamma_golden_move` when the parameters are accepted. -/
theorem gamma_golden_move_eq (g : gamma_t) (player x y : Nat)
    (hc : check_golden_move_parameters g player x y = true) :
    gamma_golden_move g player x y =
      if split_ok g player x y = true then (committed g player x y, true)
      else (reverted g player x y, false) := by
  unfold gamma_golden_move
  rw [if_neg (by simp [hc]), golden_move_possible_eq g player x y false hc]
  cases hs : split_ok g player x y
  · simp
  · simp
    rfl

/-- The condition under which `gamma_move` carries the move out. -/
def move_ok (g : gamma_t) (player x y : Nat) : Prop :=
  player_correct g player = true ∧ x < g.width ∧ y < g.height ∧ g.owner y x = NOBODY ∧
    ¬ (bordering_area_id g player x y = 0 ∧ g.area_count player ≥ g.areas_limit)

instance (g : gamma_t) (player x y : Nat) : Decidable (move_ok g player x y) := by
  unfold move_ok; infer_instance

/-- The state `gamma_move` returns when the move is carried out. -/
def moved (g : gamma_t) (player x y : Nat) : gamma_t :=
  let id := bordering_area_id g player x y
  let neighbours := distinct_neighbour_count g player x y
  let g1 := { g with
    area_count := set1 g.area_count player (sub32 (g.area_count player) (sub32 neighbours 1)) }
  let g2 := { g1 with owner := set2 g1.owner y x player }
  let g3 := { g2 with
    occupied_count := set1 g2.occupied_count player (add64 (g2.occupied_count player) 1) }
  let g4 := { g3 with free_count := sub64 g3.free_count 1 }
  let id := if id ≠ 0 then id else g4.next_id
  let g5 := { g4 with next_id := add32 g4.next_id 1 }
  merge_areas g5 player x y [id] 1

/-- Closed form of `gamma_move`. -/
theorem gamma_move_eq (g : gamma_t) (player x y : Nat) :
    gamma_move g player x y =
      if move_ok g player x y then (moved g player x y, true) else (g, false) := by
  by_cases hok : move_ok g player x y
  · rw [if_pos hok]
    obtain ⟨h1, h2, h3, h4, h5⟩ := hok
    unfold gamma_move
    rw [if_neg (by simp [h1]), if_neg (by omega), if_neg (by unfold NOBODY at *; omega)]
    dsimp only
    rw [if_neg h5]
    rfl
  · rw [if_neg hok]
    unfold gamma_move
    by_cases h1 : player_correct g player = false
    · rw [if_pos h1]
    rw [if_neg h1]
    by_cases h2 : x ≥ g.width ∨ y ≥ g.height
    · rw [if_pos h2]
    rw [if_neg h2]
    by_cases h3 : g.owner y x > NOBODY
    · rw [if_pos h3]
    rw [if_neg h3]
    dsimp only
    by_cases h4 : bordering_area_id g player x y = 0 ∧ g.area_count player ≥ g.areas_limit
    · rw [if_pos h4]
    · exfalso
      apply hok
      refine ⟨by simpa using h1, by omega, by omega, ?_, h4⟩
      unfold NOBODY at *
      omega

/-! ## Rejected moves -/

/-- C6: a call of `gamma_move` that returns false (invalid player, coordinates
out of range, field already owned, or a new area beyond the limit) leaves the
whole state as it was: owners, labels, every counter and flag, `free_count`
and `next_id`. -/
theorem gamma_move_false_unchanged (g : gamma_t) (player x y : Nat)
    (h : (gamma_move g player x y).2 = false) : (gamma_move g player x y).1 = g := by
  rw [gamma_move_eq] at h ⊢
  by_cases hok : move_ok g player x y
  · rw [if_pos hok] at h
    simp at h
  · rw [if_neg hok]

/-- C6 at a concrete input: player 1 asks for a second area on a board with
area limit 1. -/
theorem gamma_move_false_unchanged_witness :
    (gamma_move (Call.run (board 3 1 2 1) (Call.move 1 0 0)) 1 2 0).2 = false ∧
    (gamma_move (Call.run (board 3 1 2 1) (Call.move 1 0 0)) 1 2 0).1 =
      Call.run (board 3 1 2 1) (Call.move 1 0 0) :=
  ⟨by decide, gamma_move_false_unchanged _ 1 2 0 (by decide)⟩

/-- C4, refuted as stated: on the full row of player 1 with area limit 1 the
golden move of player 2 onto the middle field is rejected, yet the label
counter and the label of field (0, 0) are not what they were. -/
theorem gamma_golden_move_false_changes_labels :
    (gamma_golden_move row3_full 2 1 0).2 = false ∧
    (gamma_golden_move row3_full 2 1 0).1.next_id ≠ row3_full.next_id ∧
    (gamma_golden_move row3_full 2 1 0).1.area_id 0 0 ≠ row3_full.area_id 0 0 := by
  decide

/-- C4, amended: a call of `gamma_golden_move` that returns false leaves the
owner of every field, every player's `area_count`, `occupied_count` and
`made_golden_move`, `free_count` and the board parameters as they were; the
label counter is unchanged or advanced by four; and the label of every field
not held by the owner of (x, y) is unchanged. -/
theorem gamma_golden_move_false_frame (g : gamma_t) (player x y : Nat)
    (h : (gamma_golden_move g player x y).2 = false) :
    (gamma_golden_move g player x y).1.owner = g.owner ∧
    same_stats g (gamma_golden_move g player x y).1 ∧
    ((gamma_golden_move g player x y).1.next_id = g.next_id ∨
      (gamma_golden_move g player x y).1.next_id = add32 g.next_id 4) ∧
    ∀ y' x', g.owner y' x' ≠ g.owner y x →
      (gamma_golden_move g player x y).1.area_id y' x' = g.area_id y' x' := by
  cases hc : check_golden_move_parameters g player x y
  · rw [gamma_golden_move_of_check_false g player x y hc]
    exact ⟨rfl, same_stats_refl g, Or.inl rfl, fun _ _ _ => rfl⟩
  · rw [gamma_golden_move_eq g player x y hc] at h ⊢
    split at h
    · simp at h
    · rename_i hs
      rw [if_neg hs]
      exact ⟨reverted_owner g player x y, reverted_same_stats g player x y,
        Or.inr (reverted_next_id g player x y),
        fun y' x' hne => reverted_area_id_of_ne g player x y y' x' hne⟩

/-- C4, amended, at the input of the counterexample. -/
theorem gamma_golden_move_false_frame_witness :
    (gamma_golden_move row3_full 2 1 0).2 = false ∧
    (gamma_golden_move row3_full 2 1 0).1.owner = row3_full.owner ∧
    same_stats row3_full (gamma_golden_move row3_full 2 1 0).1 :=
  ⟨by decide, (gamma_golden_move_false_frame row3_full 2 1 0 (by decide)).1,
    (gamma_golden_move_false_frame row3_full 2 1 0 (by decide)).2.1⟩

/-! ## The golden-move flag -/

theorem moved_made_golden_move (g : gamma_t) (player x y : Nat) :
    (moved g player x y).made_golden_move = g.made_golden_move := by
  unfold moved
  exact (merge_areas_same_stats _ _ _ _ _ _).2.2.2.2.2.1

theorem committed_made_golden_move (g : gamma_t) (player x y : Nat) :
    (committed g player x y).made_golden_move = set1 g.made_golden_move player true := by
  unfold committed
  rw [(merge_areas_same_stats _ _ _ _ _ _).2.2.2.2.2.1]
  dsimp only
  rw [(tentative_same_stats g player x y).2.2.2.2.2.1]

/-- A probe (`always_reverse` set) changes neither owners nor statistics. -/
theorem golden_move_possible_probe (g : gamma_t) (player x y : Nat) :
    same_stats g (golden_move_possible g player x y true).1 ∧
    (golden_move_possible g player x y true).1.owner = g.owner := by
  cases hc : check_golden_move_parameters g player x y
  · unfold golden_move_possible
    rw [if_pos hc]
    exact ⟨same_stats_refl g, rfl⟩
  · rw [golden_move_possible_eq g player x y true hc, if_pos (Or.inl rfl)]
    exact ⟨reverted_same_stats g player x y, reverted_owner g player x y⟩

theorem golden_possible_loop_frame (player : Nat) (cs : List (Nat × Nat)) :
    ∀ g : gamma_t, same_stats g (golden_possible_loop player cs g).1 ∧
      (golden_possible_loop player cs g).1.owner = g.owner := by
  induction cs with
  | nil => intro g; exact ⟨same_stats_refl g, rfl⟩
  | cons c cs ih =>
    intro g
    unfold golden_possible_loop
    dsimp only
    obtain ⟨h1, h2⟩ := golden_move_possible_probe g player c.1 c.2
    split
    · exact ⟨h1, h2⟩
    · obtain ⟨h3, h4⟩ := ih (golden_move_possible g player c.1 c.2 true).1
      exact ⟨same_stats_trans h1 h3, h4.trans h2⟩

theorem gamma_golden_possible_frame (g : gamma_t) (player : Nat) :
    same_stats g (gamma_golden_possible g player).1 ∧
      (gamma_golden_possible g player).1.owner = g.owner := by
  unfold gamma_golden_possible
  split
  · exact ⟨same_stats_refl g, rfl⟩
  split
  · exact ⟨same_stats_refl g, rfl⟩
  exact golden_possible_loop_frame player _ g

theorem check_false_of_made (g : gamma_t) (player x y : Nat)
    (h : g.made_golden_move player = true) :
    check_golden_move_parameters g player x y = false := by
  unfold check_golden_move_parameters
  by_cases h1 : player_correct g player = false
  · rw [if_pos h1]
  rw [if_neg h1]
  by_cases h2 : x ≥ g.width ∨ y ≥ g.height
  · rw [if_pos h2]
  rw [if_neg h2, if_pos h]

/-- How one call changes the flag of player `p`. -/
theorem run_made_golden_move (g : gamma_t) (c : Call) (p : Nat) :
    (c.run g).made_golden_move p = g.made_golden_move p ∨
    (g.made_golden_move p = false ∧ (c.run g).made_golden_move p = true ∧
      ∃ x y, c = Call.golden_move p x y ∧ (gamma_golden_move g p x y).2 = true) := by
  cases c with
  | move player x y =>
    left
    show (gamma_move g player x y).1.made_golden_move p = _
    rw [gamma_move_eq]
    split
    · rw [moved_made_golden_move]
    · rfl
  | golden_move player x y =>
    show (gamma_golden_move g player x y).1.made_golden_move p = _ ∨ _
    cases hc : check_golden_move_parameters g player x y
    · left
      rw [gamma_golden_move_of_check_false g player x y hc]
    · rw [gamma_golden_move_eq g player x y hc]
      by_cases hs : split_ok g player x y = true
      · rw [if_pos hs]
        dsimp only
        rw [committed_made_golden_move]
        by_cases hp : p = player
        · subst hp
          right
          have hm : g.made_golden_move p = false := by
            cases hm : g.made_golden_move p
            · rfl
            · rw [check_false_of_made g p x y hm] at hc
              exact absurd hc (by simp)
          have hnow : (Call.run g (Call.golden_move p x y)).made_golden_move p = true := by
            show (gamma_golden_move g p x y).1.made_golden_move p = true
            rw [gamma_golden_move_eq g p x y hc, if_pos hs]
            dsimp only
            rw [committed_made_golden_move, set1_same]
          refine ⟨hm, hnow, x, y, rfl, ?_⟩
          rw [gamma_golden_move_eq g p x y hc, if_pos hs]
        · left
          rw [set1_other _ _ _ _ hp]
      · left
        rw [if_neg hs]
        dsimp only
        rw [(reverted_same_stats g player x y).2.2.2.2.2.1]
  | golden_possible player =>
    left
    show (gamma_golden_possible g player).1.made_golden_move p = _
    rw [(gamma_golden_possible_frame g player).1.2.2.2.2.2.1]
  | free_fields player => left; rfl
  | busy_fields player => left; rfl

theorem run_calls_made_golden_move (cs : List Call) : ∀ (g : gamma_t) (p : Nat),
    g.made_golden_move p = true → (run_calls g cs).made_golden_move p = true := by
  induction cs with
  | nil => intro g p h; exact h
  | cons c cs ih =>
    intro g p h
    show (run_calls (c.run g) cs).made_golden_move p = true
    apply ih
    rcases run_made_golden_move g c p with h1 | ⟨h1, -⟩
    · rw [h1]; exact h
    · rw [h1] at h; exact absurd h (by simp)

/-- C9: the golden move is one-shot.  After `gamma_new` no player has the flag
`made_golden_move` set; no call clears a set flag; a call sets the flag of
player `p` only if it is `gamma_golden_move` for `p` and returns true; and once
`gamma_golden_move` has returned true for `p`, after any further calls
`gamma_golden_move` for `p` returns false on every field and
`gamma_golden_possible` for `p` returns false. -/
theorem golden_move_one_shot :
    (∀ width height players areas g p, gamma_new width height players areas = some g →
      g.made_golden_move p = false) ∧
    (∀ (g : gamma_t) (c : Call) (p : Nat), g.made_golden_move p = true →
      (c.run g).made_golden_move p = true) ∧
    (∀ (g : gamma_t) (c : Call) (p : Nat), g.made_golden_move p = false →
      (c.run g).made_golden_move p = true →
      ∃ x y, c = Call.golden_move p x y ∧ (gamma_golden_move g p x y).2 = true) ∧
    (∀ (g : gamma_t) (p x y : Nat) (cs : List Call) (x' y' : Nat),
      (gamma_golden_move g p x y).2 = true →
      (gamma_golden_move (run_calls (gamma_golden_move g p x y).1 cs) p x' y').2 = false ∧
      (gamma_golden_possible (run_calls (gamma_golden_move g p x y).1 cs) p).2 = false) := by
  refine ⟨?_, ?_, ?_, ?_⟩
  · intro width height players areas g p h
    unfold gamma_new at h
    split at h
    · exact absurd h (by simp)
    split at h
    · exact absurd h (by simp)
    · injection h with h
      subst h
      rfl
  · intro g c p h
    rcases run_made_golden_move g c p with h1 | ⟨h1, -⟩
    · rw [h1]; exact h
    · rw [h1] at h; exact absurd h (by simp)
  · intro g c p h h'
    rcases run_made_golden_move g c p with h1 | ⟨-, -, h1⟩
    · rw [h1, h] at h'; exact absurd h' (by simp)
    · exact h1
  · intro g p x y cs x' y' h
    have hset : (gamma_golden_move g p x y).1.made_golden_move p = true := by
      rcases run_made_golden_move g (Call.golden_move p x y) p with h1 | ⟨-, h1, -⟩
      · have h1' : (gamma_golden_move g p x y).1.made_golden_move p =
            g.made_golden_move p := h1
        cases hm : g.made_golden_move p
        · cases hc : check_golden_move_parameters g p x y
          · rw [gamma_golden_move_of_check_false g p x y hc] at h
            exact absurd h (by simp)
          · exfalso
            rw [gamma_golden_move_eq g p x y hc] at h h1'
            by_cases hs : split_ok g p x y = true
            · rw [if_pos hs] at h1'
              dsimp only at h1'
              rw [committed_made_golden_move, hm, set1_same] at h1'
              exact absurd h1' (by simp)
            · rw [if_neg hs] at h
              simp at h
        · rw [h1', hm]
      · exact h1
    have hlater := run_calls_made_golden_move cs _ p hset
    constructor
    · rw [gamma_golden_move_of_check_false _ p x' y' (check_false_of_made _ p x' y' hlater)]
    · unfold gamma_golden_possible
      by_cases h1 : player_correct (run_calls (gamma_golden_move g p x y).1 cs) p = false
      · rw [if_pos h1]
      · rw [if_neg h1, if_pos hlater]

/-- C9 at a concrete input: after the golden move of player 2 onto the middle
of the row, a second golden move and the probe of player 2 both fail. -/
theorem golden_move_one_shot_witness :
    (gamma_golden_move row3_full_limit2 2 1 0).2 = true ∧
    (gamma_golden_move (run_calls (gamma_golden_move row3_full_limit2 2 1 0).1
      [Call.golden_possible 1]) 2 0 0).2 = false ∧
    (gamma_golden_possible (run_calls (gamma_golden_move row3_full_limit2 2 1 0).1
      [Call.golden_possible 1]) 2).2 = false :=
  ⟨by decide, golden_move_one_shot.2.2.2 row3_full_limit2 2 1 0 [Call.golden_possible 1] 0 0
    (by decide)⟩

/-! ## Shapes of the states the calls produce -/

theorem tentative_shape (g : gamma_t) (player x y : Nat) :
    ∃ a, tentative g player x y =
      { g with owner := set2 g.owner y x player, area_id := a, next_id := add32 g.next_id 4 } := by
  unfold tentative
  dsimp only
  obtain ⟨a3, e3, -⟩ := merge_areas_frame
    { g with owner := set2 g.owner y x player, next_id := add32 g.next_id 4 }
    (g.owner y x) (sub32 x 1) y (fresh_ids g) 1
  rw [e3]
  obtain ⟨a4, e4, -⟩ := merge_areas_frame
    (with_area_id { g with owner := set2 g.owner y x player, next_id := add32 g.next_id 4 } a3)
    (g.owner y x) (add32 x 1) y (fresh_ids g) 2
  rw [e4]
  obtain ⟨a5, e5, -⟩ := merge_areas_frame
    (with_area_id { g with owner := set2 g.owner y x player, next_id := add32 g.next_id 4 } a4)
    (g.owner y x) x (sub32 y 1) (fresh_ids g) 3
  rw [with_area_id_twice, e5]
  obtain ⟨a6, e6, -⟩ := merge_areas_frame
    (with_area_id { g with owner := set2 g.owner y x player, next_id := add32 g.next_id 4 } a5)
    (g.owner y x) x (add32 y 1) (fresh_ids g) 4
  rw [with_area_id_twice, e6]
  exact ⟨a6, rfl⟩

theorem moved_shape (g : gamma_t) (player x y : Nat) :
    ∃ a, moved g player x y =
      { g with
        owner := set2 g.owner y x player
        area_id := a
        area_count := set1 g.area_count player
          (sub32 (g.area_count player) (sub32 (distinct_neighbour_count g player x y) 1))
        occupied_count := set1 g.occupied_count player (add64 (g.occupied_count player) 1)
        free_count := sub64 g.free_count 1
        next_id := add32 g.next_id 1 } := by
  unfold moved
  dsimp only
  obtain ⟨a, e, -⟩ := merge_areas_frame
    { g with
      owner := set2 g.owner y x player
      area_count := set1 g.area_count player
        (sub32 (g.area_count player) (sub32 (distinct_neighbour_count g player x y) 1))
      occupied_count := set1 g.occupied_count player (add64 (g.occupied_count player) 1)
      free_count := sub64 g.free_count 1
      next_id := add32 g.next_id 1 }
    player x y [if bordering_area_id g player x y ≠ 0 then bordering_area_id g player x y
      else g.next_id] 1
  rw [e]
  exact ⟨a, rfl⟩

/-- The number of areas of `player` next to the seized field, counted in the
tentative state. -/
def mine_count (g : gamma_t) (player x y : Nat) : Nat :=
  distinct_neighbour_count (tentative g player x y) player x y

/-- The number of pieces of the previous owner's area next to the seized
field, counted in the tentative state. -/
def split_count (g : gamma_t) (player x y : Nat) : Nat :=
  distinct_neighbour_count (tentative g player x y) (g.owner y x) x y

theorem committed_shape (g : gamma_t) (player x y : Nat) :
    ∃ a, committed g player x y =
      { g with
        owner := set2 g.owner y x player
        area_id := a
        area_count := set1
          (set1 g.area_count player
            (sub32 (g.area_count player) (sub32 (mine_count g player x y) 1)))
          (g.owner y x)
          (add32 (set1 g.area_count player
            (sub32 (g.area_count player) (sub32 (mine_count g player x y) 1)) (g.owner y x))
            (sub32 (split_count g player x y) 1))
        occupied_count := set1
          (set1 g.occupied_count player (add64 (g.occupied_count player) 1))
          (g.owner y x)
          (sub64 (set1 g.occupied_count player (add64 (g.occupied_count player) 1)
            (g.owner y x)) 1)
        made_golden_move := set1 g.made_golden_move player true
        next_id := add32 (add32 g.next_id 4) 1 } := by
  unfold committed mine_count split_count
  dsimp only
  obtain ⟨t, et⟩ := tentative_shape g player x y
  rw [et]
  dsimp only
  obtain ⟨a, e, -⟩ := merge_areas_frame
    { g with
        owner := set2 g.owner y x player
        area_id := t
        area_count := set1
          (set1 g.area_count player
            (sub32 (g.area_count player) (sub32 (distinct_neighbour_count
              { g with owner := set2 g.owner y x player, area_id := t,
                       next_id := add32 g.next_id 4 } player x y) 1)))
          (g.owner y x)
          (add32 (set1 g.area_count player
            (sub32 (g.area_count player) (sub32 (distinct_neighbour_count
              { g with owner := set2 g.owner y x player, area_id := t,
                       next_id := add32 g.next_id 4 } player x y) 1)) (g.owner y x))
            (sub32 (distinct_neighbour_count
              { g with owner := set2 g.owner y x player, area_id := t,
                       next_id := add32 g.next_id 4 } (g.owner y x) x y) 1))
        occupied_count := set1
          (set1 g.occupied_count player (add64 (g.occupied_count player) 1))
          (g.owner y x)
          (sub64 (set1 g.occupied_count player (add64 (g.occupied_count player) 1)
            (g.owner y x)) 1)
        made_golden_move := set1 g.made_golden_move player true
        next_id := add32 (add32 g.next_id 4) 1 }
    player x y [add32 g.next_id 4] 1
  rw [e]
  exact ⟨a, rfl⟩

/-! ## Counting fields -/

/-- The fields of the board, as pairs `(x, y)`. -/
def cells (g : gamma_t) : Finset (Nat × Nat) :=
  Finset.range g.width ×ˢ Finset.range g.height

/-- The fields of the board whose owner is `p` (`p = 0`: the free fields). -/
def owned_by (g : gamma_t) (p : Nat) : Finset (Nat × Nat) :=
  (cells g).filter (fun c => g.owner c.2 c.1 = p)

/-- The counters agree with the grid: the sizes fit `uint32_t`, every owner is
a player or nobody, `occupied_count` and `free_count` count fields. -/
structure Counted (g : gamma_t) : Prop where
  width_lt : g.width < UINT32_SIZE
  height_lt : g.height < UINT32_SIZE
  owner_le : ∀ c ∈ cells g, g.owner c.2 c.1 ≤ g.player_count
  occupied : ∀ p, 1 ≤ p → p ≤ g.player_count → g.occupied_count p = (owned_by g p).card
  free : g.free_count = (owned_by g 0).card

theorem mem_cells (g : gamma_t) (x y : Nat) : (x, y) ∈ cells g ↔ x < g.width ∧ y < g.height := by
  simp [cells]

theorem card_cells (g : gamma_t) : (cells g).card = g.width * g.height := by
  simp [cells]

theorem card_owned_by_le (g : gamma_t) (p : Nat) : (owned_by g p).card ≤ g.width * g.height := by
  rw [← card_cells]
  exact Finset.card_filter_le _ _

theorem cells_lt_uint64 (g : gamma_t) (hw : g.width < UINT32_SIZE) (hh : g.height < UINT32_SIZE) :
    g.width * g.height < UINT64_SIZE := by
  unfold UINT32_SIZE at hw hh
  unfold UINT64_SIZE
  nlinarith

/-- The fields of `p` after the assignment `owner[y][x] = v`. -/
theorem owned_by_set2 (g g' : gamma_t) (x y v p : Nat) (hw : g'.width = g.width)
    (hh : g'.height = g.height) (ho : g'.owner = set2 g.owner y x v)
    (hc : (x, y) ∈ cells g) :
    owned_by g' p = if p = v then insert (x, y) (owned_by g p) else (owned_by g p).erase (x, y) := by
  have hcells : cells g' = cells g := by unfold cells; rw [hw, hh]
  ext ⟨a, b⟩
  unfold owned_by
  rw [hcells, ho]
  by_cases hp : p = v
  · rw [if_pos hp]
    simp only [Finset.mem_filter, Finset.mem_insert, Prod.mk.injEq]
    unfold set2
    by_cases hab : b = y ∧ a = x
    · obtain ⟨rfl, rfl⟩ := hab
      simp [hc, hp]
    · rw [if_neg hab]
      constructor
      · intro h; exact Or.inr h
      · rintro (⟨rfl, rfl⟩ | h)
        · exact absurd ⟨rfl, rfl⟩ hab
        · exact h
  · rw [if_neg hp]
    simp only [Finset.mem_filter, Finset.mem_erase, Prod.mk.injEq, ne_eq]
    unfold set2
    by_cases hab : b = y ∧ a = x
    · obtain ⟨rfl, rfl⟩ := hab
      simp only [and_self, if_true, not_true_eq_false, false_and, iff_false, not_and]
      intro _ hv
      exact hp hv.symm
    · rw [if_neg hab]
      constructor
      · rintro ⟨h1, h2⟩
        exact ⟨fun h => hab ⟨h.2, h.1⟩, h1, h2⟩
      · rintro ⟨-, h1, h2⟩
        exact ⟨h1, h2⟩

/-- The number of fields of `p` after the assignment `owner[y][x] = v` to a
field whose owner was not `v`. -/
theorem card_owned_by_set2 (g g' : gamma_t) (x y v p : Nat) (hw : g'.width = g.width)
    (hh : g'.height = g.height) (ho : g'.owner = set2 g.owner y x v)
    (hc : (x, y) ∈ cells g) (hne : g.owner y x ≠ v) :
    (p = v → (owned_by g' p).card = (owned_by g p).card + 1) ∧
    (p = g.owner y x → (owned_by g' p).card + 1 = (owned_by g p).card) ∧
    (p ≠ v → p ≠ g.owner y x → (owned_by g' p).card = (owned_by g p).card) := by
  rw [owned_by_set2 g g' x y v p hw hh ho hc]
  refine ⟨?_, ?_, ?_⟩
  · intro hp
    rw [if_pos hp, Finset.card_insert_of_not_mem]
    unfold owned_by
    simp only [Finset.mem_filter, not_and]
    intro _ h
    exact hne (h.trans hp)
  · intro hp
    have hp' : p ≠ v := fun h => hne (hp.symm.trans h)
    rw [if_neg hp']
    apply Finset.card_erase_add_one
    unfold owned_by
    simp only [Finset.mem_filter]
    exact ⟨hc, hp.symm⟩
  · intro hp hp'
    rw [if_neg hp, Finset.erase_eq_of_not_mem]
    unfold owned_by
    simp only [Finset.mem_filter, not_and]
    intro _ h
    exact hp' h.symm

/-- The invariant `Counted` reads only the sizes, the owners and the two
field counters. -/
theorem Counted.congr_stats {g g' : gamma_t} (h : Counted g) (hs : same_stats g g')
    (ho : g'.owner = g.owner) : Counted g' := by
  obtain ⟨s1, s2, s3, -, -, -, s7, s8, -⟩ := hs
  have hcells : cells g' = cells g := by unfold cells; rw [s1, s2]
  have howned : ∀ p, owned_by g' p = owned_by g p := by
    intro p; unfold owned_by; rw [hcells, ho]
  constructor
  · rw [s1]; exact h.width_lt
  · rw [s2]; exact h.height_lt
  · rw [hcells, ho, s3]; exact h.owner_le
  · intro p h1 h2
    rw [s7, howned, h.occupied p h1 (by rw [← s3]; exact h2)]
  · rw [s8, howned, h.free]

theorem add64_one (n : Nat) (h : n + 1 < UINT64_SIZE) : add64 n 1 = n + 1 := by
  unfold add64
  exact Nat.mod_eq_of_lt h

theorem sub64_one (n : Nat) (h1 : 1 ≤ n) (h : n < UINT64_SIZE) : sub64 n 1 = n - 1 := by
  unfold sub64
  unfold UINT64_SIZE at *
  omega

theorem player_correct_iff (g : gamma_t) (p : Nat) :
    player_correct g p = true ↔ 1 ≤ p ∧ p ≤ g.player_count := by
  unfold player_correct NOBODY
  split
  · rename_i h
    simp only [Bool.false_eq_true, false_iff, not_and, not_le]
    omega
  · rename_i h
    simp only [true_iff]
    omega

/-- What `check_golden_move_parameters` has verified when it returns true. -/
theorem check_true (g : gamma_t) (player x y : Nat)
    (h : check_golden_move_parameters g player x y = true) :
    player_correct g player = true ∧ x < g.width ∧ y < g.height ∧
    g.made_golden_move player = false ∧ g.owner y x ≠ player ∧ g.owner y x ≠ NOBODY ∧
    ¬ (bordering_area_id g player x y = 0 ∧ g.area_count player ≥ g.areas_limit) := by
  unfold check_golden_move_parameters at h
  by_cases h1 : player_correct g player = false
  · rw [if_pos h1] at h; exact absurd h (by simp)
  rw [if_neg h1] at h
  by_cases h2 : x ≥ g.width ∨ y ≥ g.height
  · rw [if_pos h2] at h; exact absurd h (by simp)
  rw [if_neg h2] at h
  by_cases h3 : g.made_golden_move player = true
  · rw [if_pos h3] at h; exact absurd h (by simp)
  rw [if_neg h3] at h
  by_cases h4 : g.owner y x = player ∨ g.owner y x = NOBODY
  · rw [if_pos h4] at h; exact absurd h (by simp)
  rw [if_neg h4] at h
  by_cases h5 : bordering_area_id g player x y = 0 ∧ g.area_count player ≥ g.areas_limit
  · rw [if_pos h5] at h; exact absurd h (by simp)
  refine ⟨by simpa using h1, by omega, by omega, by simpa using h3, ?_, ?_, h5⟩
  · exact fun h' => h4 (Or.inl h')
  · exact fun h' => h4 (Or.inr h')

theorem Counted.after_move {g : gamma_t} (h : Counted g) (player x y : Nat)
    (hok : move_ok g player x y) : Counted (moved g player x y) := by
  obtain ⟨hp, hx, hy, hfree, -⟩ := hok
  obtain ⟨hp1, hp2⟩ := (player_correct_iff g player).1 hp
  obtain ⟨a, e⟩ := moved_shape g player x y
  have hc : (x, y) ∈ cells g := (mem_cells g x y).2 ⟨hx, hy⟩
  have hne : g.owner y x ≠ player := by unfold NOBODY at hfree; omega
  have hcard := fun p => card_owned_by_set2 g (moved g player x y) x y player p
    (by rw [e]) (by rw [e]) (by rw [e]) hc hne
  have hbig := cells_lt_uint64 g h.width_lt h.height_lt
  have hcells : cells (moved g player x y) = cells g := by rw [e]; rfl
  constructor
  · rw [e]; exact h.width_lt
  · rw [e]; exact h.height_lt
  · intro c hcm
    rw [hcells] at hcm
    have := h.owner_le c hcm
    rw [e]
    show set2 g.owner y x player c.2 c.1 ≤ g.player_count
    unfold set2
    split
    · exact hp2
    · exact this
  · intro p h1 h2
    have h2' : p ≤ g.player_count := by rw [e] at h2; exact h2
    have hle := card_owned_by_le (moved g player x y) p
    have hwh : (moved g player x y).width * (moved g player x y).height = g.width * g.height := by
      rw [e]
    rw [hwh] at hle
    have hocc : (moved g player x y).occupied_count p =
        set1 g.occupied_count player (add64 (g.occupied_count player) 1) p := by rw [e]
    rw [hocc]
    by_cases hpp : p = player
    · subst hpp
      rw [set1_same, (hcard p).1 rfl, h.occupied p h1 h2', add64_one]
      have := (hcard p).1 rfl
      omega
    · rw [set1_other _ _ _ _ hpp, (hcard p).2.2 hpp (by rw [hfree]; unfold NOBODY; omega),
        h.occupied p h1 h2']
  · have hfc : (moved g player x y).free_count = sub64 g.free_count 1 := by rw [e]
    have h0 := (hcard 0).2.1 (by rw [hfree]; rfl)
    have hle := card_owned_by_le g 0
    rw [hfc, h.free, sub64_one _ (by omega) (by omega)]
    omega

theorem Counted.after_commit {g : gamma_t} (h : Counted g) (player x y : Nat)
    (hcheck : check_golden_move_parameters g player x y = true) :
    Counted (committed g player x y) := by
  obtain ⟨hp, hx, hy, -, hne, hnobody, -⟩ := check_true g player x y hcheck
  obtain ⟨hp1, hp2⟩ := (player_correct_iff g player).1 hp
  obtain ⟨a, e⟩ := committed_shape g player x y
  have hc : (x, y) ∈ cells g := (mem_cells g x y).2 ⟨hx, hy⟩
  have hq2 : g.owner y x ≤ g.player_count := h.owner_le (x, y) hc
  have hq1 : 1 ≤ g.owner y x := by unfold NOBODY at hnobody; omega
  have hcard := fun p => card_owned_by_set2 g (committed g player x y) x y player p
    (by rw [e]) (by rw [e]) (by rw [e]) hc hne
  have hbig := cells_lt_uint64 g h.width_lt h.height_lt
  have hcells : cells (committed g player x y) = cells g := by rw [e]; rfl
  constructor
  · rw [e]; exact h.width_lt
  · rw [e]; exact h.height_lt
  · intro c hcm
    rw [hcells] at hcm
    have := h.owner_le c hcm
    rw [e]
    show set2 g.owner y x player c.2 c.1 ≤ g.player_count
    unfold set2
    split
    · exact hp2
    · exact this
  · intro p h1 h2
    have h2' : p ≤ g.player_count := by rw [e] at h2; exact h2
    have hle := card_owned_by_le (committed g player x y) p
    have hwh : (committed g player x y).width * (committed g player x y).height =
        g.width * g.height := by rw [e]
    rw [hwh] at hle
    have hocc : (committed g player x y).occupied_count p =
        set1 (set1 g.occupied_count player (add64 (g.occupied_count player) 1))
          (g.owner y x)
          (sub64 (set1 g.occupied_count player (add64 (g.occupied_count player) 1)
            (g.owner y x)) 1) p := by rw [e]
    rw [hocc]
    by_cases hpq : p = g.owner y x
    · rw [hpq, set1_same, set1_other _ _ _ _ hne, ← hpq]
      have hq := (hcard p).2.1 hpq
      have hle' := card_owned_by_le g p
      rw [h.occupied p h1 h2', sub64_one _ (by omega) (by omega)]
      omega
    · rw [set1_other _ _ _ _ hpq]
      by_cases hpp : p = player
      · subst hpp
        rw [set1_same, (hcard p).1 rfl, h.occupied p h1 h2', add64_one]
        have := (hcard p).1 rfl
        omega
      · rw [set1_other _ _ _ _ hpp, (hcard p).2.2 hpp hpq, h.occupied p h1 h2']
  · have hfc : (committed g player x y).free_count = g.free_count := by rw [e]
    rw [hfc, h.free, (hcard 0).2.2 (by omega) (by omega)]

theorem Counted.of_new (width height players areas : Nat) (g : gamma_t)
    (hw : width < UINT32_SIZE) (hh : height < UINT32_SIZE)
    (h : gamma_new width height players areas = some g) : Counted g := by
  unfold gamma_new at h
  split at h
  · exact absurd h (by simp)
  split at h
  · exact absurd h (by simp)
  injection h with h
  subst h
  constructor
  · exact hw
  · exact hh
  · intro c _; exact Nat.zero_le _
  · intro p h1 _
    show 0 = _
    symm
    rw [Finset.card_eq_zero]
    unfold owned_by
    apply Finset.filter_eq_empty_iff.2
    intro c _
    show ¬ (NOBODY = p)
    unfold NOBODY
    omega
  · show (width * height) % UINT64_SIZE = _
    have hall : owned_by
        { width := width, height := height, player_count := players, areas_limit := areas,
          owner := fun _ _ => NOBODY, area_id := fun _ _ => EMPTY, area_count := fun _ => 0,
          made_golden_move := fun _ => false, occupied_count := fun _ => 0,
          free_count := (width * height) % UINT64_SIZE, next_id := 1,
          frame := digit_count players } 0 = cells
        { width := width, height := height, player_count := players, areas_limit := areas,
          owner := fun _ _ => NOBODY, area_id := fun _ _ => EMPTY, area_count := fun _ => 0,
          made_golden_move := fun _ => false, occupied_count := fun _ => 0,
          free_count := (width * height) % UINT64_SIZE, next_id := 1,
          frame := digit_count players } := by
      unfold owned_by
      apply Finset.filter_true_of_mem
      intro c _
      rfl
    rw [hall, card_cells]
    apply Nat.mod_eq_of_lt
    unfold UINT32_SIZE at hw hh
    unfold UINT64_SIZE
    show width * height < _
    nlinarith

theorem Counted.after_call {g : gamma_t} (h : Counted g) (c : Call) : Counted (c.run g) := by
  cases c with
  | move player x y =>
    show Counted (gamma_move g player x y).1
    rw [gamma_move_eq]
    by_cases hok : move_ok g player x y
    · rw [if_pos hok]; exact h.after_move player x y hok
    · rw [if_neg hok]; exact h
  | golden_move player x y =>
    show Counted (gamma_golden_move g player x y).1
    cases hc : check_golden_move_parameters g player x y
    · rw [gamma_golden_move_of_check_false g player x y hc]; exact h
    · rw [gamma_golden_move_eq g player x y hc]
      by_cases hs : split_ok g player x y = true
      · rw [if_pos hs]; exact h.after_commit player x y hc
      · rw [if_neg hs]
        exact h.congr_stats (reverted_same_stats g player x y) (reverted_owner g player x y)
  | golden_possible player =>
    exact h.congr_stats (gamma_golden_possible_frame g player).1 (gamma_golden_possible_frame g player).2
  | free_fields player => exact h
  | busy_fields player => exact h

theorem Reachable.counted {g : gamma_t} (h : Reachable g) : Counted g := by
  induction h with
  | new width height players areas g hw hh _ _ hnew =>
    exact Counted.of_new width height players areas g hw hh hnew
  | step g c _ ih => exact ih.after_call c

theorem Reachable.after_calls {g : gamma_t} (h : Reachable g) (cs : List Call) :
    Reachable (run_calls g cs) := by
  induction cs generalizing g with
  | nil => exact h
  | cons c cs ih => exact ih (Reachable.step g c h)

theorem add32_one_ne_zero (n : Nat) (h : n + 1 < UINT32_SIZE) : ¬ (add32 n 1 = 0) := by
  unfold add32
  rw [Nat.mod_eq_of_lt h]
  omega

theorem reachable_board (width height players areas : Nat) (hw : width < UINT32_SIZE)
    (hh : height < UINT32_SIZE) (hp : players + 1 < UINT32_SIZE) (ha : areas < UINT32_SIZE)
    (h1 : ¬ (width < 1 ∨ height < 1 ∨ players < 1 ∨ areas < 1)) :
    Reachable (board width height players areas) := by
  apply Reachable.new width height players areas _ hw hh (by omega) ha
  unfold board gamma_new
  rw [if_neg h1, if_neg (add32_one_ne_zero players hp)]
  rfl

/-- C10: conservation.  In every state reachable from `gamma_new` the
occupied counters of the players `1..players` and `free_count` add up to
`width * height`, as exact integers. -/
theorem conservation (g : gamma_t) (h : Reachable g) :
    (∑ p ∈ Finset.Icc 1 g.player_count, g.occupied_count p) + g.free_count =
      g.width * g.height := by
  have hc := h.counted
  have h1 : ∑ p ∈ Finset.Icc 1 g.player_count, g.occupied_count p =
      ∑ p ∈ Finset.Icc 1 g.player_count, (owned_by g p).card := by
    apply Finset.sum_congr rfl
    intro p hp
    rw [Finset.mem_Icc] at hp
    exact hc.occupied p hp.1 hp.2
  rw [h1, hc.free, ← card_cells]
  have h2 := Finset.card_eq_sum_card_fiberwise (s := cells g)
    (t := Finset.range (g.player_count + 1)) (f := fun c => g.owner c.2 c.1)
    (fun c hcm => Finset.mem_range.2 (Nat.lt_succ_of_le (hc.owner_le c hcm)))
  rw [h2, Finset.range_eq_Ico, Finset.sum_eq_sum_Ico_succ_bot (Nat.succ_pos _),
    Nat.Ico_succ_right, add_comm]
  rfl

/-- C10 at a concrete reachable state: the full row of three fields. -/
theorem conservation_witness :
    (∑ p ∈ Finset.Icc 1 row3_full.player_count, row3_full.occupied_count p) +
      row3_full.free_count = row3_full.width * row3_full.height :=
  conservation row3_full
    ((reachable_board 3 1 2 1 (by decide) (by decide) (by decide) (by decide)
      (by decide)).after_calls _)

/-! ## Connectivity on the grid -/

/-- Two fields share a side (4-neighbourhood; diagonals do not count). -/
def adj (c d : Nat × Nat) : Prop :=
  (c.2 = d.2 ∧ (c.1 + 1 = d.1 ∨ d.1 + 1 = c.1)) ∨ (c.1 = d.1 ∧ (c.2 + 1 = d.2 ∨ d.2 + 1 = c.2))

instance (c d : Nat × Nat) : Decidable (adj c d) := by
  unfold adj; infer_instance

/-- One step between neighbouring fields of the set `S`. -/
def link (S : Finset (Nat × Nat)) (u v : Nat × Nat) : Prop :=
  u ∈ S ∧ v ∈ S ∧ adj u v

/-- The fields `a` and `b` are joined by a path of neighbouring fields of `S`
(every field is joined to itself). -/
def Conn (S : Finset (Nat × Nat)) (a b : Nat × Nat) : Prop :=
  Relation.ReflTransGen (link S) a b

/-- The field `u` lies in an area of `S` that touches the field `c`. -/
def Near (S : Finset (Nat × Nat)) (c u : Nat × Nat) : Prop :=
  ∃ n, n ∈ S ∧ adj c n ∧ Conn S n u

theorem adj_symm {c d : Nat × Nat} (h : adj c d) : adj d c := by
  unfold adj at *
  omega

theorem adj_ne {c d : Nat × Nat} (h : adj c d) : c ≠ d := by
  rintro rfl
  unfold adj at h
  omega

theorem link_symm {S : Finset (Nat × Nat)} {u v : Nat × Nat} (h : link S u v) : link S v u :=
  ⟨h.2.1, h.1, adj_symm h.2.2⟩

theorem Conn.rfl' (S : Finset (Nat × Nat)) (a : Nat × Nat) : Conn S a a :=
  Relation.ReflTransGen.refl

theorem Conn.symm {S : Finset (Nat × Nat)} {a b : Nat × Nat} (h : Conn S a b) : Conn S b a :=
  Relation.ReflTransGen.symmetric (fun _ _ h => link_symm h) h

theorem Conn.trans {S : Finset (Nat × Nat)} {a b c : Nat × Nat} (h : Conn S a b)
    (h' : Conn S b c) : Conn S a c :=
  Relation.ReflTransGen.trans h h'

theorem Conn.step {S : Finset (Nat × Nat)} {a u v : Nat × Nat} (h : Conn S a u)
    (hu : u ∈ S) (hv : v ∈ S) (huv : adj u v) : Conn S a v :=
  Relation.ReflTransGen.tail h ⟨hu, hv, huv⟩

theorem Conn.single {S : Finset (Nat × Nat)} {u v : Nat × Nat}
    (hu : u ∈ S) (hv : v ∈ S) (huv : adj u v) : Conn S u v :=
  Relation.ReflTransGen.single ⟨hu, hv, huv⟩

theorem Conn.mono {S T : Finset (Nat × Nat)} (hST : S ⊆ T) {a b : Nat × Nat}
    (h : Conn S a b) : Conn T a b :=
  Relation.ReflTransGen.mono (fun _ _ h => ⟨hST h.1, hST h.2.1, h.2.2⟩) h

theorem Conn.mem {S : Finset (Nat × Nat)} {a b : Nat × Nat} (h : Conn S a b) (ha : a ∈ S) :
    b ∈ S := by
  induction h with
  | refl => exact ha
  | tail _ hbc _ => exact hbc.2.1

theorem Conn.eq_of_not_mem {S : Finset (Nat × Nat)} {a b : Nat × Nat} (h : Conn S a b)
    (ha : a ∉ S) : b = a := by
  induction h with
  | refl => rfl
  | tail _ hbc ih => rw [ih] at hbc; exact absurd hbc.1 ha

/-- A path that starts outside a set closed under steps never enters it. -/
theorem Conn.avoid {F F' : Finset (Nat × Nat)} (A : Nat × Nat → Prop)
    (hcl : ∀ u v, A u → u ∈ F → v ∈ F → adj u v → A v)
    (hF' : ∀ u, u ∈ F → ¬ A u → u ∈ F') {n c : Nat × Nat} (hn : ¬ A n)
    (h : Conn F n c) : Conn F' n c ∧ ¬ A c := by
  induction h with
  | refl => exact ⟨Conn.rfl' _ _, hn⟩
  | tail _ hbc ih =>
    obtain ⟨hu, hv, huv⟩ := hbc
    have hnot : ¬ A _ := fun hA => ih.2 (hcl _ _ hA hv hu (adj_symm huv))
    exact ⟨ih.1.step (hF' _ hu ih.2) (hF' _ hv hnot) huv, hnot⟩

/-- A path from `s` either stays at `s` or leaves through a neighbour and
then never needs `s` again. -/
theorem Conn.start {F : Finset (Nat × Nat)} {s c : Nat × Nat} (h : Conn F s c) :
    c = s ∨ ∃ n, n ∈ F.erase s ∧ adj s n ∧ Conn (F.erase s) n c := by
  induction h with
  | refl => exact Or.inl rfl
  | @tail u v _ hbc ih =>
    obtain ⟨hu, hv, huv⟩ := hbc
    by_cases hvs : v = s
    · exact Or.inl hvs
    have hv' : v ∈ F.erase s := Finset.mem_erase.2 ⟨hvs, hv⟩
    rcases ih with rfl | ⟨n, hn, hsn, hnu⟩
    · exact Or.inr ⟨v, hv', huv, Conn.rfl' _ _⟩
    · exact Or.inr ⟨n, hn, hsn, hnu.step (hnu.mem hn) hv' huv⟩

theorem Near.near_step {S : Finset (Nat × Nat)} {c u v : Nat × Nat} (h : Near S c u)
    (hu : u ∈ S) (hv : v ∈ S) (huv : adj u v) : Near S c v := by
  obtain ⟨n, hn, hcn, hnu⟩ := h
  exact ⟨n, hn, hcn, hnu.step hu hv huv⟩

theorem Near.mem_set {S : Finset (Nat × Nat)} {c u : Nat × Nat} (h : Near S c u) : u ∈ S := by
  obtain ⟨n, hn, -, hnu⟩ := h
  exact hnu.mem hn

theorem Near.of_conn {S : Finset (Nat × Nat)} {c u v : Nat × Nat} (h : Near S c u)
    (huv : Conn S u v) : Near S c v := by
  obtain ⟨n, hn, hcn, hnu⟩ := h
  exact ⟨n, hn, hcn, hnu.trans huv⟩

/-- Paths through the extra field `c`: what a path in `insert c S` that starts
in `S` amounts to in `S`. -/
theorem Conn.insert_aux {S : Finset (Nat × Nat)} {c a u : Nat × Nat} (hc : c ∉ S)
    (ha : a ∈ S) (h : Conn (insert c S) a u) :
    (u ∈ S → Conn S a u ∨ (Near S c a ∧ Near S c u)) ∧ (u = c → Near S c a) := by
  induction h with
  | refl =>
    exact ⟨fun _ => Or.inl (Conn.rfl' _ _), fun h => absurd (h ▸ ha) hc⟩
  | @tail u v _ hbc ih =>
    obtain ⟨hu, hv, huv⟩ := hbc
    constructor
    · intro hvS
      by_cases huc : u = c
      · have hna := ih.2 huc
        right
        exact ⟨hna, v, hvS, huc ▸ huv, Conn.rfl' _ _⟩
      · have huS : u ∈ S := by
          rcases Finset.mem_insert.1 hu with h | h
          · exact absurd h huc
          · exact h
        rcases ih.1 huS with h | ⟨h1, h2⟩
        · exact Or.inl (h.step huS hvS huv)
        · exact Or.inr ⟨h1, h2.near_step huS hvS huv⟩
    · intro hvc
      have huc : u ≠ c := fun h => adj_ne huv (h.trans hvc.symm)
      have huS : u ∈ S := by
        rcases Finset.mem_insert.1 hu with h | h
        · exact absurd h huc
        · exact h
      have hnu : Near S c u := ⟨u, huS, adj_symm (hvc ▸ huv), Conn.rfl' _ _⟩
      rcases ih.1 huS with h | ⟨h1, -⟩
      · exact hnu.of_conn h.symm
      · exact h1

/-- Two fields of `S` joined in `insert c S` are joined in `S` or both lie in
areas that touch `c`. -/
theorem Conn.of_insert {S : Finset (Nat × Nat)} {c a b : Nat × Nat} (hc : c ∉ S)
    (ha : a ∈ S) (hb : b ∈ S) (h : Conn (insert c S) a b) :
    Conn S a b ∨ (Near S c a ∧ Near S c b) :=
  (Conn.insert_aux hc ha h).1 hb

/-- A field of `S` joined to `c` in `insert c S` lies in an area that touches `c`. -/
theorem Near.of_conn_insert {S : Finset (Nat × Nat)} {c a : Nat × Nat} (hc : c ∉ S)
    (ha : a ∈ S) (h : Conn (insert c S) a c) : Near S c a :=
  (Conn.insert_aux hc ha h).2 rfl

/-- A field in an area that touches `c` is joined to `c` once `c` is added. -/
theorem Near.conn_insert {S : Finset (Nat × Nat)} {c a : Nat × Nat} (h : Near S c a) :
    Conn (insert c S) c a := by
  obtain ⟨n, hn, hcn, hna⟩ := h
  exact (Conn.single (Finset.mem_insert_self c S) (Finset.mem_insert_of_mem hn) hcn).trans
    (hna.mono (Finset.subset_insert c S))

/-! ## What `merge_areas` relabels -/

/-- The field `c` is reached from the field `s` of `F` inside `F`. -/
def Reach (F : Finset (Nat × Nat)) (s c : Nat × Nat) : Prop :=
  s ∈ F ∧ Conn F s c

/-- The fields that a call of `merge_areas` for `player` with the skip list
`ids[0..length-1]` would relabel when visited: fields of `player` whose label
is not skipped. -/
def free_cells (g : gamma_t) (player : Nat) (ids : List Nat) (length : Nat) :
    Finset (Nat × Nat) :=
  (cells g).filter
    (fun c => g.owner c.2 c.1 = player ∧ skip_id ids length (g.area_id c.2 c.1) = false)

theorem Reach.mem_free {F : Finset (Nat × Nat)} {s c : Nat × Nat} (h : Reach F s c) : c ∈ F :=
  h.2.mem h.1

theorem Reach.reach_step {F : Finset (Nat × Nat)} {s u v : Nat × Nat} (h : Reach F s u)
    (hv : v ∈ F) (huv : adj u v) : Reach F s v :=
  ⟨h.1, h.2.step h.mem_free hv huv⟩

theorem Reach.mono_free {F F' : Finset (Nat × Nat)} (hsub : F' ⊆ F) {s c : Nat × Nat}
    (h : Reach F' s c) : Reach F s c :=
  ⟨hsub h.1, h.2.mono hsub⟩

/-- A set closed under steps of `F` contains whatever is joined to one of its
members. -/
theorem closed_conn {F : Finset (Nat × Nat)} (A : Nat × Nat → Prop)
    (hcl : ∀ u v, A u → u ∈ F → v ∈ F → adj u v → A v) {n c : Nat × Nat} (hn : A n)
    (h : Conn F n c) : A c := by
  induction h with
  | refl => exact hn
  | tail _ hbc ih => exact hcl _ _ ih hbc.1 hbc.2.1 hbc.2.2

/-- The label of the last skipped entry is itself skipped. -/
theorem skip_id_target (ids : List Nat) (length : Nat) (h : 1 ≤ length) :
    skip_id ids length (ids.getD (length - 1) 0) = true := by
  unfold skip_id
  rw [List.any_eq_true]
  exact ⟨length - 1, List.mem_range.2 (by omega), by simp⟩

/-- Two floods in a row: if the labels `a` are the labels `l0` with the closed
set `A` relabelled to `t`, and `a'` relabels what is reached from `n` among the
fields left over, then `a'` is `l0` with `A` and everything reached from `n`
relabelled. -/
theorem flood_compose (F0 F' : Finset (Nat × Nat)) (A : Nat × Nat → Prop)
    (l0 a a' : Nat → Nat → Nat) (t : Nat) (n : Nat × Nat)
    (hrel : ∀ c : Nat × Nat, (A c → a c.2 c.1 = t) ∧ (¬ A c → a c.2 c.1 = l0 c.2 c.1))
    (hcl : ∀ u v, A u → u ∈ F0 → v ∈ F0 → adj u v → A v)
    (hF' : ∀ c, c ∈ F' ↔ c ∈ F0 ∧ ¬ A c)
    (hrel' : ∀ c : Nat × Nat, (Reach F' n c → a' c.2 c.1 = t) ∧
      (¬ Reach F' n c → a' c.2 c.1 = a c.2 c.1)) :
    (∀ c : Nat × Nat, (A c ∨ Reach F0 n c → a' c.2 c.1 = t) ∧
      (¬ (A c ∨ Reach F0 n c) → a' c.2 c.1 = l0 c.2 c.1)) ∧
    (∀ u v, A u ∨ Reach F0 n u → u ∈ F0 → v ∈ F0 → adj u v → A v ∨ Reach F0 n v) := by
  have hsub : F' ⊆ F0 := fun c hc => ((hF' c).1 hc).1
  constructor
  · intro c
    constructor
    · intro h
      by_cases hr : Reach F' n c
      · exact (hrel' c).1 hr
      rw [(hrel' c).2 hr]
      by_cases hA : A c
      · exact (hrel c).1 hA
      exfalso
      rcases h with h | h
      · exact hA h
      by_cases hn : A n
      · exact hA (closed_conn A hcl hn h.2)
      · have := Conn.avoid A hcl (fun u hu hnu => (hF' u).2 ⟨hu, hnu⟩) hn h.2
        exact hr ⟨(hF' n).2 ⟨h.1, hn⟩, this.1⟩
    · intro h
      have hA : ¬ A c := fun hA => h (Or.inl hA)
      have hr : ¬ Reach F' n c := fun hr => h (Or.inr (hr.mono_free hsub))
      rw [(hrel' c).2 hr, (hrel c).2 hA]
  · intro u v h hu hv huv
    rcases h with h | h
    · exact Or.inl (hcl u v h hu hv huv)
    · exact Or.inr (h.reach_step hv huv)

/-- The four neighbours of a field, as `merge_areas` computes them. -/
theorem adj_iff_neighbour (width height x y : Nat) (hw : width < UINT32_SIZE)
    (hh : height < UINT32_SIZE) (hx : x < width) (hy : y < height) (n : Nat × Nat)
    (hn1 : n.1 < width) (hn2 : n.2 < height) :
    adj (x, y) n ↔ n = (sub32 x 1, y) ∨ n = (add32 x 1, y) ∨ n = (x, sub32 y 1) ∨
      n = (x, add32 y 1) := by
  obtain ⟨a, b⟩ := n
  unfold adj sub32 add32
  unfold UINT32_SIZE at *
  simp only [Prod.mk.injEq]
  omega

theorem mem_free_cells (g : gamma_t) (player : Nat) (ids : List Nat) (length : Nat)
    (c : Nat × Nat) : c ∈ free_cells g player ids length ↔
      c ∈ cells g ∧ g.owner c.2 c.1 = player ∧
        skip_id ids length (g.area_id c.2 c.1) = false := by
  unfold free_cells
  rw [Finset.mem_filter]

/-- The fields still to relabel after the set `A` has been given the label `t`. -/
theorem free_cells_relabel (g : gamma_t) (player : Nat) (ids : List Nat) (length : Nat)
    (a : Nat → Nat → Nat) (A : Nat × Nat → Prop) (t : Nat)
    (ht : skip_id ids length t = true)
    (hrel : ∀ c : Nat × Nat, (A c → a c.2 c.1 = t) ∧ (¬ A c → a c.2 c.1 = g.area_id c.2 c.1))
    (c : Nat × Nat) :
    c ∈ free_cells (with_area_id g a) player ids length ↔
      c ∈ free_cells g player ids length ∧ ¬ A c := by
  rw [mem_free_cells, mem_free_cells]
  show c ∈ cells g ∧ g.owner c.2 c.1 = player ∧ skip_id ids length (a c.2 c.1) = false ↔ _
  by_cases hA : A c
  · rw [(hrel c).1 hA, ht]
    simp [hA]
  · rw [(hrel c).2 hA]
    simp [hA]

/-- The flood: with enough fuel `merge_areas_fuel` returns, and the state it
returns is `g` with exactly the fields reached from (x, y) through fields of
`player` with an unskipped label relabelled to `ids[length - 1]`. -/
theorem merge_areas_fuel_spec (player : Nat) (ids : List Nat) (length : Nat)
    (hlen : 1 ≤ length) : ∀ (fuel : Nat) (g : gamma_t), player_correct g player = true →
    g.width < UINT32_SIZE → g.height < UINT32_SIZE →
    (free_cells g player ids length).card < fuel → ∀ x y : Nat,
    ∃ a, merge_areas_fuel fuel g player x y ids length = some (with_area_id g a) ∧
      ∀ c : Nat × Nat,
        (Reach (free_cells g player ids length) (x, y) c →
          a c.2 c.1 = ids.getD (length - 1) 0) ∧
        (¬ Reach (free_cells g player ids length) (x, y) c →
          a c.2 c.1 = g.area_id c.2 c.1) := by
  intro fuel
  induction fuel with
  | zero => intro g _ _ _ hcard; omega
  | succ fuel ih =>
    intro g hp hw hh hcard x y
    have ht := skip_id_target ids length hlen
    by_cases hs : (x, y) ∈ free_cells g player ids length
    · obtain ⟨hscell, hsown, hsskip⟩ := (mem_free_cells g player ids length (x, y)).1 hs
      obtain ⟨hx, hy⟩ := (mem_cells g x y).1 hscell
      rw [merge_areas_fuel, if_neg (by rw [hp]; simp; omega), if_neg (by simpa using hsown),
        if_neg (by simpa using hsskip)]
      dsimp only
      have hrel0 : ∀ c : Nat × Nat,
          (c = (x, y) → set2 g.area_id y x (ids.getD (length - 1) 0) c.2 c.1 =
            ids.getD (length - 1) 0) ∧
          (¬ c = (x, y) → set2 g.area_id y x (ids.getD (length - 1) 0) c.2 c.1 =
            g.area_id c.2 c.1) := by
        intro c
        constructor
        · rintro rfl; exact set2_same _ _ _ _
        · intro hne
          apply set2_other
          rintro ⟨h1, h2⟩
          exact hne (Prod.ext h2 h1)
      have hF0 := free_cells_relabel g player ids length _ (fun c => c = (x, y)) _ ht hrel0
      have hF0sub : free_cells (with_area_id g (set2 g.area_id y x (ids.getD (length - 1) 0)))
          player ids length ⊆ free_cells g player ids length := fun c hc => ((hF0 c).1 hc).1
      have hcard0 : (free_cells (with_area_id g (set2 g.area_id y x (ids.getD (length - 1) 0)))
          player ids length).card < fuel := by
        have : (free_cells (with_area_id g (set2 g.area_id y x (ids.getD (length - 1) 0)))
            player ids length) ⊆ (free_cells g player ids length).erase (x, y) := by
          intro c hc
          exact Finset.mem_erase.2 ⟨((hF0 c).1 hc).2, ((hF0 c).1 hc).1⟩
        have h1 := Finset.card_le_card this
        have h2 := Finset.card_erase_lt_of_mem hs
        omega
      -- first neighbour
      obtain ⟨a1, e1, r1⟩ := ih (with_area_id g (set2 g.area_id y x (ids.getD (length - 1) 0)))
        hp hw hh hcard0 (sub32 x 1) y
      rw [e1]
      dsimp only
      obtain ⟨q1, c1⟩ := flood_compose _ _ (fun _ => False) _ _ a1 _ (sub32 x 1, y)
        (fun c => ⟨fun h => h.elim, fun _ => rfl⟩) (fun _ _ h _ _ _ => h)
        (fun c => ⟨fun h => ⟨h, fun h' => h'⟩, fun h => h.1⟩) r1
      have hF1 := free_cells_relabel _ player ids length a1 _ _ ht q1
      have hcard1 : (free_cells (with_area_id g a1) player ids length).card < fuel :=
        lt_of_le_of_lt (Finset.card_le_card (fun c hc => ((hF1 c).1 hc).1)) hcard0
      -- second neighbour
      obtain ⟨a2, e2, r2⟩ := ih (with_area_id g a1) hp hw hh hcard1 (add32 x 1) y
      rw [with_area_id_twice, e2]
      dsimp only
      obtain ⟨q2, c2⟩ := flood_compose _ _ _ _ a1 a2 _ (add32 x 1, y) q1 c1 hF1 r2
      have hF2 := free_cells_relabel _ player ids length a2 _ _ ht q2
      have hcard2 : (free_cells (with_area_id g a2) player ids length).card < fuel :=
        lt_of_le_of_lt (Finset.card_le_card (fun c hc => ((hF2 c).1 hc).1)) hcard0
      -- third neighbour
      obtain ⟨a3, e3, r3⟩ := ih (with_area_id g a2) hp hw hh hcard2 x (sub32 y 1)
      rw [with_area_id_twice, e3]
      dsimp only
      obtain ⟨q3, c3⟩ := flood_compose _ _ _ _ a2 a3 _ (x, sub32 y 1) q2 c2 hF2 r3
      have hF3 := free_cells_relabel _ player ids length a3 _ _ ht q3
      have hcard3 : (free_cells (with_area_id g a3) player ids length).card < fuel :=
        lt_of_le_of_lt (Finset.card_le_card (fun c hc => ((hF3 c).1 hc).1)) hcard0
      -- fourth neighbour
      obtain ⟨a4, e4, r4⟩ := ih (with_area_id g a3) hp hw hh hcard3 x (add32 y 1)
      rw [with_area_id_twice, e4]
      obtain ⟨q4, -⟩ := flood_compose _ _ _ _ a3 a4 _ (x, add32 y 1) q3 c3 hF3 r4
      refine ⟨a4, rfl, ?_⟩
      -- the fields reached from a neighbour are the fields reached from (x, y)
      have hnb : ∀ (n c : Nat × Nat),
          n = (sub32 x 1, y) ∨ n = (add32 x 1, y) ∨ n = (x, sub32 y 1) ∨ n = (x, add32 y 1) →
          Reach (free_cells (with_area_id g (set2 g.area_id y x (ids.getD (length - 1) 0)))
            player ids length) n c →
          Reach (free_cells g player ids length) (x, y) c := by
        intro n c hn hr
        have hnF := hF0sub hr.1
        have hncell := ((mem_free_cells g player ids length n).1 hnF).1
        obtain ⟨hn1, hn2⟩ := (mem_cells g n.1 n.2).1 hncell
        have hadj := (adj_iff_neighbour g.width g.height x y hw hh hx hy n hn1 hn2).2 hn
        exact ⟨hs, (Conn.single hs hnF hadj).trans (hr.2.mono hF0sub)⟩
      have hself : a4 y x = ids.getD (length - 1) 0 := by
        obtain ⟨P, h1, h2⟩ : ∃ P : Prop, (P → a4 y x = ids.getD (length - 1) 0) ∧
            (¬ P → a4 y x = set2 g.area_id y x (ids.getD (length - 1) 0) y x) :=
          ⟨_, q4 (x, y)⟩
        by_cases hP : P
        · exact h1 hP
        · rw [h2 hP]; exact set2_same _ _ _ _
      intro c
      constructor
      · intro hr
        rcases Conn.start hr.2 with rfl | ⟨n, hn, hsn, hnc⟩
        · exact hself
        · have hn' := Finset.mem_erase.1 hn
          have hnF0 : n ∈ free_cells (with_area_id g
              (set2 g.area_id y x (ids.getD (length - 1) 0))) player ids length :=
            (hF0 n).2 ⟨hn'.2, hn'.1⟩
          have hnc' : Conn (free_cells (with_area_id g
              (set2 g.area_id y x (ids.getD (length - 1) 0))) player ids length) n c :=
            hnc.mono (fun u hu =>
              (hF0 u).2 ⟨(Finset.mem_erase.1 hu).2, (Finset.mem_erase.1 hu).1⟩)
          have hncell := ((mem_free_cells g player ids length n).1 hn'.2).1
          obtain ⟨hn1, hn2⟩ := (mem_cells g n.1 n.2).1 hncell
          have hwhich := (adj_iff_neighbour g.width g.height x y hw hh hx hy n hn1 hn2).1 hsn
          apply (q4 c).1
          rcases hwhich with h | h | h | h
          · exact Or.inl (Or.inl (Or.inl (Or.inr (h ▸ ⟨hnF0, hnc'⟩))))
          · exact Or.inl (Or.inl (Or.inr (h ▸ ⟨hnF0, hnc'⟩)))
          · exact Or.inl (Or.inr (h ▸ ⟨hnF0, hnc'⟩))
          · exact Or.inr (h ▸ ⟨hnF0, hnc'⟩)
      · intro hr
        have hne : ¬ c = (x, y) := by
          rintro rfl
          exact hr ⟨hs, Conn.rfl' _ _⟩
        rw [(q4 c).2 ?_]
        · exact (hrel0 c).2 hne
        · rintro ((((h | h) | h) | h) | h)
          · exact h
          · exact hr (hnb _ c (Or.inl rfl) h)
          · exact hr (hnb _ c (Or.inr (Or.inl rfl)) h)
          · exact hr (hnb _ c (Or.inr (Or.inr (Or.inl rfl))) h)
          · exact hr (hnb _ c (Or.inr (Or.inr (Or.inr rfl))) h)
    · have hnr : ∀ c, ¬ Reach (free_cells g player ids length) (x, y) c := fun c h => hs h.1
      refine ⟨g.area_id, ?_, fun c => ⟨fun h => absurd h (hnr c), fun _ => rfl⟩⟩
      rw [merge_areas_fuel]
      by_cases h1 : player_correct g player = false ∨ x ≥ g.width ∨ y ≥ g.height ∨ length < 1
      · rw [if_pos h1]; rfl
      rw [if_neg h1]
      by_cases h2 : g.owner y x ≠ player
      · rw [if_pos h2]; rfl
      rw [if_neg h2]
      by_cases h3 : skip_id ids length (g.area_id y x) = true
      · rw [if_pos h3]; rfl
      exfalso
      apply hs
      rw [mem_free_cells, mem_cells]
      refine ⟨⟨by omega, by omega⟩, by simpa using h2, by simpa using h3⟩

theorem card_free_cells_le (g : gamma_t) (player : Nat) (ids : List Nat) (length : Nat) :
    (free_cells g player ids length).card ≤ g.width * g.height := by
  rw [← card_cells]
  exact Finset.card_filter_le _ _

/-- The depth `width * height + 1` that `merge_areas` is run with suffices. -/
theorem merge_areas_fuel_isSome (g : gamma_t) (player x y : Nat) (ids : List Nat)
    (length : Nat) (hp : player_correct g player = true) (hlen : 1 ≤ length)
    (hw : g.width < UINT32_SIZE) (hh : g.height < UINT32_SIZE) :
    (merge_areas_fuel (g.width * g.height + 1) g player x y ids length).isSome = true := by
  obtain ⟨a, e, -⟩ := merge_areas_fuel_spec player ids length hlen (g.width * g.height + 1) g hp
    hw hh (Nat.lt_succ_of_le (card_free_cells_le g player ids length)) x y
  rw [e]
  rfl

/-- What `merge_areas` does: exactly the fields reached from (x, y) through
fields of `player` with an unskipped label get the label `ids[length - 1]`. -/
theorem merge_areas_spec (g : gamma_t) (player x y : Nat) (ids : List Nat)
    (length : Nat) (hp : player_correct g player = true) (hlen : 1 ≤ length)
    (hw : g.width < UINT32_SIZE) (hh : g.height < UINT32_SIZE) :
    ∃ a, merge_areas g player x y ids length = with_area_id g a ∧
      ∀ c : Nat × Nat,
        (Reach (free_cells g player ids length) (x, y) c →
          a c.2 c.1 = ids.getD (length - 1) 0) ∧
        (¬ Reach (free_cells g player ids length) (x, y) c →
          a c.2 c.1 = g.area_id c.2 c.1) := by
  obtain ⟨a, e, r⟩ := merge_areas_fuel_spec player ids length hlen (g.width * g.height + 1) g hp
    hw hh (Nat.lt_succ_of_le (card_free_cells_le g player ids length)) x y
  refine ⟨a, ?_, r⟩
  unfold merge_areas
  rw [e]
  rfl

/-! ## Labels and areas -/

/-- The labels `l` tell the areas of `S` apart: two fields of `S` carry the
same label exactly when a path inside `S` joins them. -/
def LabelsAreas (S : Finset (Nat × Nat)) (l : Nat × Nat → Nat) : Prop :=
  ∀ a ∈ S, ∀ b ∈ S, (l a = l b ↔ Conn S a b)

/-- The fields of `S` next to the field `c`. -/
def nbrs (S : Finset (Nat × Nat)) (c : Nat × Nat) : Finset (Nat × Nat) :=
  S.filter (fun n => adj c n)

theorem mem_nbrs (S : Finset (Nat × Nat)) (c n : Nat × Nat) :
    n ∈ nbrs S c ↔ n ∈ S ∧ adj c n := by
  unfold nbrs
  rw [Finset.mem_filter]

/-- Under `LabelsAreas`, lying in an area that touches `c` is a matter of the
label. -/
theorem near_iff_label {S : Finset (Nat × Nat)} {l : Nat × Nat → Nat} (h : LabelsAreas S l)
    (c u : Nat × Nat) (hu : u ∈ S) : Near S c u ↔ l u ∈ (nbrs S c).image l := by
  rw [Finset.mem_image]
  constructor
  · rintro ⟨n, hn, hcn, hnu⟩
    exact ⟨n, (mem_nbrs S c n).2 ⟨hn, hcn⟩, (h n hn u hu).2 hnu⟩
  · rintro ⟨n, hn, hl⟩
    obtain ⟨hnS, hcn⟩ := (mem_nbrs S c n).1 hn
    exact ⟨n, hnS, hcn, (h n hnS u hu).1 hl⟩

/-- A path inside an area stays among the fields with the label of the area. -/
theorem Conn.within_label {S F : Finset (Nat × Nat)} {l : Nat × Nat → Nat}
    (h : LabelsAreas S l) {n u : Nat × Nat} (hn : n ∈ S)
    (hF : ∀ w, w ∈ S → l w = l n → w ∈ F) (hnu : Conn S n u) : Conn F n u := by
  refine (@Conn.avoid S F (fun w => ¬ Conn S n w) ?_ ?_ _ _ ?_ hnu).1
  · intro u v hnot hu hv huv hconn
    exact hnot (hconn.step hv hu (adj_symm huv))
  · intro w hw hnot
    have hc : Conn S n w := by
      by_contra hcon
      exact hnot hcon
    exact hF w hw ((h n hn w hw).2 hc).symm
  · intro hnot
    exact hnot (Conn.rfl' _ _)

/-- Adding the field `c` and flooding from it with the single skipped label
`id`: which fields end up with the label `id`. -/
theorem add_cell_labels {S F : Finset (Nat × Nat)} {l l' : Nat × Nat → Nat} {c : Nat × Nat}
    {id : Nat} (h : LabelsAreas S l) (hc : c ∉ S) (hlc : l c ≠ id)
    (hF : ∀ u, u ∈ F ↔ u ∈ insert c S ∧ l u ≠ id)
    (hid : ∀ u ∈ S, l u = id → Near S c u)
    (hflood : ∀ u, (Reach F c u → l' u = id) ∧ (¬ Reach F c u → l' u = l u)) :
    ∀ u ∈ insert c S, ((u = c ∨ Near S c u) → l' u = id) ∧
      (¬ (u = c ∨ Near S c u) → l' u = l u ∧ l u ≠ id) := by
  have hcF : c ∈ F := (hF c).2 ⟨Finset.mem_insert_self c S, hlc⟩
  have hsub : F ⊆ insert c S := fun u hu => ((hF u).1 hu).1
  intro u hu
  constructor
  · rintro (rfl | hnear)
    · exact (hflood u).1 ⟨hcF, Conn.rfl' _ _⟩
    · by_cases hlu : l u = id
      · by_cases hr : Reach F c u
        · exact (hflood u).1 hr
        · rw [(hflood u).2 hr, hlu]
      · apply (hflood u).1
        obtain ⟨n, hn, hcn, hnu⟩ := hnear
        have huS : u ∈ S := hnu.mem hn
        have hln : l n = l u := (h n hn u huS).2 hnu
        have hnF : n ∈ F := (hF n).2 ⟨Finset.mem_insert_of_mem hn, by rw [hln]; exact hlu⟩
        have hpath : Conn F n u := by
          apply Conn.within_label h hn _ hnu
          intro w hw hlw
          exact (hF w).2 ⟨Finset.mem_insert_of_mem hw, by rw [hlw, hln]; exact hlu⟩
        exact ⟨hcF, (Conn.single hcF hnF hcn).trans hpath⟩
  · intro hnot
    have huc : u ≠ c := fun h => hnot (Or.inl h)
    have huS : u ∈ S := by
      rcases Finset.mem_insert.1 hu with h | h
      · exact absurd h huc
      · exact h
    have hr : ¬ Reach F c u := by
      intro hr
      apply hnot
      right
      exact Near.of_conn_insert hc huS (hr.2.mono hsub).symm
    refine ⟨(hflood u).2 hr, ?_⟩
    intro hlu
    exact hnot (Or.inr (hid u huS hlu))

/-- Adding the field `c` and flooding from it keeps the labels telling the
areas apart. -/
theorem add_cell_labels_areas {S : Finset (Nat × Nat)} {l l' : Nat × Nat → Nat}
    {c : Nat × Nat} {id : Nat} (h : LabelsAreas S l) (hc : c ∉ S)
    (hnew : ∀ u ∈ insert c S, ((u = c ∨ Near S c u) → l' u = id) ∧
      (¬ (u = c ∨ Near S c u) → l' u = l u ∧ l u ≠ id)) :
    LabelsAreas (insert c S) l' := by
  have key : ∀ u ∈ insert c S, (u = c ∨ Near S c u) → Conn (insert c S) c u := by
    intro u _ hu
    rcases hu with rfl | hu
    · exact Conn.rfl' _ _
    · exact hu.conn_insert
  intro a ha b hb
  by_cases hna : a = c ∨ Near S c a
  · by_cases hnb : b = c ∨ Near S c b
    · rw [(hnew a ha).1 hna, (hnew b hb).1 hnb]
      exact ⟨fun _ => (key a ha hna).symm.trans (key b hb hnb), fun _ => rfl⟩
    · have hbc : b ≠ c := fun h => hnb (Or.inl h)
      have hbS : b ∈ S := by
        rcases Finset.mem_insert.1 hb with h | h
        · exact absurd h hbc
        · exact h
      rw [(hnew a ha).1 hna, ((hnew b hb).2 hnb).1]
      constructor
      · intro hl
        exact absurd hl.symm ((hnew b hb).2 hnb).2
      · intro hconn
        exfalso
        apply hnb
        right
        exact Near.of_conn_insert hc hbS ((key a ha hna).trans hconn).symm
  · have hac : a ≠ c := fun h => hna (Or.inl h)
    have haS : a ∈ S := by
      rcases Finset.mem_insert.1 ha with h | h
      · exact absurd h hac
      · exact h
    by_cases hnb : b = c ∨ Near S c b
    · rw [((hnew a ha).2 hna).1, (hnew b hb).1 hnb]
      constructor
      · intro hl
        exact absurd hl ((hnew a ha).2 hna).2
      · intro hconn
        exfalso
        apply hna
        right
        exact Near.of_conn_insert hc haS (hconn.trans (key b hb hnb).symm)
    · have hbc : b ≠ c := fun h => hnb (Or.inl h)
      have hbS : b ∈ S := by
        rcases Finset.mem_insert.1 hb with h | h
        · exact absurd h hbc
        · exact h
      rw [((hnew a ha).2 hna).1, ((hnew b hb).2 hnb).1, h a haS b hbS]
      constructor
      · exact fun hconn => hconn.mono (Finset.subset_insert c S)
      · intro hconn
        rcases Conn.of_insert hc haS hbS hconn with h1 | ⟨h1, -⟩
        · exact h1
        · exact absurd (Or.inr h1) hna

/-- Adding the field `c` and flooding from it: the number of labels in use
drops by the number of labels next to `c` and grows by one. -/
theorem add_cell_count {S : Finset (Nat × Nat)} {l l' : Nat × Nat → Nat}
    {c : Nat × Nat} {id : Nat} (h : LabelsAreas S l) (hc : c ∉ S)
    (hnew : ∀ u ∈ insert c S, ((u = c ∨ Near S c u) → l' u = id) ∧
      (¬ (u = c ∨ Near S c u) → l' u = l u ∧ l u ≠ id)) :
    ((insert c S).image l').card + ((nbrs S c).image l).card = (S.image l).card + 1 := by
  have hsub : (nbrs S c).image l ⊆ S.image l :=
    Finset.image_subset_image (Finset.filter_subset _ _)
  have hnear : ∀ u ∈ S, (u = c ∨ Near S c u) → l u ∈ (nbrs S c).image l := by
    intro u huS hn
    rcases hn with rfl | hn
    · exact absurd huS hc
    · exact (near_iff_label h c u huS).1 hn
  have himg : (insert c S).image l' = insert id (S.image l \ (nbrs S c).image l) := by
    ext w
    rw [Finset.mem_image, Finset.mem_insert, Finset.mem_sdiff]
    constructor
    · rintro ⟨u, hu, rfl⟩
      by_cases hn : u = c ∨ Near S c u
      · exact Or.inl ((hnew u hu).1 hn)
      · right
        have huc : u ≠ c := fun h => hn (Or.inl h)
        have huS : u ∈ S := by
          rcases Finset.mem_insert.1 hu with h | h
          · exact absurd h huc
          · exact h
        rw [((hnew u hu).2 hn).1]
        exact ⟨Finset.mem_image_of_mem l huS,
          fun hl => hn (Or.inr ((near_iff_label h c u huS).2 hl))⟩
    · rintro (rfl | ⟨hw, hnot⟩)
      · exact ⟨c, Finset.mem_insert_self c S,
          (hnew c (Finset.mem_insert_self c S)).1 (Or.inl rfl)⟩
      · obtain ⟨u, huS, rfl⟩ := Finset.mem_image.1 hw
        have hu : u ∈ insert c S := Finset.mem_insert_of_mem huS
        by_cases hn : u = c ∨ Near S c u
        · exact absurd (hnear u huS hn) hnot
        · exact ⟨u, hu, ((hnew u hu).2 hn).1⟩
  have hid : id ∉ S.image l \ (nbrs S c).image l := by
    rw [Finset.mem_sdiff]
    rintro ⟨hw, hnot⟩
    obtain ⟨u, huS, hlu⟩ := Finset.mem_image.1 hw
    have hu : u ∈ insert c S := Finset.mem_insert_of_mem huS
    by_cases hn : u = c ∨ Near S c u
    · exact hnot (hlu ▸ hnear u huS hn)
    · exact ((hnew u hu).2 hn).2 hlu
  rw [himg, Finset.card_insert_of_not_mem hid, Finset.card_sdiff hsub]
  have := Finset.card_le_card hsub
  omega

/-! ## Splitting an area by taking a field out -/

/-- The state of the labels while `golden_move_possible` floods the
neighbours of the seized field one after the other: `l` are the labels before,
`lcur` the labels now, `n` the first fresh label, `i` the number of floods
made, `done` the neighbours flooded from so far. -/
structure SplitInv (S : Finset (Nat × Nat)) (done : List (Nat × Nat))
    (l lcur : Nat × Nat → Nat) (n i : Nat) : Prop where
  lt : ∀ u ∈ S, lcur u < n + i
  areas : ∀ u ∈ S, ∀ v ∈ S, n ≤ lcur u → (lcur u = lcur v ↔ Conn S u v)
  old : ∀ u ∈ S, lcur u < n → lcur u = l u
  done_flooded : ∀ m ∈ done, m ∈ S → n ≤ lcur m
  from_done : ∀ u ∈ S, n ≤ lcur u → ∃ m ∈ done, m ∈ S ∧ Conn S m u

theorem SplitInv.init (S : Finset (Nat × Nat)) (l : Nat × Nat → Nat) (n : Nat)
    (hl : ∀ u ∈ S, l u < n) : SplitInv S [] l l n 0 where
  lt := hl
  areas := fun u hu _ _ h => absurd (hl u hu) (by omega)
  old := fun _ _ _ => rfl
  done_flooded := fun m hm _ => absurd hm (List.not_mem_nil m)
  from_done := fun u hu h => absurd (hl u hu) (by omega)

/-- One more flood, from the field `m`, with target label `n + i`. -/
theorem SplitInv.flood {S F : Finset (Nat × Nat)} {done : List (Nat × Nat)}
    {l lcur lnew : Nat × Nat → Nat} {n i : Nat} (hinv : SplitInv S done l lcur n i)
    (hF : ∀ u, u ∈ F ↔ u ∈ S ∧ ¬ (n ≤ lcur u ∧ lcur u < n + (i + 1))) (m : Nat × Nat)
    (hflood : ∀ u, (Reach F m u → lnew u = n + i) ∧ (¬ Reach F m u → lnew u = lcur u)) :
    SplitInv S (m :: done) l lnew n (i + 1) := by
  have hF' : ∀ u, u ∈ F ↔ u ∈ S ∧ lcur u < n := by
    intro u
    rw [hF]
    constructor
    · rintro ⟨hu, h⟩
      have := hinv.lt u hu
      exact ⟨hu, by omega⟩
    · rintro ⟨hu, h⟩
      exact ⟨hu, by omega⟩
  have hsub : F ⊆ S := fun u hu => ((hF' u).1 hu).1
  have hreach : ∀ u, Reach F m u ↔ m ∈ F ∧ Conn S m u := by
    intro u
    constructor
    · intro h
      exact ⟨h.1, h.2.mono hsub⟩
    · rintro ⟨hm, hconn⟩
      refine ⟨hm, (@Conn.avoid S F (fun w => w ∈ S ∧ n ≤ lcur w) ?_ ?_ _ _ ?_ hconn).1⟩
      · rintro u v ⟨huS, hu⟩ _ hv huv
        refine ⟨hv, ?_⟩
        have := (hinv.areas u huS v hv hu).2 (Conn.single huS hv huv)
        omega
      · intro w hw hnot
        refine (hF' w).2 ⟨hw, ?_⟩
        by_contra hcon
        exact hnot ⟨hw, by omega⟩
      · rintro ⟨_, h⟩
        have := ((hF' m).1 hm).2
        omega
  have hval : ∀ u ∈ S, lnew u = n + i ∨ lnew u = lcur u := by
    intro u _
    by_cases hr : Reach F m u
    · exact Or.inl ((hflood u).1 hr)
    · exact Or.inr ((hflood u).2 hr)
  constructor
  · intro u hu
    have := hinv.lt u hu
    rcases hval u hu with h | h <;> omega
  · intro u hu v hv hge
    have hltu := hinv.lt u hu
    have hltv := hinv.lt v hv
    by_cases hru : Reach F m u
    · have hmu := ((hreach u).1 hru).2
      by_cases hrv : Reach F m v
      · rw [(hflood u).1 hru, (hflood v).1 hrv]
        exact ⟨fun _ => hmu.symm.trans ((hreach v).1 hrv).2, fun _ => rfl⟩
      · rw [(hflood u).1 hru, (hflood v).2 hrv]
        constructor
        · intro h; omega
        · intro hconn
          exact absurd ((hreach v).2 ⟨hru.1, hmu.trans hconn⟩) hrv
    · rw [(hflood u).2 hru] at hge ⊢
      by_cases hrv : Reach F m v
      · rw [(hflood v).1 hrv]
        constructor
        · intro h; omega
        · intro hconn
          exact absurd ((hreach u).2 ⟨hrv.1, ((hreach v).1 hrv).2.trans hconn.symm⟩) hru
      · rw [(hflood v).2 hrv]
        exact hinv.areas u hu v hv hge
  · intro u hu hlt
    by_cases hr : Reach F m u
    · rw [(hflood u).1 hr] at hlt; omega
    · rw [(hflood u).2 hr] at hlt ⊢
      exact hinv.old u hu hlt
  · intro m' hm' hm'S
    rcases List.mem_cons.1 hm' with rfl | hold
    · by_cases hr : Reach F m' m'
      · rw [(hflood m').1 hr]; omega
      · rw [(hflood m').2 hr]
        by_contra hcon
        exact hr ⟨(hF' m').2 ⟨hm'S, by omega⟩, Conn.rfl' _ _⟩
    · have := hinv.done_flooded m' hold hm'S
      rcases hval m' hm'S with h | h <;> omega
  · intro u hu hge
    by_cases hr : Reach F m u
    · exact ⟨m, List.mem_cons_self m done, hsub hr.1, ((hreach u).1 hr).2⟩
    · rw [(hflood u).2 hr] at hge
      obtain ⟨m', hm', hm'S, hconn⟩ := hinv.from_done u hu hge
      exact ⟨m', List.mem_cons_of_mem m hm', hm'S, hconn⟩

/-- After the floods a flooded field lies in a piece that touches `c`. -/
theorem SplitInv.near_of_flooded {S : Finset (Nat × Nat)} {done : List (Nat × Nat)}
    {l lcur : Nat × Nat → Nat} {n i : Nat} (hinv : SplitInv S done l lcur n i)
    {c : Nat × Nat} (hadj : ∀ m ∈ done, m ∈ S → adj c m) {u : Nat × Nat} (hu : u ∈ S)
    (hge : n ≤ lcur u) : Near S c u := by
  obtain ⟨m, hm, hmS, hconn⟩ := hinv.from_done u hu hge
  exact ⟨m, hmS, hadj m hm hmS, hconn⟩

/-- Once every neighbour of `c` has been flooded from, every field in a piece
that touches `c` is flooded. -/
theorem SplitInv.flooded_of_near {S : Finset (Nat × Nat)} {done : List (Nat × Nat)}
    {l lcur : Nat × Nat → Nat} {n i : Nat} (hinv : SplitInv S done l lcur n i)
    {c : Nat × Nat} (hall : ∀ m ∈ nbrs S c, m ∈ done) {u : Nat × Nat} (hu : u ∈ S)
    (hnear : Near S c u) : n ≤ lcur u := by
  obtain ⟨m, hmS, hcm, hconn⟩ := hnear
  have hm := hinv.done_flooded m (hall m ((mem_nbrs S c m).2 ⟨hmS, hcm⟩)) hmS
  have := (hinv.areas m hmS u hu hm).2 hconn
  omega

/-- After the four floods the labels tell the pieces apart. -/
theorem SplitInv.labels_areas {S : Finset (Nat × Nat)} {done : List (Nat × Nat)}
    {l lcur : Nat × Nat → Nat} {n i : Nat} (hinv : SplitInv S done l lcur n i)
    {c : Nat × Nat} (hc : c ∉ S) (hQ : LabelsAreas (insert c S) l)
    (hall : ∀ m ∈ nbrs S c, m ∈ done) : LabelsAreas S lcur := by
  intro u hu v hv
  by_cases hge : n ≤ lcur u
  · exact hinv.areas u hu v hv hge
  by_cases hge' : n ≤ lcur v
  · constructor
    · intro h
      exact ((hinv.areas v hv u hu hge').1 h.symm).symm
    · intro h
      exact ((hinv.areas v hv u hu hge').2 h.symm).symm
  rw [hinv.old u hu (by omega), hinv.old v hv (by omega),
    hQ u (Finset.mem_insert_of_mem hu) v (Finset.mem_insert_of_mem hv)]
  constructor
  · intro hconn
    rcases Conn.of_insert hc hu hv hconn with h | ⟨h, -⟩
    · exact h
    · exact absurd (hinv.flooded_of_near hall hu h) hge
  · exact fun hconn => hconn.mono (Finset.subset_insert c S)

/-- After the four floods the number of labels in use has grown by the number
of labels next to `c`, less one for the label of the area that was split. -/
theorem SplitInv.count {S : Finset (Nat × Nat)} {done : List (Nat × Nat)}
    {l lcur : Nat × Nat → Nat} {n i : Nat} (hinv : SplitInv S done l lcur n i)
    {c : Nat × Nat} (hc : c ∉ S) (hQ : LabelsAreas (insert c S) l)
    (hl : ∀ u ∈ insert c S, l u < n)
    (hadj : ∀ m ∈ done, m ∈ S → adj c m) (hall : ∀ m ∈ nbrs S c, m ∈ done) :
    (S.image lcur).card + 1 = ((insert c S).image l).card + ((nbrs S c).image lcur).card := by
  have hcQ : c ∈ insert c S := Finset.mem_insert_self c S
  have himg : S.image lcur =
      (nbrs S c).image lcur ∪ ((insert c S).image l).erase (l c) := by
    ext w
    rw [Finset.mem_union, Finset.mem_erase]
    constructor
    · intro hw
      obtain ⟨u, hu, rfl⟩ := Finset.mem_image.1 hw
      by_cases hge : n ≤ lcur u
      · left
        obtain ⟨m, hmS, hcm, hconn⟩ := hinv.near_of_flooded hadj hu hge
        have hmn : m ∈ nbrs S c := (mem_nbrs S c m).2 ⟨hmS, hcm⟩
        have hm := hinv.done_flooded m (hall m hmn) hmS
        rw [← (hinv.areas m hmS u hu hm).2 hconn]
        exact Finset.mem_image_of_mem lcur hmn
      · right
        rw [hinv.old u hu (by omega)]
        refine ⟨?_, Finset.mem_image_of_mem l (Finset.mem_insert_of_mem hu)⟩
        intro hlu
        have hconn := (hQ u (Finset.mem_insert_of_mem hu) c hcQ).1 hlu
        exact hge (hinv.flooded_of_near hall hu (Near.of_conn_insert hc hu hconn))
    · rintro (hw | ⟨hne, hw⟩)
      · exact Finset.image_subset_image (Finset.filter_subset _ _) hw
      · obtain ⟨u, hu, rfl⟩ := Finset.mem_image.1 hw
        have huS : u ∈ S := by
          rcases Finset.mem_insert.1 hu with h | h
          · exact absurd (h ▸ rfl) hne
          · exact h
        have hlt : lcur u < n := by
          by_contra hcon
          have hnear := hinv.near_of_flooded hadj huS (Nat.le_of_not_lt hcon)
          exact hne ((hQ u hu c hcQ).2 hnear.conn_insert.symm)
        rw [← hinv.old u huS hlt]
        exact Finset.mem_image_of_mem lcur huS
  have hdisj : Disjoint ((nbrs S c).image lcur) (((insert c S).image l).erase (l c)) := by
    rw [Finset.disjoint_left]
    intro w hw hw'
    obtain ⟨m, hm, rfl⟩ := Finset.mem_image.1 hw
    obtain ⟨u, hu, hlu⟩ := Finset.mem_image.1 (Finset.mem_erase.1 hw').2
    have hmS := ((mem_nbrs S c m).1 hm).1
    have h1 := hinv.done_flooded m (hall m hm) hmS
    have h2 := hl u hu
    omega
  rw [himg, Finset.card_union_of_disjoint hdisj,
    Finset.card_erase_of_mem (Finset.mem_image_of_mem l hcQ)]
  have : 0 < ((insert c S).image l).card :=
    Finset.card_pos.2 ⟨l c, Finset.mem_image_of_mem l hcQ⟩
  omega

/-! ## The neighbours the code looks at -/

/-- The label of a field. -/
def lab (g : gamma_t) (c : Nat × Nat) : Nat := g.area_id c.2 c.1

/-- The neighbours of (x, y) that `bordering_area_id` and
`distinct_neighbour_count` take into account, in the order of the four tests. -/
def neighbour_list (g : gamma_t) (player x y : Nat) : List (Nat × Nat) :=
  (if x > 0 ∧ g.owner y (x - 1) = player then [(x - 1, y)] else []) ++
  ((if x < sub32 g.width 1 ∧ g.owner y (x + 1) = player then [(x + 1, y)] else []) ++
  ((if y > 0 ∧ g.owner (y - 1) x = player then [(x, y - 1)] else []) ++
  (if y < sub32 g.height 1 ∧ g.owner (y + 1) x = player then [(x, y + 1)] else [])))

theorem sub32_one (n : Nat) (h1 : 1 ≤ n) (h : n < UINT32_SIZE) : sub32 n 1 = n - 1 := by
  unfold sub32
  unfold UINT32_SIZE at *
  omega

theorem distinct_neighbour_ids_eq (g : gamma_t) (player x y : Nat) :
    distinct_neighbour_ids g player x y =
      (neighbour_list g player x y).foldl (fun ids n => add_distinct ids (lab g n)) [] := by
  unfold distinct_neighbour_ids neighbour_list lab
  by_cases h1 : x > 0 ∧ g.owner y (x - 1) = player <;>
  by_cases h2 : x < sub32 g.width 1 ∧ g.owner y (x + 1) = player <;>
  by_cases h3 : y > 0 ∧ g.owner (y - 1) x = player <;>
  by_cases h4 : y < sub32 g.height 1 ∧ g.owner (y + 1) x = player <;>
  simp only [h1, h2, h3, h4, and_self, if_true, if_false, List.foldl, List.append_nil,
    List.nil_append, List.cons_append, List.singleton_append]

theorem neighbour_list_toFinset (g : gamma_t) (player x y : Nat) (hw : g.width < UINT32_SIZE)
    (hh : g.height < UINT32_SIZE) (hx : x < g.width) (hy : y < g.height) :
    (neighbour_list g player x y).toFinset = nbrs (owned_by g player) (x, y) := by
  have e1 : sub32 g.width 1 = g.width - 1 := sub32_one _ (by omega) hw
  have e2 : sub32 g.height 1 = g.height - 1 := sub32_one _ (by omega) hh
  ext ⟨a, b⟩
  rw [mem_nbrs, List.mem_toFinset]
  unfold owned_by
  rw [Finset.mem_filter, mem_cells]
  unfold neighbour_list adj
  rw [e1, e2]
  simp only [List.mem_append, Prod.mk.injEq]
  constructor
  · rintro (h | h | h | h)
    all_goals
      split at h
      · rename_i hc
        simp only [List.mem_singleton, Prod.mk.injEq] at h
        obtain ⟨rfl, rfl⟩ := h
        refine ⟨⟨⟨by omega, by omega⟩, hc.2⟩, by omega⟩
      · exact absurd h (List.not_mem_nil _)
  · rintro ⟨⟨⟨ha, hb⟩, ho⟩, hadj⟩
    rcases hadj with ⟨hb', h | h⟩ | ⟨ha', h | h⟩
    · right; left
      have hab : a = x + 1 ∧ b = y := by omega
      obtain ⟨rfl, rfl⟩ := hab
      rw [if_pos ⟨by omega, ho⟩]
      exact List.mem_singleton.2 rfl
    · left
      have hab : a = x - 1 ∧ b = y := by omega
      obtain ⟨rfl, rfl⟩ := hab
      rw [if_pos ⟨by omega, ho⟩]
      exact List.mem_singleton.2 rfl
    · right; right; right
      have hab : a = x ∧ b = y + 1 := by omega
      obtain ⟨rfl, rfl⟩ := hab
      rw [if_pos ⟨by omega, ho⟩]
      exact List.mem_singleton.2 rfl
    · right; right; left
      have hab : a = x ∧ b = y - 1 := by omega
      obtain ⟨rfl, rfl⟩ := hab
      rw [if_pos ⟨by omega, ho⟩]
      exact List.mem_singleton.2 rfl

theorem add_distinct_nodup (ids : List Nat) (v : Nat) (h : ids.Nodup) :
    (add_distinct ids v).Nodup := by
  unfold add_distinct
  split
  · exact h
  · rename_i hv
    rw [List.nodup_append]
    refine ⟨h, List.nodup_singleton v, ?_⟩
    intro a ha hb
    rw [List.mem_singleton] at hb
    subst hb
    apply hv
    rw [List.any_eq_true]
    exact ⟨a, ha, by simp⟩

theorem add_distinct_toFinset (ids : List Nat) (v : Nat) :
    (add_distinct ids v).toFinset = insert v ids.toFinset := by
  unfold add_distinct
  split
  · rename_i hv
    rw [List.any_eq_true] at hv
    obtain ⟨a, ha, hav⟩ := hv
    have : v = a := by simpa using hav
    subst this
    rw [Finset.insert_eq_of_mem (List.mem_toFinset.2 ha)]
  · ext w
    simp only [List.toFinset_append, List.toFinset_cons, List.toFinset_nil, Finset.mem_union,
      Finset.mem_insert, List.mem_toFinset, Finset.not_mem_empty, or_false]
    tauto

theorem foldl_add_distinct (f : Nat × Nat → Nat) (ns : List (Nat × Nat)) :
    ∀ ids : List Nat, ids.Nodup →
      (ns.foldl (fun ids n => add_distinct ids (f n)) ids).Nodup ∧
      (ns.foldl (fun ids n => add_distinct ids (f n)) ids).toFinset =
        ids.toFinset ∪ ns.toFinset.image f := by
  induction ns with
  | nil => intro ids h; simp [h]
  | cons n ns ih =>
    intro ids h
    obtain ⟨h1, h2⟩ := ih (add_distinct ids (f n)) (add_distinct_nodup ids (f n) h)
    refine ⟨h1, ?_⟩
    rw [List.foldl_cons, h2, add_distinct_toFinset, List.toFinset_cons, Finset.image_insert]
    ext w
    simp only [Finset.mem_union, Finset.mem_insert]
    tauto

/-- The count `distinct_neighbour_count` returns is the number of different
labels on the fields of `player` next to (x, y). -/
theorem distinct_neighbour_count_eq (g : gamma_t) (player x y : Nat)
    (hp : player_correct g player = true) (hw : g.width < UINT32_SIZE)
    (hh : g.height < UINT32_SIZE) (hx : x < g.width) (hy : y < g.height) :
    distinct_neighbour_count g player x y =
      ((nbrs (owned_by g player) (x, y)).image (lab g)).card := by
  unfold distinct_neighbour_count
  rw [if_neg (by rw [hp]; simp; omega), distinct_neighbour_ids_eq]
  obtain ⟨h1, h2⟩ := foldl_add_distinct (lab g) (neighbour_list g player x y) [] List.nodup_nil
  rw [← List.toFinset_card_of_nodup h1, h2, neighbour_list_toFinset g player x y hw hh hx hy]
  simp

theorem bordering_area_id_eq (g : gamma_t) (player x y : Nat)
    (hp : player_correct g player = true) (hx : x < g.width) (hy : y < g.height) :
    bordering_area_id g player x y =
      ((neighbour_list g player x y).getLast?.map (lab g)).getD 0 := by
  unfold bordering_area_id
  rw [if_neg (by rw [hp]; simp; omega)]
  unfold neighbour_list lab
  by_cases h1 : x > 0 ∧ g.owner y (x - 1) = player <;>
  by_cases h2 : x < sub32 g.width 1 ∧ g.owner y (x + 1) = player <;>
  by_cases h3 : y > 0 ∧ g.owner (y - 1) x = player <;>
  by_cases h4 : y < sub32 g.height 1 ∧ g.owner (y + 1) x = player <;>
  simp only [h1, h2, h3, h4, and_self, if_true, if_false, List.append_nil,
    List.nil_append, List.cons_append, List.singleton_append] <;>
  rfl

/-- The label `bordering_area_id` returns is 0 when no field of `player` is
next to (x, y), and otherwise the label of such a field. -/
theorem bordering_area_id_spec (g : gamma_t) (player x y : Nat)
    (hp : player_correct g player = true) (hw : g.width < UINT32_SIZE)
    (hh : g.height < UINT32_SIZE) (hx : x < g.width) (hy : y < g.height) :
    (nbrs (owned_by g player) (x, y) = ∅ → bordering_area_id g player x y = 0) ∧
    (nbrs (owned_by g player) (x, y) ≠ ∅ →
      bordering_area_id g player x y ∈ (nbrs (owned_by g player) (x, y)).image (lab g)) := by
  rw [bordering_area_id_eq g player x y hp hx hy,
    ← neighbour_list_toFinset g player x y hw hh hx hy]
  cases hl : (neighbour_list g player x y).getLast? with
  | none =>
    rw [List.getLast?_eq_none_iff] at hl
    rw [hl]
    exact ⟨fun _ => rfl, fun h => absurd rfl h⟩
  | some n =>
    refine ⟨fun h => ?_, fun _ => ?_⟩
    · rw [List.toFinset_eq_empty_iff] at h
      rw [h] at hl
      exact absurd hl (by simp)
    · exact Finset.mem_image_of_mem _ (List.mem_toFinset.2 (List.mem_of_getLast?_eq_some hl))

/-- The labels `golden_move_possible` skips in its `i`-th flood, when the
label counter does not wrap. -/
theorem skip_id_fresh (g : gamma_t) (i l : Nat) (hi : i ≤ 4)
    (hn : g.next_id + 3 < UINT32_SIZE) :
    skip_id (fresh_ids g) i l = true ↔ g.next_id ≤ l ∧ l < g.next_id + i := by
  have e1 : add32 g.next_id 1 = g.next_id + 1 := Nat.mod_eq_of_lt (by omega)
  have e2 : add32 g.next_id 2 = g.next_id + 2 := Nat.mod_eq_of_lt (by omega)
  have e3 : add32 g.next_id 3 = g.next_id + 3 := Nat.mod_eq_of_lt (by omega)
  unfold skip_id fresh_ids
  rw [e1, e2, e3]
  have hcases : i = 0 ∨ i = 1 ∨ i = 2 ∨ i = 3 ∨ i = 4 := by omega
  rcases hcases with rfl | rfl | rfl | rfl | rfl <;>
  simp [List.range_succ] <;>
  omega

theorem fresh_ids_target (g : gamma_t) (i : Nat) (h1 : 1 ≤ i) (hi : i ≤ 4)
    (hn : g.next_id + 3 < UINT32_SIZE) :
    (fresh_ids g).getD (i - 1) 0 = g.next_id + (i - 1) := by
  have e1 : add32 g.next_id 1 = g.next_id + 1 := Nat.mod_eq_of_lt (by omega)
  have e2 : add32 g.next_id 2 = g.next_id + 2 := Nat.mod_eq_of_lt (by omega)
  have e3 : add32 g.next_id 3 = g.next_id + 3 := Nat.mod_eq_of_lt (by omega)
  unfold fresh_ids
  rw [e1, e2, e3]
  have hcases : i = 1 ∨ i = 2 ∨ i = 3 ∨ i = 4 := by omega
  rcases hcases with rfl | rfl | rfl | rfl <;> rfl

/-- The update `area_count -= k - 1` in `uint32_t` arithmetic. -/
theorem area_count_sub (ac k : Nat) (hk : k ≤ ac + 1) (h : ac + 1 - k < UINT32_SIZE) :
    sub32 ac (sub32 k 1) = ac + 1 - k := by
  unfold sub32
  unfold UINT32_SIZE at *
  omega

/-- The update `area_count += f - 1` in `uint32_t` arithmetic. -/
theorem area_count_add (ac f : Nat) (h1 : 1 ≤ ac + f) (h : ac + f - 1 < UINT32_SIZE) :
    add32 ac (sub32 f 1) = ac + f - 1 := by
  unfold add32 sub32
  unfold UINT32_SIZE at *
  omega

/-- The test value `area_count + neighbours - 1` in `uint32_t` arithmetic. -/
theorem area_count_test (ac f : Nat) (h1 : 1 ≤ ac + f) (h : ac + f - 1 < UINT32_SIZE) :
    sub32 (add32 ac f) 1 = ac + f - 1 := by
  unfold add32 sub32
  unfold UINT32_SIZE at *
  omega

/-! ## Floods on states -/

theorem mem_owned_by (g : gamma_t) (p : Nat) (c : Nat × Nat) :
    c ∈ owned_by g p ↔ c ∈ cells g ∧ g.owner c.2 c.1 = p := by
  unfold owned_by
  rw [Finset.mem_filter]

theorem skip_id_one (ids : List Nat) (l : Nat) : skip_id ids 1 l = true ↔ l = ids.getD 0 0 := by
  unfold skip_id
  simp [List.range_succ]

/-- A flood from a field that has just been added to the fields `S` of
`player`, with the single skipped label `id = ids[0]`. -/
theorem merge_add_cell (g : gamma_t) (player x y id : Nat) (ids : List Nat)
    (S : Finset (Nat × Nat)) (hids : ids.getD 0 0 = id)
    (hp : player_correct g player = true) (hw : g.width < UINT32_SIZE)
    (hh : g.height < UINT32_SIZE) (hS : owned_by g player = insert (x, y) S)
    (hc : (x, y) ∉ S) (hLA : LabelsAreas S (lab g)) (hlc : lab g (x, y) ≠ id)
    (hid : ∀ u ∈ S, lab g u = id → Near S (x, y) u) :
    (∃ a, merge_areas g player x y ids 1 = with_area_id g a) ∧
    (∀ u ∈ insert (x, y) S,
      ((u = (x, y) ∨ Near S (x, y) u) → lab (merge_areas g player x y ids 1) u = id) ∧
      (¬ (u = (x, y) ∨ Near S (x, y) u) →
        lab (merge_areas g player x y ids 1) u = lab g u ∧ lab g u ≠ id)) ∧
    (∀ u, u ∉ insert (x, y) S → lab (merge_areas g player x y ids 1) u = lab g u) := by
  obtain ⟨a, e, r⟩ := merge_areas_spec g player x y ids 1 hp (le_refl 1) hw hh
  have ht : ids.getD (1 - 1) 0 = id := hids
  rw [ht] at r
  have hF : ∀ u, u ∈ free_cells g player ids 1 ↔ u ∈ insert (x, y) S ∧ lab g u ≠ id := by
    intro u
    rw [mem_free_cells, ← hS, mem_owned_by, and_assoc]
    have : skip_id ids 1 (g.area_id u.2 u.1) = false ↔ lab g u ≠ id := by
      have h := skip_id_one ids (lab g u)
      rw [hids] at h
      unfold lab at h ⊢
      rw [ne_eq, ← h]
      cases skip_id ids 1 (g.area_id u.2 u.1) <;> simp
    rw [this]
  rw [e]
  refine ⟨⟨a, rfl⟩, ?_, ?_⟩
  · exact @add_cell_labels _ _ _ (lab (with_area_id g a)) _ _ hLA hc hlc hF hid r
  · intro u hu
    apply (r u).2
    intro hr
    exact hu ((hF u).1 hr.mem_free).1

/-- One of the four floods of `golden_move_possible`, on a state `g` in which
the fields of the previous owner `q` are `S`; `g0` is the state the fresh
labels were drawn in. -/
theorem merge_split_step (g g0 : gamma_t) (q : Nat) (m : Nat × Nat) (j : Nat)
    (hj : j + 1 ≤ 4) (hn : g0.next_id + 3 < UINT32_SIZE)
    (hp : player_correct g q = true) (hw : g.width < UINT32_SIZE)
    (hh : g.height < UINT32_SIZE) (S : Finset (Nat × Nat)) (hS : owned_by g q = S)
    (done : List (Nat × Nat)) (l : Nat × Nat → Nat)
    (hinv : SplitInv S done l (lab g) g0.next_id j) :
    (∃ a, merge_areas g q m.1 m.2 (fresh_ids g0) (j + 1) = with_area_id g a) ∧
    SplitInv S (m :: done) l (lab (merge_areas g q m.1 m.2 (fresh_ids g0) (j + 1)))
      g0.next_id (j + 1) ∧
    (∀ u, u ∉ S → lab (merge_areas g q m.1 m.2 (fresh_ids g0) (j + 1)) u = lab g u) := by
  obtain ⟨a, e, r⟩ := merge_areas_spec g q m.1 m.2 (fresh_ids g0) (j + 1) hp (by omega) hw hh
  have ht : (fresh_ids g0).getD (j + 1 - 1) 0 = g0.next_id + j := by
    rw [fresh_ids_target g0 (j + 1) (by omega) hj hn]
    rfl
  rw [ht] at r
  have hF : ∀ u, u ∈ free_cells g q (fresh_ids g0) (j + 1) ↔
      u ∈ S ∧ ¬ (g0.next_id ≤ lab g u ∧ lab g u < g0.next_id + (j + 1)) := by
    intro u
    have h := skip_id_fresh g0 (j + 1) (lab g u) hj hn
    rw [mem_free_cells, ← hS, mem_owned_by, and_assoc, ← h]
    unfold lab
    cases skip_id (fresh_ids g0) (j + 1) (g.area_id u.2 u.1) <;> simp
  rw [e]
  refine ⟨⟨a, rfl⟩, ?_, ?_⟩
  · exact @SplitInv.flood _ _ _ _ _ (lab (with_area_id g a)) _ _ hinv hF m r
  · intro u hu
    apply (r u).2
    intro hr
    exact hu ((hF u).1 hr.mem_free).1

/-! ## The invariant of the area bookkeeping -/

/-- Label freshness: the counter has not wrapped, a free field carries the
label 0 and an owned field a label between 1 and the counter. -/
structure Labelled (g : gamma_t) : Prop where
  next_pos : 1 ≤ g.next_id
  next_lt : g.next_id < UINT32_SIZE
  free : ∀ c ∈ cells g, g.owner c.2 c.1 = 0 → lab g c = 0
  owned : ∀ c ∈ cells g, g.owner c.2 c.1 ≠ 0 → 1 ≤ lab g c ∧ lab g c < g.next_id

/-- The bookkeeping of one player is right: the labels tell the areas of the
player apart, `area_count` is the number of labels in use, and it is within
the limit. -/
def PlayerSound (g : gamma_t) (p : Nat) : Prop :=
  LabelsAreas (owned_by g p) (lab g) ∧
  g.area_count p = ((owned_by g p).image (lab g)).card ∧
  g.area_count p ≤ g.areas_limit

/-- The invariant of the board. -/
structure Sound (g : gamma_t) : Prop where
  counted : Counted g
  limit_lt : g.areas_limit < UINT32_SIZE
  labelled : Labelled g
  players : ∀ p, 1 ≤ p → p ≤ g.player_count → PlayerSound g p

theorem cells_congr {g g' : gamma_t} (hw : g'.width = g.width) (hh : g'.height = g.height) :
    cells g' = cells g := by
  unfold cells
  rw [hw, hh]

theorem owned_by_congr {g g' : gamma_t} (hw : g'.width = g.width) (hh : g'.height = g.height)
    (ho : g'.owner = g.owner) (p : Nat) : owned_by g' p = owned_by g p := by
  unfold owned_by
  rw [cells_congr hw hh, ho]

theorem LabelsAreas.congr {S : Finset (Nat × Nat)} {l l' : Nat × Nat → Nat}
    (h : LabelsAreas S l) (hl : ∀ u ∈ S, l' u = l u) : LabelsAreas S l' := by
  intro a ha b hb
  rw [hl a ha, hl b hb]
  exact h a ha b hb

theorem PlayerSound.congr_player {g g' : gamma_t} {r : Nat} (h : PlayerSound g r)
    (hset : owned_by g' r = owned_by g r)
    (hlab : ∀ u ∈ owned_by g r, lab g' u = lab g u)
    (hac : g'.area_count r = g.area_count r) (hlim : g'.areas_limit = g.areas_limit) :
    PlayerSound g' r := by
  obtain ⟨h1, h2, h3⟩ := h
  refine ⟨?_, ?_, ?_⟩
  · rw [hset]
    exact h1.congr hlab
  · rw [hset, hac, h2]
    exact congrArg Finset.card (Finset.image_congr (fun u hu => hlab u hu)).symm
  · rw [hac, hlim]
    exact h3

theorem card_image_nbrs_le (S : Finset (Nat × Nat)) (c : Nat × Nat) (l : Nat × Nat → Nat) :
    ((nbrs S c).image l).card ≤ (S.image l).card :=
  Finset.card_le_card (Finset.image_subset_image (Finset.filter_subset _ _))

theorem nbrs_eq_empty_of_card (S : Finset (Nat × Nat)) (c : Nat × Nat) (l : Nat × Nat → Nat)
    (h : ((nbrs S c).image l).card = 0) : nbrs S c = ∅ := by
  rw [Finset.card_eq_zero, Finset.image_eq_empty] at h
  exact h

/-- The bookkeeping of the mover after a field `c` has been added to the
fields `S` of the mover and flooded from: the state `g'` has the labels `l'`
of `add_cell_labels` and the count `ac + 1 - k`. -/
theorem PlayerSound.add_cell {g' : gamma_t} {p : Nat} {S : Finset (Nat × Nat)}
    {c : Nat × Nat} {l : Nat × Nat → Nat} {id ac : Nat} (hLA : LabelsAreas S l)
    (hc : c ∉ S) (hset : owned_by g' p = insert c S)
    (hnew : ∀ u ∈ insert c S, ((u = c ∨ Near S c u) → lab g' u = id) ∧
      (¬ (u = c ∨ Near S c u) → lab g' u = l u ∧ l u ≠ id))
    (hac : ac = (S.image l).card)
    (hcount : g'.area_count p = sub32 ac (sub32 ((nbrs S c).image l).card 1))
    (hlim : ac ≤ g'.areas_limit) (hlt : g'.areas_limit < UINT32_SIZE)
    (hroom : nbrs S c = ∅ → ac < g'.areas_limit) : PlayerSound g' p := by
  have hcnt := add_cell_count hLA hc hnew
  have hle := card_image_nbrs_le S c l
  have hzero : ((nbrs S c).image l).card = 0 → ac < g'.areas_limit :=
    fun h => hroom (nbrs_eq_empty_of_card S c l h)
  have hval : g'.area_count p = ac + 1 - ((nbrs S c).image l).card := by
    rw [hcount]
    apply area_count_sub
    · omega
    · by_cases hk : ((nbrs S c).image l).card = 0
      · have := hzero hk
        omega
      · omega
  refine ⟨?_, ?_, ?_⟩
  · rw [hset]
    exact add_cell_labels_areas hLA hc hnew
  · rw [hset, hval]
    omega
  · rw [hval]
    by_cases hk : ((nbrs S c).image l).card = 0
    · have := hzero hk
      omega
    · omega

/-- The state `gamma_move` floods: everything written but the labels. -/
def move_written (g : gamma_t) (player x y : Nat) : gamma_t :=
  { g with
    area_count := set1 g.area_count player
      (sub32 (g.area_count player) (sub32 (distinct_neighbour_count g player x y) 1))
    owner := set2 g.owner y x player
    occupied_count := set1 g.occupied_count player (add64 (g.occupied_count player) 1)
    free_count := sub64 g.free_count 1
    next_id := add32 g.next_id 1 }

/-- The label `gamma_move` floods with. -/
def move_id (g : gamma_t) (player x y : Nat) : Nat :=
  if bordering_area_id g player x y ≠ 0 then bordering_area_id g player x y else g.next_id

theorem moved_eq (g : gamma_t) (player x y : Nat) :
    moved g player x y =
      merge_areas (move_written g player x y) player x y [move_id g player x y] 1 := rfl

/-- The label `gamma_move` floods with is the label of a neighbouring field of
the mover, or fresh. -/
theorem move_id_spec (g : gamma_t) (player x y : Nat) (hs : Sound g)
    (hp : player_correct g player = true) (hx : x < g.width) (hy : y < g.height) :
    1 ≤ move_id g player x y ∧ move_id g player x y < g.next_id + 1 ∧
    ∀ u ∈ owned_by g player, lab g u = move_id g player x y →
      Near (owned_by g player) (x, y) u := by
  obtain ⟨hp1, hp2⟩ := (player_correct_iff g player).1 hp
  have hLA := (hs.players player hp1 hp2).1
  have hbound : ∀ u ∈ owned_by g player, 1 ≤ lab g u ∧ lab g u < g.next_id := by
    intro u hu
    obtain ⟨h1, h2⟩ := (mem_owned_by g player u).1 hu
    exact hs.labelled.owned u h1 (by omega)
  obtain ⟨b1, b2⟩ := bordering_area_id_spec g player x y hp hs.counted.width_lt
    hs.counted.height_lt hx hy
  unfold move_id
  by_cases hb : bordering_area_id g player x y ≠ 0
  · rw [if_pos hb]
    have hne : nbrs (owned_by g player) (x, y) ≠ ∅ := fun h => hb (b1 h)
    have hmem := b2 hne
    obtain ⟨m, hm, hlm⟩ := Finset.mem_image.1 hmem
    have hmS := ((mem_nbrs _ _ m).1 hm).1
    have := hbound m hmS
    refine ⟨by omega, by omega, ?_⟩
    intro u hu hlu
    exact (near_iff_label hLA (x, y) u hu).2 (hlu ▸ hmem)
  · rw [if_neg hb]
    refine ⟨hs.labelled.next_pos, by omega, ?_⟩
    intro u hu hlu
    have := hbound u hu
    omega

/-- A move that is carried out without wrapping the label counter keeps the
invariant. -/
theorem Sound.after_move_sound {g : gamma_t} (hs : Sound g) (player x y : Nat)
    (hok : move_ok g player x y) (hn : g.next_id + 1 < UINT32_SIZE) :
    Sound (moved g player x y) := by
  have hcounted := hs.counted.after_move player x y hok
  obtain ⟨hp, hx, hy, hfree, hroom⟩ := hok
  obtain ⟨hp1, hp2⟩ := (player_correct_iff g player).1 hp
  have hw := hs.counted.width_lt
  have hh := hs.counted.height_lt
  have hcell : (x, y) ∈ cells g := (mem_cells g x y).2 ⟨hx, hy⟩
  have hfree' : g.owner y x = 0 := hfree
  have hc : (x, y) ∉ owned_by g player := by
    rw [mem_owned_by]
    rintro ⟨-, h⟩
    have : g.owner y x = player := h
    omega
  have hset : ∀ r, owned_by (move_written g player x y) r =
      if r = player then insert (x, y) (owned_by g r) else (owned_by g r).erase (x, y) :=
    fun r => owned_by_set2 g (move_written g player x y) x y player r rfl rfl rfl hcell
  have hsetp : owned_by (move_written g player x y) player = insert (x, y) (owned_by g player) := by
    rw [hset, if_pos rfl]
  obtain ⟨hLA, hcnt, hlim⟩ := hs.players player hp1 hp2
  obtain ⟨id1, id2, id3⟩ := move_id_spec g player x y hs hp hx hy
  have hlc : lab (move_written g player x y) (x, y) ≠ move_id g player x y := by
    have : lab g (x, y) = 0 := hs.labelled.free (x, y) hcell hfree'
    show lab g (x, y) ≠ _
    omega
  obtain ⟨⟨a, e⟩, hnew, hout⟩ := merge_add_cell (move_written g player x y) player x y
    (move_id g player x y) [move_id g player x y] (owned_by g player) rfl hp hw hh hsetp hc
    hLA hlc id3
  rw [moved_eq] at hcounted ⊢
  have hown : (merge_areas (move_written g player x y) player x y
      [move_id g player x y] 1).owner = set2 g.owner y x player := by rw [e]; rfl
  have hcells : cells (merge_areas (move_written g player x y) player x y
      [move_id g player x y] 1) = cells g := by rw [e]; rfl
  have hsets : ∀ r, owned_by (merge_areas (move_written g player x y) player x y
      [move_id g player x y] 1) r = owned_by (move_written g player x y) r := by
    intro r; rw [e]; rfl
  have hbound : ∀ u ∈ cells g, g.owner u.2 u.1 ≠ 0 → 1 ≤ lab g u ∧ lab g u < g.next_id :=
    hs.labelled.owned
  refine ⟨hcounted, ?_, ?_, ?_⟩
  · rw [e]; exact hs.limit_lt
  · have hnext : (merge_areas (move_written g player x y) player x y
        [move_id g player x y] 1).next_id = g.next_id + 1 := by
      rw [e]
      exact Nat.mod_eq_of_lt hn
    constructor
    · rw [hnext]; omega
    · rw [hnext]; exact hn
    · intro u hu hzero
      rw [hcells] at hu
      rw [hown] at hzero
      have huc : ¬ (u.2 = y ∧ u.1 = x) := by
        intro h
        rw [h.1, h.2, set2_same] at hzero
        omega
      rw [set2_other _ _ _ _ _ _ huc] at hzero
      have hnot : u ∉ insert (x, y) (owned_by g player) := by
        rw [Finset.mem_insert, mem_owned_by]
        rintro (h | ⟨-, h⟩)
        · exact huc ⟨by rw [h], by rw [h]⟩
        · omega
      rw [hout u hnot]
      exact hs.labelled.free u hu hzero
    · intro u hu hnz
      rw [hcells] at hu
      rw [hnext]
      by_cases hmem : u ∈ insert (x, y) (owned_by g player)
      · by_cases hnear : u = (x, y) ∨ Near (owned_by g player) (x, y) u
        · rw [(hnew u hmem).1 hnear]
          omega
        · rw [((hnew u hmem).2 hnear).1]
          have huS : u ∈ owned_by g player := by
            rcases Finset.mem_insert.1 hmem with h | h
            · exact absurd (Or.inl h) hnear
            · exact h
          have := hbound u hu (by rw [((mem_owned_by g player u).1 huS).2]; omega)
          show 1 ≤ lab g u ∧ lab g u < g.next_id + 1
          omega
      · rw [hout u hmem]
        rw [hown] at hnz
        have huc : ¬ (u.2 = y ∧ u.1 = x) := by
          intro h
          apply hmem
          rw [Finset.mem_insert]
          left
          exact Prod.ext h.2 h.1
        rw [set2_other _ _ _ _ _ _ huc] at hnz
        have := hbound u hu hnz
        show 1 ≤ lab g u ∧ lab g u < g.next_id + 1
        omega
  · intro r hr1 hr2
    have hr2' : r ≤ g.player_count := by rw [e] at hr2; exact hr2
    by_cases hrp : r = player
    · subst hrp
      refine @PlayerSound.add_cell _ _ _ _ (lab g) _ (g.area_count r) hLA hc
        (by rw [hsets, hsetp]) hnew hcnt ?_ ?_ ?_ ?_
      · rw [e]
        show set1 g.area_count r _ r = _
        rw [set1_same, distinct_neighbour_count_eq g r x y hp hw hh hx hy]
      · rw [e]; exact hlim
      · rw [e]; exact hs.limit_lt
      · intro hempty
        have hb := (bordering_area_id_spec g r x y hp hw hh hx hy).1 hempty
        rw [e]
        show g.area_count r < g.areas_limit
        by_contra hcon
        exact hroom ⟨hb, by omega⟩
    · have hso := hs.players r hr1 hr2'
      apply hso.congr_player
      · rw [hsets, hset, if_neg hrp, Finset.erase_eq_of_not_mem]
        rw [mem_owned_by]
        rintro ⟨-, h⟩
        have : g.owner y x = r := h
        omega
      · intro u hu
        apply hout
        rw [Finset.mem_insert, mem_owned_by]
        have hur := ((mem_owned_by g r u).1 hu).2
        rintro (h | ⟨-, h⟩)
        · rw [h] at hur
          have : g.owner y x = r := hur
          omega
        · exact hrp (hur.symm.trans h)
      · rw [e]
        show set1 g.area_count player _ r = _
        rw [set1_other _ _ _ _ hrp]
      · rw [e]; rfl

/-! ## The tentative seizure -/

/-- The state `golden_move_possible` floods: the field handed over and four
labels drawn. -/
def seized (g : gamma_t) (player x y : Nat) : gamma_t :=
  { g with owner := set2 g.owner y x player, next_id := add32 g.next_id 4 }

/-- The neighbours of (x, y) in the reverse of the order
`golden_move_possible` floods them. -/
def flood_order (x y : Nat) : List (Nat × Nat) :=
  [(x, add32 y 1), (x, sub32 y 1), (add32 x 1, y), (sub32 x 1, y)]

theorem tentative_eq (g : gamma_t) (player x y : Nat) :
    tentative g player x y =
      merge_areas (merge_areas (merge_areas (merge_areas (seized g player x y)
        (g.owner y x) (sub32 x 1) y (fresh_ids g) 1)
        (g.owner y x) (add32 x 1) y (fresh_ids g) 2)
        (g.owner y x) x (sub32 y 1) (fresh_ids g) 3)
        (g.owner y x) x (add32 y 1) (fresh_ids g) 4 := rfl

theorem mem_flood_order (x y : Nat) (m : Nat × Nat) :
    m ∈ flood_order x y ↔ m = (sub32 x 1, y) ∨ m = (add32 x 1, y) ∨ m = (x, sub32 y 1) ∨
      m = (x, add32 y 1) := by
  unfold flood_order
  rw [List.mem_cons, List.mem_cons, List.mem_cons, List.mem_singleton]
  constructor
  · rintro (h | h | h | h)
    · exact Or.inr (Or.inr (Or.inr h))
    · exact Or.inr (Or.inr (Or.inl h))
    · exact Or.inr (Or.inl h)
    · exact Or.inl h
  · rintro (h | h | h | h)
    · exact Or.inr (Or.inr (Or.inr h))
    · exact Or.inr (Or.inr (Or.inl h))
    · exact Or.inr (Or.inl h)
    · exact Or.inl h

/-- What the four floods of the tentative seizure do to the fields `S` that
remain with the previous owner. -/
theorem tentative_split (g : gamma_t) (player x y : Nat) (hs : Sound g)
    (hc : check_golden_move_parameters g player x y = true)
    (hn : g.next_id + 3 < UINT32_SIZE) :
    SplitInv ((owned_by g (g.owner y x)).erase (x, y)) (flood_order x y) (lab g)
      (lab (tentative g player x y)) g.next_id 4 ∧
    (∀ u, u ∉ (owned_by g (g.owner y x)).erase (x, y) →
      lab (tentative g player x y) u = lab g u) := by
  obtain ⟨hp, hx, hy, -, hne, hnobody, -⟩ := check_true g player x y hc
  have hw := hs.counted.width_lt
  have hh := hs.counted.height_lt
  have hcell : (x, y) ∈ cells g := (mem_cells g x y).2 ⟨hx, hy⟩
  have hq2 : g.owner y x ≤ g.player_count := hs.counted.owner_le (x, y) hcell
  have hq1 : 1 ≤ g.owner y x := by unfold NOBODY at hnobody; omega
  have hpq : player_correct g (g.owner y x) = true := (player_correct_iff g _).2 ⟨hq1, hq2⟩
  have hS : owned_by (seized g player x y) (g.owner y x) =
      (owned_by g (g.owner y x)).erase (x, y) := by
    rw [owned_by_set2 g (seized g player x y) x y player (g.owner y x) rfl rfl rfl hcell,
      if_neg hne]
  have hl : ∀ u ∈ (owned_by g (g.owner y x)).erase (x, y), lab g u < g.next_id := by
    intro u hu
    obtain ⟨h1, h2⟩ := (mem_owned_by g _ u).1 (Finset.mem_erase.1 hu).2
    exact (hs.labelled.owned u h1 (by omega)).2
  have h0 := SplitInv.init ((owned_by g (g.owner y x)).erase (x, y)) (lab g) g.next_id hl
  rw [tentative_eq]
  obtain ⟨⟨a1, e1⟩, i1, o1⟩ := merge_split_step (seized g player x y) g (g.owner y x)
    (sub32 x 1, y) 0 (by omega) hn hpq hw hh _ hS [] (lab g) h0
  rw [e1] at i1 o1 ⊢
  obtain ⟨⟨a2, e2⟩, i2, o2⟩ := merge_split_step (with_area_id (seized g player x y) a1) g
    (g.owner y x) (add32 x 1, y) 1 (by omega) hn hpq hw hh _ hS _ (lab g) i1
  rw [e2] at i2 o2 ⊢
  obtain ⟨⟨a3, e3⟩, i3, o3⟩ := merge_split_step
    (with_area_id (with_area_id (seized g player x y) a1) a2) g
    (g.owner y x) (x, sub32 y 1) 2 (by omega) hn hpq hw hh _ hS _ (lab g) i2
  rw [e3] at i3 o3 ⊢
  obtain ⟨⟨a4, e4⟩, i4, o4⟩ := merge_split_step
    (with_area_id (with_area_id (with_area_id (seized g player x y) a1) a2) a3) g
    (g.owner y x) (x, add32 y 1) 3 (by omega) hn hpq hw hh _ hS _ (lab g) i3
  rw [e4] at i4 o4 ⊢
  refine ⟨i4, ?_⟩
  intro u hu
  rw [o4 u hu, o3 u hu, o2 u hu, o1 u hu]
  rfl

/-- What is known about the tentative state: `S` are the fields left to the
previous owner, `c` the seized field. -/
structure SplitFacts (g : gamma_t) (player x y : Nat) : Prop where
  mem : (x, y) ∈ owned_by g (g.owner y x)
  owned : owned_by (tentative g player x y) (g.owner y x) =
    (owned_by g (g.owner y x)).erase (x, y)
  areas : LabelsAreas ((owned_by g (g.owner y x)).erase (x, y)) (lab (tentative g player x y))
  count : (((owned_by g (g.owner y x)).erase (x, y)).image
    (lab (tentative g player x y))).card + 1 =
      g.area_count (g.owner y x) + split_count g player x y
  split_count_eq : split_count g player x y =
    ((nbrs ((owned_by g (g.owner y x)).erase (x, y)) (x, y)).image
      (lab (tentative g player x y))).card
  bound : ∀ u ∈ (owned_by g (g.owner y x)).erase (x, y),
    1 ≤ lab (tentative g player x y) u ∧ lab (tentative g player x y) u < g.next_id + 4
  near : ∀ u ∈ (owned_by g (g.owner y x)).erase (x, y),
    g.next_id ≤ lab (tentative g player x y) u →
      Near ((owned_by g (g.owner y x)).erase (x, y)) (x, y) u
  flooded : ∀ u ∈ (owned_by g (g.owner y x)).erase (x, y),
    Near ((owned_by g (g.owner y x)).erase (x, y)) (x, y) u →
      g.next_id ≤ lab (tentative g player x y) u
  outside : ∀ u, u ∉ (owned_by g (g.owner y x)).erase (x, y) →
    lab (tentative g player x y) u = lab g u

theorem tentative_facts (g : gamma_t) (player x y : Nat) (hs : Sound g)
    (hc : check_golden_move_parameters g player x y = true)
    (hn : g.next_id + 3 < UINT32_SIZE) : SplitFacts g player x y := by
  obtain ⟨hinv, hout⟩ := tentative_split g player x y hs hc hn
  obtain ⟨hp, hx, hy, -, hne, hnobody, -⟩ := check_true g player x y hc
  have hw := hs.counted.width_lt
  have hh := hs.counted.height_lt
  have hcell : (x, y) ∈ cells g := (mem_cells g x y).2 ⟨hx, hy⟩
  have hq2 : g.owner y x ≤ g.player_count := hs.counted.owner_le (x, y) hcell
  have hq1 : 1 ≤ g.owner y x := by unfold NOBODY at hnobody; omega
  have hpq : player_correct g (g.owner y x) = true := (player_correct_iff g _).2 ⟨hq1, hq2⟩
  have hcQ : (x, y) ∈ owned_by g (g.owner y x) := (mem_owned_by g _ _).2 ⟨hcell, rfl⟩
  have hcS : (x, y) ∉ (owned_by g (g.owner y x)).erase (x, y) := Finset.not_mem_erase _ _
  have hins : insert (x, y) ((owned_by g (g.owner y x)).erase (x, y)) =
      owned_by g (g.owner y x) := Finset.insert_erase hcQ
  obtain ⟨hLA, hcnt, -⟩ := hs.players (g.owner y x) hq1 hq2
  have hQ : LabelsAreas (insert (x, y) ((owned_by g (g.owner y x)).erase (x, y))) (lab g) := by
    rw [hins]; exact hLA
  have hl : ∀ u ∈ insert (x, y) ((owned_by g (g.owner y x)).erase (x, y)),
      1 ≤ lab g u ∧ lab g u < g.next_id := by
    intro u hu
    rw [hins] at hu
    obtain ⟨h1, h2⟩ := (mem_owned_by g _ u).1 hu
    exact hs.labelled.owned u h1 (by omega)
  have hScell : ∀ m ∈ (owned_by g (g.owner y x)).erase (x, y), m.1 < g.width ∧ m.2 < g.height := by
    intro m hm
    exact (mem_cells g m.1 m.2).1 ((mem_owned_by g _ m).1 (Finset.mem_erase.1 hm).2).1
  have hadj : ∀ m ∈ flood_order x y, m ∈ (owned_by g (g.owner y x)).erase (x, y) →
      adj (x, y) m := by
    intro m hm hmS
    obtain ⟨h1, h2⟩ := hScell m hmS
    apply (adj_iff_neighbour g.width g.height x y hw hh hx hy m h1 h2).2
    rw [mem_flood_order] at hm
    exact hm
  have hall : ∀ m ∈ nbrs ((owned_by g (g.owner y x)).erase (x, y)) (x, y),
      m ∈ flood_order x y := by
    intro m hm
    obtain ⟨hmS, hm'⟩ := (mem_nbrs _ _ m).1 hm
    obtain ⟨h1, h2⟩ := hScell m hmS
    have := (adj_iff_neighbour g.width g.height x y hw hh hx hy m h1 h2).1 hm'
    rw [mem_flood_order]
    exact this
  have hown : owned_by (tentative g player x y) (g.owner y x) =
      (owned_by g (g.owner y x)).erase (x, y) := by
    rw [owned_by_set2 g (tentative g player x y) x y player (g.owner y x)
      (tentative_same_stats g player x y).1 (tentative_same_stats g player x y).2.1
      (tentative_owner g player x y) hcell, if_neg hne]
  have hcount := hinv.count hcS hQ (fun u hu => (hl u hu).2) hadj hall
  have hsc : split_count g player x y =
      ((nbrs ((owned_by g (g.owner y x)).erase (x, y)) (x, y)).image
        (lab (tentative g player x y))).card := by
    unfold split_count
    rw [distinct_neighbour_count_eq (tentative g player x y) (g.owner y x) x y
      (by
        have h3 := (tentative_same_stats g player x y).2.2.1
        rw [player_correct_iff, h3]
        exact ⟨hq1, hq2⟩)
      (by rw [(tentative_same_stats g player x y).1]; exact hw)
      (by rw [(tentative_same_stats g player x y).2.1]; exact hh)
      (by rw [(tentative_same_stats g player x y).1]; exact hx)
      (by rw [(tentative_same_stats g player x y).2.1]; exact hy), hown]
  refine ⟨hcQ, hown, hinv.labels_areas hcS hQ hall, ?_, hsc, ?_,
    fun u hu hge => hinv.near_of_flooded hadj hu hge,
    fun u hu hnear => hinv.flooded_of_near hall hu hnear, hout⟩
  · rw [hcount, hins, ← hcnt, hsc]
  · intro u hu
    have h1 := hinv.lt u hu
    refine ⟨?_, h1⟩
    by_cases hlt : lab (tentative g player x y) u < g.next_id
    · rw [hinv.old u hu hlt]
      exact (hl u (Finset.mem_insert_of_mem hu)).1
    · have := hs.labelled.next_pos
      omega

/-- The state whose flood takes the seizure back: the tentative state with
the field returned to its owner. -/
def returned (g : gamma_t) (player x y : Nat) : gamma_t :=
  { tentative g player x y with
    owner := set2 (tentative g player x y).owner y x (g.owner y x) }

theorem reverted_eq (g : gamma_t) (player x y : Nat) :
    reverted g player x y =
      merge_areas (returned g player x y) (g.owner y x) x y (fresh_ids g) 1 := rfl

theorem returned_owner (g : gamma_t) (player x y : Nat) :
    (returned g player x y).owner = g.owner := by
  show set2 (tentative g player x y).owner y x (g.owner y x) = g.owner
  rw [tentative_owner, set2_set2, set2_self]

/-- A seizure that is tried and taken back without wrapping the label counter
keeps the invariant. -/
theorem Sound.after_revert {g : gamma_t} (hs : Sound g) (player x y : Nat)
    (hc : check_golden_move_parameters g player x y = true)
    (hn : g.next_id + 4 < UINT32_SIZE) : Sound (reverted g player x y) := by
  have sf := tentative_facts g player x y hs hc (by omega)
  obtain ⟨hp, hx, hy, -, hne, hnobody, -⟩ := check_true g player x y hc
  have hw := hs.counted.width_lt
  have hh := hs.counted.height_lt
  have hcell : (x, y) ∈ cells g := (mem_cells g x y).2 ⟨hx, hy⟩
  have hq2 : g.owner y x ≤ g.player_count := hs.counted.owner_le (x, y) hcell
  have hq1 : 1 ≤ g.owner y x := by unfold NOBODY at hnobody; omega
  have hcS : (x, y) ∉ (owned_by g (g.owner y x)).erase (x, y) := Finset.not_mem_erase _ _
  have hins : insert (x, y) ((owned_by g (g.owner y x)).erase (x, y)) =
      owned_by g (g.owner y x) := Finset.insert_erase sf.mem
  have hst := tentative_same_stats g player x y
  have hbound : ∀ u ∈ cells g, g.owner u.2 u.1 ≠ 0 → 1 ≤ lab g u ∧ lab g u < g.next_id :=
    hs.labelled.owned
  have hlabc : lab g (x, y) < g.next_id := (hbound (x, y) hcell (by show g.owner y x ≠ 0; omega)).2
  have hS : owned_by (returned g player x y) (g.owner y x) =
      insert (x, y) ((owned_by g (g.owner y x)).erase (x, y)) := by
    rw [hins]
    exact @owned_by_congr g (returned g player x y) hst.1 hst.2.1
      (returned_owner g player x y) _
  have hlc : lab (returned g player x y) (x, y) ≠ g.next_id := by
    show lab (tentative g player x y) (x, y) ≠ g.next_id
    rw [sf.outside (x, y) hcS]
    omega
  obtain ⟨⟨a, e⟩, hnew, hout⟩ := merge_add_cell (returned g player x y) (g.owner y x) x y
    g.next_id (fresh_ids g) _ rfl
    (by
      rw [player_correct_iff]
      exact ⟨hq1, by show (tentative g player x y).player_count ≥ _; rw [hst.2.2.1]; exact hq2⟩)
    (by show (tentative g player x y).width < _; rw [hst.1]; exact hw)
    (by show (tentative g player x y).height < _; rw [hst.2.1]; exact hh)
    hS hcS sf.areas hlc
    (fun u hu hlu => sf.near u hu (le_of_eq hlu.symm))
  rw [← reverted_eq] at hnew hout
  have hrs := reverted_same_stats g player x y
  have hro := reverted_owner g player x y
  have hcells : cells (reverted g player x y) = cells g := cells_congr hrs.1 hrs.2.1
  have hsets : ∀ r, owned_by (reverted g player x y) r = owned_by g r :=
    fun r => owned_by_congr hrs.1 hrs.2.1 hro r
  have hnext : (reverted g player x y).next_id = g.next_id + 4 := by
    rw [reverted_next_id]
    exact Nat.mod_eq_of_lt hn
  have hother : ∀ u : Nat × Nat, g.owner u.2 u.1 ≠ g.owner y x →
      lab (reverted g player x y) u = lab g u :=
    fun u hu => reverted_area_id_of_ne g player x y u.2 u.1 hu
  refine ⟨hs.counted.congr_stats hrs hro, ?_, ?_, ?_⟩
  · rw [hrs.2.2.2.1]; exact hs.limit_lt
  · constructor
    · rw [hnext]; omega
    · rw [hnext]; exact hn
    · intro u hu hzero
      rw [hcells] at hu
      rw [hro] at hzero
      rw [hother u (by omega)]
      exact hs.labelled.free u hu hzero
    · intro u hu hnz
      rw [hcells] at hu
      rw [hro] at hnz
      rw [hnext]
      by_cases hq : g.owner u.2 u.1 = g.owner y x
      · have hmem : u ∈ insert (x, y) ((owned_by g (g.owner y x)).erase (x, y)) := by
          rw [hins, mem_owned_by]
          exact ⟨hu, hq⟩
        by_cases hnear : u = (x, y) ∨ Near ((owned_by g (g.owner y x)).erase (x, y)) (x, y) u
        · rw [(hnew u hmem).1 hnear]
          have := hs.labelled.next_pos
          omega
        · rw [((hnew u hmem).2 hnear).1]
          have huS : u ∈ (owned_by g (g.owner y x)).erase (x, y) := by
            rcases Finset.mem_insert.1 hmem with h | h
            · exact absurd (Or.inl h) hnear
            · exact h
          exact sf.bound u huS
      · rw [hother u hq]
        have := hbound u hu hnz
        omega
  · intro r hr1 hr2
    have hr2' : r ≤ g.player_count := by rw [hrs.2.2.1] at hr2; exact hr2
    have hso := hs.players r hr1 hr2'
    by_cases hrq : r = g.owner y x
    · subst hrq
      have hcnt := add_cell_count sf.areas hcS hnew
      have h1 := sf.count
      have h2 := sf.split_count_eq
      refine ⟨?_, ?_, ?_⟩
      · rw [hsets, ← hins]
        exact add_cell_labels_areas sf.areas hcS hnew
      · rw [hsets, ← hins, hrs.2.2.2.2.1]
        show g.area_count (g.owner y x) = _
        omega
      · rw [hrs.2.2.2.2.1, hrs.2.2.2.1]
        exact hso.2.2
    · apply hso.congr_player (hsets r)
      · intro u hu
        apply hother
        rw [((mem_owned_by g r u).1 hu).2]
        exact hrq
      · rw [hrs.2.2.2.2.1]
      · exact hrs.2.2.2.1

/-- The state `gamma_golden_move` floods last: the tentative state with the
statistics, the flag and the counter written. -/
def commit_written (g : gamma_t) (player x y : Nat) : gamma_t :=
  { tentative g player x y with
    area_count := set1
      (set1 (tentative g player x y).area_count player
        (sub32 ((tentative g player x y).area_count player)
          (sub32 (distinct_neighbour_count (tentative g player x y) player x y) 1)))
      (g.owner y x)
      (add32 (set1 (tentative g player x y).area_count player
        (sub32 ((tentative g player x y).area_count player)
          (sub32 (distinct_neighbour_count (tentative g player x y) player x y) 1))
        (g.owner y x))
        (sub32 (distinct_neighbour_count (tentative g player x y) (g.owner y x) x y) 1))
    occupied_count := set1
      (set1 (tentative g player x y).occupied_count player
        (add64 ((tentative g player x y).occupied_count player) 1))
      (g.owner y x)
      (sub64 (set1 (tentative g player x y).occupied_count player
        (add64 ((tentative g player x y).occupied_count player) 1) (g.owner y x)) 1)
    made_golden_move := set1 (tentative g player x y).made_golden_move player true
    next_id := add32 (tentative g player x y).next_id 1 }

theorem committed_eq (g : gamma_t) (player x y : Nat) :
    committed g player x y =
      merge_areas (commit_written g player x y) player x y
        [(tentative g player x y).next_id] 1 := rfl

theorem nbrs_insert_self (S : Finset (Nat × Nat)) (c : Nat × Nat) :
    nbrs (insert c S) c = nbrs S c := by
  ext m
  rw [mem_nbrs, mem_nbrs, Finset.mem_insert]
  constructor
  · rintro ⟨h | h, hadj⟩
    · exact absurd h.symm (adj_ne hadj)
    · exact ⟨h, hadj⟩
  · rintro ⟨h, hadj⟩
    exact ⟨Or.inr h, hadj⟩

/-- The value of the test `area_count + neighbours - 1 <= areas_limit` that
`golden_move_possible` makes. -/
theorem split_ok_iff (g : gamma_t) (player x y : Nat) (hs : Sound g)
    (hc : check_golden_move_parameters g player x y = true)
    (hn : g.next_id + 4 < UINT32_SIZE) :
    1 ≤ g.area_count (g.owner y x) ∧
    g.area_count (g.owner y x) + split_count g player x y - 1 < UINT32_SIZE ∧
    (split_ok g player x y = true ↔
      g.area_count (g.owner y x) + split_count g player x y - 1 ≤ g.areas_limit) := by
  have sf := tentative_facts g player x y hs hc (by omega)
  obtain ⟨hp, hx, hy, -, hne, hnobody, -⟩ := check_true g player x y hc
  have hcell : (x, y) ∈ cells g := (mem_cells g x y).2 ⟨hx, hy⟩
  have hq2 : g.owner y x ≤ g.player_count := hs.counted.owner_le (x, y) hcell
  have hq1 : 1 ≤ g.owner y x := by unfold NOBODY at hnobody; omega
  obtain ⟨-, hcnt, -⟩ := hs.players (g.owner y x) hq1 hq2
  have hpos : 1 ≤ g.area_count (g.owner y x) := by
    rw [hcnt]
    exact Finset.card_pos.2 ⟨_, Finset.mem_image_of_mem _ sf.mem⟩
  have hle : (((owned_by g (g.owner y x)).erase (x, y)).image
      (lab (tentative g player x y))).card ≤ g.next_id + 4 := by
    have hsub : ((owned_by g (g.owner y x)).erase (x, y)).image
        (lab (tentative g player x y)) ⊆ Finset.range (g.next_id + 4) := by
      intro w hw
      obtain ⟨u, hu, rfl⟩ := Finset.mem_image.1 hw
      exact Finset.mem_range.2 (sf.bound u hu).2
    have := Finset.card_le_card hsub
    rwa [Finset.card_range] at this
  have hcount := sf.count
  have hlt : g.area_count (g.owner y x) + split_count g player x y - 1 < UINT32_SIZE := by
    omega
  refine ⟨hpos, hlt, ?_⟩
  unfold split_ok
  rw [decide_eq_true_iff]
  have htest := area_count_test (g.area_count (g.owner y x))
    (distinct_neighbour_count (tentative g player x y) (g.owner y x) x y) (by omega) hlt
  rw [htest]
  rfl

/-- A golden move that is carried out without wrapping the label counter keeps
the invariant. -/
theorem Sound.after_commit_sound {g : gamma_t} (hs : Sound g) (player x y : Nat)
    (hc : check_golden_move_parameters g player x y = true)
    (hok : split_ok g player x y = true)
    (hn : g.next_id + 5 < UINT32_SIZE) : Sound (committed g player x y) := by
  have sf := tentative_facts g player x y hs hc (by omega)
  obtain ⟨hqpos, hqlt, hqok⟩ := split_ok_iff g player x y hs hc (by omega)
  have hcounted := hs.counted.after_commit player x y hc
  obtain ⟨hp, hx, hy, -, hne, hnobody, hroom⟩ := check_true g player x y hc
  obtain ⟨hp1, hp2⟩ := (player_correct_iff g player).1 hp
  have hw := hs.counted.width_lt
  have hh := hs.counted.height_lt
  have hcell : (x, y) ∈ cells g := (mem_cells g x y).2 ⟨hx, hy⟩
  have hq2 : g.owner y x ≤ g.player_count := hs.counted.owner_le (x, y) hcell
  have hq1 : 1 ≤ g.owner y x := by unfold NOBODY at hnobody; omega
  have hst := tentative_same_stats g player x y
  have hto := tentative_owner g player x y
  have hbound : ∀ u ∈ cells g, g.owner u.2 u.1 ≠ 0 → 1 ≤ lab g u ∧ lab g u < g.next_id :=
    hs.labelled.owned
  have hlabc : lab g (x, y) < g.next_id :=
    (hbound (x, y) hcell (by show g.owner y x ≠ 0; omega)).2
  have hcS : (x, y) ∉ (owned_by g (g.owner y x)).erase (x, y) := Finset.not_mem_erase _ _
  have hcP : (x, y) ∉ owned_by g player := by
    rw [mem_owned_by]
    rintro ⟨-, h⟩
    exact hne h
  have hnotS : ∀ u ∈ owned_by g player, u ∉ (owned_by g (g.owner y x)).erase (x, y) := by
    intro u hu hu'
    have h1 := ((mem_owned_by g player u).1 hu).2
    have h2 := ((mem_owned_by g _ u).1 (Finset.mem_erase.1 hu').2).2
    exact hne (h2.symm.trans h1)
  have hnid : (tentative g player x y).next_id = g.next_id + 4 := by
    rw [tentative_next_id]
    exact Nat.mod_eq_of_lt (by omega)
  have hwset : ∀ r, owned_by (commit_written g player x y) r =
      if r = player then insert (x, y) (owned_by g r) else (owned_by g r).erase (x, y) :=
    fun r => owned_by_set2 g (commit_written g player x y) x y player r hst.1 hst.2.1 hto hcell
  have hwsetp : owned_by (commit_written g player x y) player =
      insert (x, y) (owned_by g player) := by rw [hwset, if_pos rfl]
  obtain ⟨hLA, hcnt, hlim⟩ := hs.players player hp1 hp2
  have hlabP : ∀ u ∈ owned_by g player, lab (commit_written g player x y) u = lab g u :=
    fun u hu => sf.outside u (hnotS u hu)
  have hlc : lab (commit_written g player x y) (x, y) ≠ g.next_id + 4 := by
    show lab (tentative g player x y) (x, y) ≠ _
    rw [sf.outside (x, y) hcS]
    omega
  obtain ⟨⟨a, e⟩, hnew, hout⟩ := merge_add_cell (commit_written g player x y) player x y
    (g.next_id + 4) [(tentative g player x y).next_id] (owned_by g player) hnid
    (by
      rw [player_correct_iff]
      exact ⟨hp1, by show (tentative g player x y).player_count ≥ _; rw [hst.2.2.1]; exact hp2⟩)
    (by show (tentative g player x y).width < _; rw [hst.1]; exact hw)
    (by show (tentative g player x y).height < _; rw [hst.2.1]; exact hh)
    hwsetp hcP (hLA.congr hlabP) hlc
    (by
      intro u hu hlu
      rw [hlabP u hu] at hlu
      have h1 := (mem_owned_by g player u).1 hu
      have := hbound u h1.1 (by rw [h1.2]; omega)
      omega)
  rw [← committed_eq] at hnew hout
  have hown : (committed g player x y).owner = set2 g.owner y x player := by
    rw [committed_eq, e]
    exact hto
  have hcs : same_stats (commit_written g player x y) (committed g player x y) := by
    rw [committed_eq]
    exact merge_areas_same_stats _ _ _ _ _ _
  have hcells : cells (committed g player x y) = cells g :=
    cells_congr (hcs.1.trans hst.1) (hcs.2.1.trans hst.2.1)
  have hsets : ∀ r, owned_by (committed g player x y) r =
      owned_by (commit_written g player x y) r := by
    intro r
    rw [committed_eq, e]
    rfl
  have hnext : (committed g player x y).next_id = g.next_id + 5 := by
    rw [committed_eq, merge_areas_next_id]
    show add32 (tentative g player x y).next_id 1 = _
    rw [hnid]
    exact Nat.mod_eq_of_lt (by omega)
  have hlimit : (committed g player x y).areas_limit = g.areas_limit :=
    hcs.2.2.2.1.trans hst.2.2.2.1
  have hacs : (committed g player x y).area_count = (commit_written g player x y).area_count :=
    hcs.2.2.2.2.1
  have hTac : (tentative g player x y).area_count = g.area_count := hst.2.2.2.2.1
  -- labels outside the mover's area
  have hrest : ∀ u, u ∉ insert (x, y) (owned_by g player) →
      lab (committed g player x y) u = lab (tentative g player x y) u := hout
  refine ⟨hcounted, ?_, ?_, ?_⟩
  · rw [hlimit]; exact hs.limit_lt
  · constructor
    · rw [hnext]; omega
    · rw [hnext]; exact hn
    · intro u hu hzero
      rw [hcells] at hu
      rw [hown] at hzero
      have huc : ¬ (u.2 = y ∧ u.1 = x) := by
        intro h
        rw [h.1, h.2, set2_same] at hzero
        omega
      rw [set2_other _ _ _ _ _ _ huc] at hzero
      have hnot : u ∉ insert (x, y) (owned_by g player) := by
        rw [Finset.mem_insert, mem_owned_by]
        rintro (h | ⟨-, h⟩)
        · exact huc ⟨by rw [h], by rw [h]⟩
        · omega
      have hnotS' : u ∉ (owned_by g (g.owner y x)).erase (x, y) := by
        intro h
        have := ((mem_owned_by g _ u).1 (Finset.mem_erase.1 h).2).2
        omega
      rw [hrest u hnot, sf.outside u hnotS']
      exact hs.labelled.free u hu hzero
    · intro u hu hnz
      rw [hcells] at hu
      rw [hnext]
      by_cases hmem : u ∈ insert (x, y) (owned_by g player)
      · by_cases hnear : u = (x, y) ∨ Near (owned_by g player) (x, y) u
        · rw [(hnew u hmem).1 hnear]
          have := hs.labelled.next_pos
          omega
        · rw [((hnew u hmem).2 hnear).1]
          have huS : u ∈ owned_by g player := by
            rcases Finset.mem_insert.1 hmem with h | h
            · exact absurd (Or.inl h) hnear
            · exact h
          rw [hlabP u huS]
          have := hbound u hu (by rw [((mem_owned_by g player u).1 huS).2]; omega)
          omega
      · rw [hrest u hmem]
        by_cases huS : u ∈ (owned_by g (g.owner y x)).erase (x, y)
        · have := sf.bound u huS
          omega
        · rw [sf.outside u huS]
          rw [hown] at hnz
          have huc : ¬ (u.2 = y ∧ u.1 = x) := by
            intro h
            apply hmem
            rw [Finset.mem_insert]
            left
            exact Prod.ext h.2 h.1
          rw [set2_other _ _ _ _ _ _ huc] at hnz
          have := hbound u hu hnz
          omega
  · intro r hr1 hr2
    have hr2' : r ≤ g.player_count := by
      rw [hcs.2.2.1] at hr2
      exact hst.2.2.1 ▸ hr2
    by_cases hrp : r = player
    · subst hrp
      refine @PlayerSound.add_cell _ _ _ _ (lab (commit_written g r x y)) _
        (g.area_count r) (hLA.congr hlabP) hcP (by rw [hsets, hwsetp]) hnew ?_ ?_ ?_ ?_ ?_
      · rw [hcnt]
        exact congrArg Finset.card (Finset.image_congr (fun u hu => hlabP u hu)).symm
      · rw [hacs]
        show set1 (set1 (tentative g r x y).area_count r _) (g.owner y x) _ r = _
        rw [set1_other _ _ _ _ (fun h => hne h.symm), set1_same, hTac,
          distinct_neighbour_count_eq (tentative g r x y) r x y
            (by rw [player_correct_iff, hst.2.2.1]; exact ⟨hp1, hp2⟩)
            (by rw [hst.1]; exact hw) (by rw [hst.2.1]; exact hh)
            (by rw [hst.1]; exact hx) (by rw [hst.2.1]; exact hy),
          owned_by_set2 g (tentative g r x y) x y r r hst.1 hst.2.1 hto hcell, if_pos rfl,
          nbrs_insert_self]
        rfl
      · rw [hlimit]; exact hlim
      · rw [hlimit]; exact hs.limit_lt
      · intro hempty
        have hb := (bordering_area_id_spec g r x y hp hw hh hx hy).1 hempty
        rw [hlimit]
        by_contra hcon
        exact hroom ⟨hb, by omega⟩
    · by_cases hrq : r = g.owner y x
      · subst hrq
        have hsetq : owned_by (committed g player x y) (g.owner y x) =
            (owned_by g (g.owner y x)).erase (x, y) := by
          rw [hsets, hwset, if_neg hrp]
        have hlabq : ∀ u ∈ (owned_by g (g.owner y x)).erase (x, y),
            lab (committed g player x y) u = lab (tentative g player x y) u := by
          intro u hu
          apply hrest
          rw [Finset.mem_insert]
          rintro (h | h)
          · exact (Finset.mem_erase.1 hu).1 h
          · exact hnotS u h hu
        have hval : (committed g player x y).area_count (g.owner y x) =
            g.area_count (g.owner y x) + split_count g player x y - 1 := by
          rw [hacs]
          show set1 (set1 (tentative g player x y).area_count player _) (g.owner y x) _
            (g.owner y x) = _
          rw [set1_same, set1_other _ _ _ _ hne, hTac]
          exact area_count_add _ _ (by omega) hqlt
        have hcount := sf.count
        refine ⟨?_, ?_, ?_⟩
        · rw [hsetq]
          exact sf.areas.congr hlabq
        · rw [hsetq, hval, Finset.image_congr (fun u hu => hlabq u hu)]
          omega
        · rw [hval, hlimit]
          exact hqok.1 hok
      · have hso := hs.players r hr1 hr2'
        apply hso.congr_player
        · rw [hsets, hwset, if_neg hrp, Finset.erase_eq_of_not_mem]
          rw [mem_owned_by]
          rintro ⟨-, h⟩
          exact hrq h.symm
        · intro u hu
          have hur := ((mem_owned_by g r u).1 hu).2
          rw [hrest u, sf.outside u]
          · intro h
            have := ((mem_owned_by g _ u).1 (Finset.mem_erase.1 h).2).2
            exact hrq (hur.symm.trans this)
          · rw [Finset.mem_insert, mem_owned_by]
            rintro (h | ⟨-, h⟩)
            · rw [h] at hur
              exact hrq hur.symm
            · exact hrp (hur.symm.trans h)
        · rw [hacs]
          show set1 (set1 (tentative g player x y).area_count player _) (g.owner y x) _ r = _
          rw [set1_other _ _ _ _ hrq, set1_other _ _ _ _ hrp, hTac]
        · exact hlimit

/-! ## Reachable states in which the label counter has not wrapped -/

/-- The label counter does not wrap in any probe of the loop of
`gamma_golden_possible` (one probe draws 0 or 4 labels). -/
def no_wrap_loop (player : Nat) : List (Nat × Nat) → gamma_t → Prop
  | [], _ => True
  | c :: cs, g =>
    g.next_id ≤ (golden_move_possible g player c.1 c.2 true).1.next_id ∧
    ((golden_move_possible g player c.1 c.2 true).2 = false →
      no_wrap_loop player cs (golden_move_possible g player c.1 c.2 true).1)

/-- The label counter does not wrap during the call (a move or a golden move
draws at most 5 labels, so the counter wraps exactly when it ends up smaller). -/
def Call.no_wrap (g : gamma_t) : Call → Prop
  | Call.move player x y => g.next_id ≤ (gamma_move g player x y).1.next_id
  | Call.golden_move player x y => g.next_id ≤ (gamma_golden_move g player x y).1.next_id
  | Call.golden_possible player =>
    player_correct g player = true → g.made_golden_move player = false →
      no_wrap_loop player (board_fields g) g
  | Call.free_fields _ => True
  | Call.busy_fields _ => True

/-- States reachable from `gamma_new` through calls during none of which the
label counter `next_id` wraps. -/
inductive ReachableNW : gamma_t → Prop where
  | new (width height players areas : Nat) (g : gamma_t) :
      width < UINT32_SIZE → height < UINT32_SIZE → players < UINT32_SIZE →
      areas < UINT32_SIZE → gamma_new width height players areas = some g → ReachableNW g
  | step (g : gamma_t) (c : Call) : ReachableNW g → c.no_wrap g → ReachableNW (c.run g)

theorem ReachableNW.reachable {g : gamma_t} (h : ReachableNW g) : Reachable g := by
  induction h with
  | new width height players areas g hw hh hp ha hnew =>
    exact Reachable.new width height players areas g hw hh hp ha hnew
  | step g c _ _ ih => exact Reachable.step g c ih

theorem Sound.of_gamma_new (width height players areas : Nat) (g : gamma_t)
    (hw : width < UINT32_SIZE) (hh : height < UINT32_SIZE) (ha : areas < UINT32_SIZE)
    (h : gamma_new width height players areas = some g) : Sound g := by
  have hcounted := Counted.of_new width height players areas g hw hh h
  unfold gamma_new at h
  split at h
  · exact absurd h (by simp)
  split at h
  · exact absurd h (by simp)
  injection h with h
  subst h
  refine ⟨hcounted, ha, ⟨le_refl 1, by show 1 < UINT32_SIZE; unfold UINT32_SIZE; omega,
    fun _ _ _ => rfl, fun c _ hne => absurd rfl hne⟩, ?_⟩
  intro p hp1 _
  have hempty : owned_by
      { width := width, height := height, player_count := players, areas_limit := areas,
        owner := fun _ _ => NOBODY, area_id := fun _ _ => EMPTY, area_count := fun _ => 0,
        made_golden_move := fun _ => false, occupied_count := fun _ => 0,
        free_count := (width * height) % UINT64_SIZE, next_id := 1,
        frame := digit_count players } p = ∅ := by
    unfold owned_by
    apply Finset.filter_eq_empty_iff.2
    intro c _
    show ¬ (NOBODY = p)
    unfold NOBODY
    omega
  refine ⟨?_, ?_, Nat.zero_le _⟩
  · rw [hempty]
    intro a ha
    exact absurd ha (Finset.not_mem_empty a)
  · rw [hempty]
    rfl

theorem add32_no_wrap (n d : Nat) (hn : n < UINT32_SIZE) (hd : d < 6) (hpos : 1 ≤ d)
    (h : n ≤ add32 n d) : n + d < UINT32_SIZE := by
  unfold add32 at h
  unfold UINT32_SIZE at *
  omega

theorem add32_add32 (n : Nat) : add32 (add32 n 4) 1 = add32 n 5 := by
  unfold add32 UINT32_SIZE
  omega

/-- A probe that does not wrap the label counter keeps the invariant. -/
theorem Sound.after_probe {g : gamma_t} (hs : Sound g) (player x y : Nat)
    (hn : g.next_id ≤ (golden_move_possible g player x y true).1.next_id) :
    Sound (golden_move_possible g player x y true).1 := by
  cases hc : check_golden_move_parameters g player x y
  · unfold golden_move_possible
    rw [if_pos hc]
    exact hs
  · rw [golden_move_possible_eq g player x y true hc, if_pos (Or.inl rfl)] at hn ⊢
    apply hs.after_revert player x y hc
    have h : g.next_id ≤ add32 g.next_id 4 := by
      have := reverted_next_id g player x y
      rw [← this]
      exact hn
    exact add32_no_wrap _ 4 hs.labelled.next_lt (by omega) (by omega) h

theorem Sound.after_loop (player : Nat) (cs : List (Nat × Nat)) :
    ∀ g : gamma_t, Sound g → no_wrap_loop player cs g →
      Sound (golden_possible_loop player cs g).1 := by
  induction cs with
  | nil => intro g hs _; exact hs
  | cons c cs ih =>
    intro g hs hnw
    obtain ⟨h1, h2⟩ := hnw
    unfold golden_possible_loop
    dsimp only
    have hprobe := hs.after_probe player c.1 c.2 h1
    by_cases hr : (golden_move_possible g player c.1 c.2 true).2 = true
    · rw [if_pos hr]
      exact hprobe
    · rw [if_neg hr]
      exact ih _ hprobe (h2 (by simpa using hr))

/-- A call that does not wrap the label counter keeps the invariant. -/
theorem Sound.after_call_nw {g : gamma_t} (hs : Sound g) (c : Call) (hnw : c.no_wrap g) :
    Sound (c.run g) := by
  cases c with
  | move player x y =>
    have hnw' : g.next_id ≤ (gamma_move g player x y).1.next_id := hnw
    show Sound (gamma_move g player x y).1
    rw [gamma_move_eq] at hnw' ⊢
    by_cases hok : move_ok g player x y
    · rw [if_pos hok] at hnw' ⊢
      apply hs.after_move_sound player x y hok
      obtain ⟨a, e⟩ := moved_shape g player x y
      have h : g.next_id ≤ add32 g.next_id 1 := by
        have : (moved g player x y).next_id = add32 g.next_id 1 := by rw [e]
        rw [← this]
        exact hnw'
      exact add32_no_wrap _ 1 hs.labelled.next_lt (by omega) (by omega) h
    · rw [if_neg hok]
      exact hs
  | golden_move player x y =>
    have hnw' : g.next_id ≤ (gamma_golden_move g player x y).1.next_id := hnw
    show Sound (gamma_golden_move g player x y).1
    cases hc : check_golden_move_parameters g player x y
    · rw [gamma_golden_move_of_check_false g player x y hc]
      exact hs
    · rw [gamma_golden_move_eq g player x y hc] at hnw' ⊢
      by_cases hok : split_ok g player x y = true
      · rw [if_pos hok] at hnw' ⊢
        apply hs.after_commit_sound player x y hc hok
        obtain ⟨a, e⟩ := committed_shape g player x y
        have h : g.next_id ≤ add32 g.next_id 5 := by
          have : (committed g player x y).next_id = add32 (add32 g.next_id 4) 1 := by rw [e]
          rw [← add32_add32, ← this]
          exact hnw'
        exact add32_no_wrap _ 5 hs.labelled.next_lt (by omega) (by omega) h
      · rw [if_neg hok] at hnw' ⊢
        apply hs.after_revert player x y hc
        have h : g.next_id ≤ add32 g.next_id 4 := by
          have := reverted_next_id g player x y
          rw [← this]
          exact hnw'
        exact add32_no_wrap _ 4 hs.labelled.next_lt (by omega) (by omega) h
  | golden_possible player =>
    have hnw' : player_correct g player = true → g.made_golden_move player = false →
      no_wrap_loop player (board_fields g) g := hnw
    show Sound (gamma_golden_possible g player).1
    unfold gamma_golden_possible
    by_cases h1 : player_correct g player = false
    · rw [if_pos h1]; exact hs
    rw [if_neg h1]
    by_cases h2 : g.made_golden_move player = true
    · rw [if_pos h2]; exact hs
    rw [if_neg h2]
    exact Sound.after_loop player _ g hs (hnw' (by simpa using h1) (by simpa using h2))
  | free_fields player => exact hs
  | busy_fields player => exact hs

theorem ReachableNW.sound {g : gamma_t} (h : ReachableNW g) : Sound g := by
  induction h with
  | new width height players areas g hw hh _ ha hnew =>
    exact Sound.of_gamma_new width height players areas g hw hh ha hnew
  | step g c _ hnw ih => exact ih.after_call_nw c hnw

/-! ## Counting areas -/

/-- The areas (maximal 4-connected components) of `S` that contain a field
of `T` number `n`: there are `n` fields of `T`, no two of them joined by a path
in `S`, such that every field of `T` is joined to one of them. -/
def AreaCountOf (S T : Finset (Nat × Nat)) (n : Nat) : Prop :=
  ∃ reps : Finset (Nat × Nat), reps ⊆ T ∧ reps.card = n ∧
    (∀ a ∈ reps, ∀ b ∈ reps, Conn S a b → a = b) ∧
    (∀ u ∈ T, ∃ r ∈ reps, Conn S r u)

/-- The set `S` of fields consists of `n` areas. -/
def AreaCount (S : Finset (Nat × Nat)) (n : Nat) : Prop :=
  AreaCountOf S S n

theorem AreaCountOf.le {S T : Finset (Nat × Nat)} {n m : Nat} (h : AreaCountOf S T n)
    (h' : AreaCountOf S T m) : n ≤ m := by
  obtain ⟨r, hr, hn, hsep, -⟩ := h
  obtain ⟨r', -, hm, -, hcov⟩ := h'
  rw [← hn, ← hm]
  apply Finset.card_le_card_of_forall_subsingleton (fun a b => Conn S b a)
  · intro a ha
    obtain ⟨b, hb, hconn⟩ := hcov a (hr ha)
    exact ⟨b, hb, hconn⟩
  · intro b _ a ha a' ha'
    exact hsep a ha.1 a' ha'.1 (ha.2.symm.trans ha'.2)

/-- The number of areas is determined by the set of fields. -/
theorem AreaCountOf.unique {S T : Finset (Nat × Nat)} {n m : Nat} (h : AreaCountOf S T n)
    (h' : AreaCountOf S T m) : n = m :=
  Nat.le_antisymm (h.le h') (h'.le h)

/-- When the labels tell the areas apart, the areas that meet `T` are as many
as the labels on `T`. -/
theorem LabelsAreas.area_count_of {S : Finset (Nat × Nat)} {l : Nat × Nat → Nat}
    (h : LabelsAreas S l) (T : Finset (Nat × Nat)) (hT : T ⊆ S) :
    AreaCountOf S T (T.image l).card := by
  induction T using Finset.induction_on with
  | empty =>
    exact ⟨∅, Finset.Subset.refl _, rfl, fun a ha => absurd ha (Finset.not_mem_empty a),
      fun u hu => absurd hu (Finset.not_mem_empty u)⟩
  | @insert a T ha ih =>
    obtain ⟨reps, hsub, hcard, hsep, hcov⟩ := ih (fun u hu => hT (Finset.mem_insert_of_mem hu))
    have haS : a ∈ S := hT (Finset.mem_insert_self a T)
    by_cases hl : l a ∈ T.image l
    · refine ⟨reps, fun u hu => Finset.mem_insert_of_mem (hsub hu), ?_, hsep, ?_⟩
      · rw [hcard, Finset.image_insert, Finset.insert_eq_of_mem hl]
      · intro u hu
        rcases Finset.mem_insert.1 hu with rfl | hu
        · obtain ⟨m, hm, hlm⟩ := Finset.mem_image.1 hl
          obtain ⟨r, hr, hconn⟩ := hcov m hm
          exact ⟨r, hr, hconn.trans
            ((h m (hT (Finset.mem_insert_of_mem hm)) u haS).1 hlm)⟩
        · exact hcov u hu
    · have hnot : a ∉ reps := fun h' => ha (hsub h')
      refine ⟨insert a reps, Finset.insert_subset_insert a hsub, ?_, ?_, ?_⟩
      · rw [Finset.card_insert_of_not_mem hnot, hcard, Finset.image_insert,
          Finset.card_insert_of_not_mem hl]
      · intro u hu v hv hconn
        have key : ∀ b ∈ reps, ¬ Conn S a b := by
          intro b hb hab
          apply hl
          rw [(h a haS b (hT (Finset.mem_insert_of_mem (hsub hb)))).2 hab]
          exact Finset.mem_image_of_mem l (hsub hb)
        rcases Finset.mem_insert.1 hu with hua | hur
        · rcases Finset.mem_insert.1 hv with hva | hvr
          · rw [hua, hva]
          · rw [hua] at hconn
            exact absurd hconn (key v hvr)
        · rcases Finset.mem_insert.1 hv with hva | hvr
          · rw [hva] at hconn
            exact absurd hconn.symm (key u hur)
          · exact hsep u hur v hvr hconn
      · intro u hu
        rcases Finset.mem_insert.1 hu with rfl | hu
        · exact ⟨u, Finset.mem_insert_self u reps, Conn.rfl' _ _⟩
        · obtain ⟨r, hr, hconn⟩ := hcov u hu
          exact ⟨r, Finset.mem_insert_of_mem hr, hconn⟩

theorem LabelsAreas.area_count {S : Finset (Nat × Nat)} {l : Nat × Nat → Nat}
    (h : LabelsAreas S l) : AreaCount S (S.image l).card :=
  h.area_count_of S (Finset.Subset.refl S)

/-- C1: in every state reachable from `gamma_new` through `gamma_move`,
`gamma_golden_move`, `gamma_golden_possible`, `gamma_free_fields` and
`gamma_busy_fields` with arbitrary arguments, the label counter not wrapping,
the stored `area_count[p]` of every player `p` in `1..players` is the number of
maximal 4-connected components of the set of fields owned by `p`. -/
theorem area_count_is_number_of_areas (g : gamma_t) (h : ReachableNW g) (p : Nat)
    (hp1 : 1 ≤ p) (hp2 : p ≤ g.player_count) :
    AreaCount (owned_by g p) (g.area_count p) := by
  obtain ⟨hLA, hcnt, -⟩ := h.sound.players p hp1 hp2
  rw [hcnt]
  exact hLA.area_count

theorem card_nbrs_le (S : Finset (Nat × Nat)) (c : Nat × Nat) : (nbrs S c).card ≤ 4 := by
  have hsub : nbrs S c ⊆
      {(c.1 + 1, c.2), (c.1 - 1, c.2), (c.1, c.2 + 1), (c.1, c.2 - 1)} := by
    intro n hn
    have hadj := ((mem_nbrs S c n).1 hn).2
    obtain ⟨a, b⟩ := n
    unfold adj at hadj
    simp only [Finset.mem_insert, Finset.mem_singleton, Prod.mk.injEq]
    simp only at hadj
    omega
  exact le_trans (Finset.card_le_card hsub) Finset.card_le_four

theorem card_image_nbrs_le_four (S : Finset (Nat × Nat)) (c : Nat × Nat)
    (l : Nat × Nat → Nat) : ((nbrs S c).image l).card ≤ 4 :=
  le_trans Finset.card_image_le (card_nbrs_le S c)

/-- Having a field of `p` next to (x, y), in terms of the grid. -/
theorem nbrs_nonempty_iff (g : gamma_t) (p : Nat) (c : Nat × Nat) :
    nbrs (owned_by g p) c ≠ ∅ ↔ ∃ n ∈ cells g, adj c n ∧ g.owner n.2 n.1 = p := by
  rw [← Finset.nonempty_iff_ne_empty]
  constructor
  · rintro ⟨n, hn⟩
    obtain ⟨h1, h2⟩ := (mem_nbrs _ _ n).1 hn
    obtain ⟨h3, h4⟩ := (mem_owned_by g p n).1 h1
    exact ⟨n, h3, h2, h4⟩
  · rintro ⟨n, h3, h2, h4⟩
    exact ⟨n, (mem_nbrs _ _ n).2 ⟨(mem_owned_by g p n).2 ⟨h3, h4⟩, h2⟩⟩

/-- In a sound state `bordering_area_id` is nonzero exactly when a field of
the player is next to (x, y). -/
theorem bordering_ne_zero_iff (g : gamma_t) (hs : Sound g) (player x y : Nat)
    (hp : player_correct g player = true) (hx : x < g.width) (hy : y < g.height) :
    bordering_area_id g player x y ≠ 0 ↔
      ∃ n ∈ cells g, adj (x, y) n ∧ g.owner n.2 n.1 = player := by
  obtain ⟨hp1, -⟩ := (player_correct_iff g player).1 hp
  obtain ⟨b1, b2⟩ := bordering_area_id_spec g player x y hp hs.counted.width_lt
    hs.counted.height_lt hx hy
  rw [← nbrs_nonempty_iff]
  constructor
  · intro h hempty
    exact h (b1 hempty)
  · intro h hzero
    obtain ⟨m, hm, hlm⟩ := Finset.mem_image.1 (b2 h)
    obtain ⟨h3, h4⟩ := (mem_owned_by g player m).1 ((mem_nbrs _ _ m).1 hm).1
    have := (hs.labelled.owned m h3 (by omega)).1
    omega

/-- C2, amended: in every state reachable without wrapping the label counter
every player `p` in `1..players` holds at most `areas_limit` areas, so the
branch `area_count > areas_limit` of `gamma_free_fields` is not taken. -/
theorem area_count_le_limit (g : gamma_t) (h : ReachableNW g) (p : Nat)
    (hp1 : 1 ≤ p) (hp2 : p ≤ g.player_count) :
    g.area_count p ≤ g.areas_limit ∧ ¬ (g.area_count p > g.areas_limit) := by
  have := (h.sound.players p hp1 hp2).2.2
  exact ⟨this, by omega⟩

/-- C5, amended: in every state reachable without wrapping the label counter
`gamma_move` returns true exactly when the player is valid, the field is on
the board and unowned, and a 4-neighbour of the field is owned by the player
or the player has fewer areas than the limit. -/
theorem gamma_move_true_iff (g : gamma_t) (h : ReachableNW g) (p x y : Nat) :
    (gamma_move g p x y).2 = true ↔
      (1 ≤ p ∧ p ≤ g.player_count) ∧ x < g.width ∧ y < g.height ∧ g.owner y x = 0 ∧
      ((∃ n ∈ cells g, adj (x, y) n ∧ g.owner n.2 n.1 = p) ∨
        g.area_count p < g.areas_limit) := by
  have hs := h.sound
  rw [gamma_move_eq]
  constructor
  · intro hret
    by_cases hok : move_ok g p x y
    · obtain ⟨hp, hx, hy, hfree, hroom⟩ := hok
      refine ⟨(player_correct_iff g p).1 hp, hx, hy, hfree, ?_⟩
      by_cases hb : bordering_area_id g p x y = 0
      · right
        by_contra hcon
        exact hroom ⟨hb, by omega⟩
      · left
        exact (bordering_ne_zero_iff g hs p x y hp hx hy).1 hb
    · rw [if_neg hok] at hret
      exact absurd hret (by simp)
  · rintro ⟨hp, hx, hy, hfree, hor⟩
    have hp' := (player_correct_iff g p).2 hp
    have hok : move_ok g p x y := by
      refine ⟨hp', hx, hy, hfree, ?_⟩
      rintro ⟨hb, hge⟩
      rcases hor with hn | hlt
      · exact (bordering_ne_zero_iff g hs p x y hp' hx hy).2 hn hb
      · omega
    rw [if_pos hok]

theorem check_iff (g : gamma_t) (player x y : Nat) :
    check_golden_move_parameters g player x y = true ↔
      player_correct g player = true ∧ x < g.width ∧ y < g.height ∧
      g.made_golden_move player = false ∧ g.owner y x ≠ player ∧ g.owner y x ≠ NOBODY ∧
      ¬ (bordering_area_id g player x y = 0 ∧ g.area_count player ≥ g.areas_limit) := by
  constructor
  · exact check_true g player x y
  · rintro ⟨h1, h2, h3, h4, h5, h6, h7⟩
    unfold check_golden_move_parameters
    rw [if_neg (by rw [h1]; simp), if_neg (by omega), if_neg (by rw [h4]; simp),
      if_neg (by tauto), if_neg h7]

/-- From a call of `gamma_golden_move` that did not wrap the label counter:
the four labels of the tentative seizure were drawn without wrapping. -/
theorem golden_move_room (g : gamma_t) (player x y : Nat) (hs : Sound g)
    (hc : check_golden_move_parameters g player x y = true)
    (hnw : g.next_id ≤ (gamma_golden_move g player x y).1.next_id) :
    g.next_id + 4 < UINT32_SIZE := by
  rw [gamma_golden_move_eq g player x y hc] at hnw
  by_cases hok : split_ok g player x y = true
  · rw [if_pos hok] at hnw
    obtain ⟨a, e⟩ := committed_shape g player x y
    have h : g.next_id ≤ add32 g.next_id 5 := by
      have : (committed g player x y).next_id = add32 (add32 g.next_id 4) 1 := by rw [e]
      rw [← add32_add32, ← this]
      exact hnw
    have := add32_no_wrap _ 5 hs.labelled.next_lt (by omega) (by omega) h
    omega
  · rw [if_neg hok] at hnw
    have h : g.next_id ≤ add32 g.next_id 4 := by
      have := reverted_next_id g player x y
      rw [← this]
      exact hnw
    exact add32_no_wrap _ 4 hs.labelled.next_lt (by omega) (by omega) h

/-- C3, amended: in every state reachable without wrapping the label counter,
a call of `gamma_golden_move` that does not wrap the counter returns true
exactly when the player is valid, the field is on the board, the player has
made no golden move, the field is owned by another player `q`, a 4-neighbour
of the field is owned by the player or the player has fewer areas than the
limit, and `area_count[q] + f - 1 <= areas_limit`, `f` being the number of
areas of the other fields of `q` that contain a 4-neighbour of the field. -/
theorem gamma_golden_move_true_iff (g : gamma_t) (h : ReachableNW g) (p x y : Nat)
    (hnw : g.next_id ≤ (gamma_golden_move g p x y).1.next_id) :
    (gamma_golden_move g p x y).2 = true ↔
      (1 ≤ p ∧ p ≤ g.player_count) ∧ x < g.width ∧ y < g.height ∧
      g.made_golden_move p = false ∧ g.owner y x ≠ p ∧ g.owner y x ≠ 0 ∧
      ((∃ n ∈ cells g, adj (x, y) n ∧ g.owner n.2 n.1 = p) ∨
        g.area_count p < g.areas_limit) ∧
      ∃ f, AreaCountOf ((owned_by g (g.owner y x)).erase (x, y))
          (nbrs ((owned_by g (g.owner y x)).erase (x, y)) (x, y)) f ∧
        g.area_count (g.owner y x) + f ≤ g.areas_limit + 1 := by
  have hs := h.sound
  have hborder : ∀ (hp : player_correct g p = true) (hx : x < g.width) (hy : y < g.height),
      ¬ (bordering_area_id g p x y = 0 ∧ g.area_count p ≥ g.areas_limit) ↔
      ((∃ n ∈ cells g, adj (x, y) n ∧ g.owner n.2 n.1 = p) ∨
        g.area_count p < g.areas_limit) := by
    intro hp hx hy
    rw [← bordering_ne_zero_iff g hs p x y hp hx hy]
    constructor
    · intro hnot
      by_cases hb : bordering_area_id g p x y = 0
      · right
        by_contra hcon
        exact hnot ⟨hb, by omega⟩
      · exact Or.inl hb
    · rintro (hb | hlt) ⟨h1, h2⟩
      · exact hb h1
      · omega
  constructor
  · intro hret
    cases hc : check_golden_move_parameters g p x y
    · rw [gamma_golden_move_of_check_false g p x y hc] at hret
      exact absurd hret (by simp)
    have hn := golden_move_room g p x y hs hc hnw
    rw [gamma_golden_move_eq g p x y hc] at hret
    by_cases hok : split_ok g p x y = true
    swap
    · rw [if_neg hok] at hret
      exact absurd hret (by simp)
    have sf := tentative_facts g p x y hs hc (by omega)
    obtain ⟨hqpos, hqlt, hqok⟩ := split_ok_iff g p x y hs hc hn
    obtain ⟨hp, hx, hy, hmade, hne, hnobody, hroom⟩ := check_true g p x y hc
    refine ⟨(player_correct_iff g p).1 hp, hx, hy, hmade, hne, hnobody,
      (hborder hp hx hy).1 hroom, _, sf.areas.area_count_of _ (Finset.filter_subset _ _), ?_⟩
    have := hqok.1 hok
    rw [← sf.split_count_eq]
    omega
  · rintro ⟨hp, hx, hy, hmade, hne, hnobody, hnear, f, hf, hbound⟩
    have hp' := (player_correct_iff g p).2 hp
    have hc : check_golden_move_parameters g p x y = true :=
      (check_iff g p x y).2 ⟨hp', hx, hy, hmade, hne, hnobody, (hborder hp' hx hy).2 hnear⟩
    have hn := golden_move_room g p x y hs hc hnw
    have sf := tentative_facts g p x y hs hc (by omega)
    obtain ⟨hqpos, hqlt, hqok⟩ := split_ok_iff g p x y hs hc hn
    have hf' := sf.areas.area_count_of _ (Finset.filter_subset (fun n => adj (x, y) n) _)
    have hfeq : f = split_count g p x y := by
      rw [sf.split_count_eq]
      exact hf.unique hf'
    have hok : split_ok g p x y = true := by
      apply hqok.2
      rw [← hfeq]
      omega
    rw [gamma_golden_move_eq g p x y hc, if_pos hok]

/-! ## Probing a lone field: how the label counter is used up -/

/-- The field `n` is off the board or not a field of `q`. -/
def not_of (g : gamma_t) (q : Nat) (n : Nat × Nat) : Prop :=
  n.1 ≥ g.width ∨ n.2 ≥ g.height ∨ g.owner n.2 n.1 ≠ q

instance (g : gamma_t) (q : Nat) (n : Nat × Nat) : Decidable (not_of g q n) :=
  inferInstanceAs (Decidable (n.1 ≥ g.width ∨ n.2 ≥ g.height ∨ g.owner n.2 n.1 ≠ q))

theorem merge_areas_fuel_noop (fuel : Nat) (g : gamma_t) (q x y : Nat) (ids : List Nat)
    (length : Nat) (h : not_of g q (x, y)) :
    merge_areas_fuel (fuel + 1) g q x y ids length = some g := by
  rw [merge_areas_fuel]
  by_cases h1 : player_correct g q = false ∨ x ≥ g.width ∨ y ≥ g.height ∨ length < 1
  · rw [if_pos h1]
  rw [if_neg h1]
  have ho : g.owner y x ≠ q := by
    rcases h with h | h | h
    · exact absurd (Or.inr (Or.inl h)) h1
    · exact absurd (Or.inr (Or.inr (Or.inl h))) h1
    · exact h
  rw [if_pos ho]

theorem merge_areas_noop (g : gamma_t) (q x y : Nat) (ids : List Nat) (length : Nat)
    (h : not_of g q (x, y)) : merge_areas g q x y ids length = g := by
  unfold merge_areas
  rw [merge_areas_fuel_noop _ g q x y ids length h]
  rfl

/-- The flood from a field of `q` none of whose neighbours is a field of `q`
relabels that field alone. -/
theorem merge_areas_isolated (g : gamma_t) (q x y : Nat) (ids : List Nat)
    (hp : player_correct g q = true) (hx : x < g.width) (hy : y < g.height)
    (ho : g.owner y x = q) (hn : ∀ n ∈ flood_order x y, not_of g q n) :
    merge_areas g q x y ids 1 = with_area_id g (set2 g.area_id y x (ids.getD 0 0)) := by
  have h1 := hn (sub32 x 1, y) ((mem_flood_order x y _).2 (Or.inl rfl))
  have h2 := hn (add32 x 1, y) ((mem_flood_order x y _).2 (Or.inr (Or.inl rfl)))
  have h3 := hn (x, sub32 y 1) ((mem_flood_order x y _).2 (Or.inr (Or.inr (Or.inl rfl))))
  have h4 := hn (x, add32 y 1) ((mem_flood_order x y _).2 (Or.inr (Or.inr (Or.inr rfl))))
  have hpos : 1 ≤ g.width * g.height := Nat.mul_pos (by omega) (by omega)
  obtain ⟨f, hf⟩ : ∃ f, g.width * g.height + 1 = f + 1 + 1 := ⟨g.width * g.height - 1, by omega⟩
  unfold merge_areas
  rw [hf, merge_areas_fuel, if_neg (by rw [hp]; simp; omega), if_neg (by simpa using ho)]
  by_cases hskip : skip_id ids 1 (g.area_id y x) = true
  · rw [if_pos hskip]
    have hl := (skip_id_one ids (g.area_id y x)).1 hskip
    rw [← hl, set2_self]
    rfl
  · rw [if_neg hskip]
    dsimp only
    rw [merge_areas_fuel_noop f (with_area_id g (set2 g.area_id y x (ids.getD (1 - 1) 0)))
      q (sub32 x 1) y ids 1 h1]
    dsimp only
    rw [merge_areas_fuel_noop f (with_area_id g (set2 g.area_id y x (ids.getD (1 - 1) 0)))
      q (add32 x 1) y ids 1 h2]
    dsimp only
    rw [merge_areas_fuel_noop f (with_area_id g (set2 g.area_id y x (ids.getD (1 - 1) 0)))
      q x (sub32 y 1) ids 1 h3]
    dsimp only
    rw [merge_areas_fuel_noop f (with_area_id g (set2 g.area_id y x (ids.getD (1 - 1) 0)))
      q x (add32 y 1) ids 1 h4]
    rfl

/-- No field of `q` next to (x, y): `distinct_neighbour_count` is 0. -/
theorem distinct_neighbour_count_zero (g : gamma_t) (q x y : Nat)
    (hw : g.width < UINT32_SIZE) (hh : g.height < UINT32_SIZE) (hx : x < g.width)
    (hy : y < g.height) (hn : ∀ n ∈ flood_order x y, not_of g q n) :
    distinct_neighbour_count g q x y = 0 := by
  have h1 := hn (sub32 x 1, y) ((mem_flood_order x y _).2 (Or.inl rfl))
  have h2 := hn (add32 x 1, y) ((mem_flood_order x y _).2 (Or.inr (Or.inl rfl)))
  have h3 := hn (x, sub32 y 1) ((mem_flood_order x y _).2 (Or.inr (Or.inr (Or.inl rfl))))
  have h4 := hn (x, add32 y 1) ((mem_flood_order x y _).2 (Or.inr (Or.inr (Or.inr rfl))))
  have e1 : sub32 g.width 1 = g.width - 1 := sub32_one _ (by omega) hw
  have e2 : sub32 g.height 1 = g.height - 1 := sub32_one _ (by omega) hh
  have c1 : ¬ (x > 0 ∧ g.owner y (x - 1) = q) := by
    rintro ⟨hpos, ho⟩
    have e : sub32 x 1 = x - 1 := sub32_one x (by omega) (by omega)
    unfold not_of at h1
    rw [e] at h1
    rcases h1 with h | h | h
    · exact absurd h (by show ¬ (x - 1 ≥ g.width); omega)
    · exact absurd h (by show ¬ (y ≥ g.height); omega)
    · exact h ho
  have c2 : ¬ (x < sub32 g.width 1 ∧ g.owner y (x + 1) = q) := by
    rw [e1]
    rintro ⟨hlt, ho⟩
    have e : add32 x 1 = x + 1 := Nat.mod_eq_of_lt (by omega)
    unfold not_of at h2
    rw [e] at h2
    rcases h2 with h | h | h
    · exact absurd h (by show ¬ (x + 1 ≥ g.width); omega)
    · exact absurd h (by show ¬ (y ≥ g.height); omega)
    · exact h ho
  have c3 : ¬ (y > 0 ∧ g.owner (y - 1) x = q) := by
    rintro ⟨hpos, ho⟩
    have e : sub32 y 1 = y - 1 := sub32_one y (by omega) (by omega)
    unfold not_of at h3
    rw [e] at h3
    rcases h3 with h | h | h
    · exact absurd h (by show ¬ (x ≥ g.width); omega)
    · exact absurd h (by show ¬ (y - 1 ≥ g.height); omega)
    · exact h ho
  have c4 : ¬ (y < sub32 g.height 1 ∧ g.owner (y + 1) x = q) := by
    rw [e2]
    rintro ⟨hlt, ho⟩
    have e : add32 y 1 = y + 1 := Nat.mod_eq_of_lt (by omega)
    unfold not_of at h4
    rw [e] at h4
    rcases h4 with h | h | h
    · exact absurd h (by show ¬ (x ≥ g.width); omega)
    · exact absurd h (by show ¬ (y + 1 ≥ g.height); omega)
    · exact h ho
  unfold distinct_neighbour_count
  split
  · rfl
  · simp only [distinct_neighbour_ids, c1, c2, c3, c4, if_false, List.length_nil]

/-- The field (x, y) is the only field of its owner around, and `p` may seize
it: the facts under which a probe of (x, y) by `p` succeeds and touches
nothing but the label of (x, y) and the label counter.  None of the facts
involves a label or the counter. -/
structure LoneField (g : gamma_t) (p x y : Nat) : Prop where
  width_lt : g.width < UINT32_SIZE
  height_lt : g.height < UINT32_SIZE
  player : player_correct g p = true
  hx : x < g.width
  hy : y < g.height
  made : g.made_golden_move p = false
  other : g.owner y x ≠ p
  owned : player_correct g (g.owner y x) = true
  room : g.area_count p < g.areas_limit
  alone : ∀ n ∈ flood_order x y, not_of g (g.owner y x) n
  fits : sub32 (add32 (g.area_count (g.owner y x)) 0) 1 ≤ g.areas_limit

theorem LoneField.check {g : gamma_t} {p x y : Nat} (h : LoneField g p x y) :
    check_golden_move_parameters g p x y = true := by
  rw [check_iff]
  refine ⟨h.player, h.hx, h.hy, h.made, h.other, ?_, ?_⟩
  · have := ((player_correct_iff g _).1 h.owned).1
    unfold NOBODY
    omega
  · rintro ⟨-, hge⟩
    have := h.room
    omega

theorem LoneField.tentative_seized {g : gamma_t} {p x y : Nat} (h : LoneField g p x y) :
    tentative g p x y = seized g p x y := by
  have hn : ∀ n ∈ flood_order x y, not_of (seized g p x y) (g.owner y x) n := by
    intro n hn
    rcases h.alone n hn with h1 | h1 | h1
    · exact Or.inl h1
    · exact Or.inr (Or.inl h1)
    · right; right
      show set2 g.owner y x p n.2 n.1 ≠ g.owner y x
      unfold set2
      split
      · exact fun h' => h.other h'.symm
      · exact h1
  have h1 := hn (sub32 x 1, y) ((mem_flood_order x y _).2 (Or.inl rfl))
  have h2 := hn (add32 x 1, y) ((mem_flood_order x y _).2 (Or.inr (Or.inl rfl)))
  have h3 := hn (x, sub32 y 1) ((mem_flood_order x y _).2 (Or.inr (Or.inr (Or.inl rfl))))
  have h4 := hn (x, add32 y 1) ((mem_flood_order x y _).2 (Or.inr (Or.inr (Or.inr rfl))))
  rw [tentative_eq, merge_areas_noop _ _ _ _ _ _ h1, merge_areas_noop _ _ _ _ _ _ h2,
    merge_areas_noop _ _ _ _ _ _ h3, merge_areas_noop _ _ _ _ _ _ h4]

/-- A probe of a lone field returns true and changes only the label of the
field, to the current counter value, and the counter, by four. -/
theorem LoneField.probe {g : gamma_t} {p x y : Nat} (h : LoneField g p x y) :
    golden_move_possible g p x y true =
      ({ g with area_id := set2 g.area_id y x g.next_id, next_id := add32 g.next_id 4 },
        true) := by
  have htent := h.tentative_seized
  have hret : returned g p x y = { g with next_id := add32 g.next_id 4 } := by
    unfold returned
    rw [htent]
    have ho : set2 (set2 g.owner y x p) y x (g.owner y x) = g.owner := by
      rw [set2_set2, set2_self]
    show ({ g with owner := set2 (set2 g.owner y x p) y x (g.owner y x),
                   next_id := add32 g.next_id 4 } : gamma_t) = _
    rw [ho]
  have hrev : reverted g p x y =
      { g with area_id := set2 g.area_id y x g.next_id, next_id := add32 g.next_id 4 } := by
    rw [reverted_eq, hret]
    exact merge_areas_isolated { g with next_id := add32 g.next_id 4 } (g.owner y x) x y
      (fresh_ids g) h.owned h.hx h.hy rfl h.alone
  have hdn : distinct_neighbour_count (tentative g p x y) (g.owner y x) x y = 0 := by
    rw [htent]
    apply distinct_neighbour_count_zero (seized g p x y) (g.owner y x) x y h.width_lt
      h.height_lt h.hx h.hy
    intro n hn
    rcases h.alone n hn with h1 | h1 | h1
    · exact Or.inl h1
    · exact Or.inr (Or.inl h1)
    · right; right
      show set2 g.owner y x p n.2 n.1 ≠ g.owner y x
      unfold set2
      split
      · exact fun h' => h.other h'.symm
      · exact h1
  have hok : split_ok g p x y = true := by
    unfold split_ok
    rw [hdn, decide_eq_true_iff]
    exact h.fits
  rw [golden_move_possible_eq g p x y true h.check, if_pos (Or.inl rfl), hrev, hok]

theorem board_fields_head (g : gamma_t) (hw : 0 < g.width) (hh : 0 < g.height) :
    ∃ rest, board_fields g = (0, 0) :: rest := by
  obtain ⟨w, hw'⟩ : ∃ w, g.width = w + 1 := ⟨g.width - 1, by omega⟩
  obtain ⟨h, hh'⟩ : ∃ h, g.height = h + 1 := ⟨g.height - 1, by omega⟩
  unfold board_fields
  rw [hw', hh', List.range_succ_eq_map h, List.flatMap_cons, List.range_succ_eq_map w,
    List.map_cons, List.cons_append]
  exact ⟨_, rfl⟩

/-- The probe `gamma_golden_possible` of a player for whom the first field of
the board is a lone field of somebody else. -/
theorem LoneField.golden_possible {g : gamma_t} {p : Nat} (h : LoneField g p 0 0) :
    gamma_golden_possible g p =
      ({ g with area_id := set2 g.area_id 0 0 g.next_id, next_id := add32 g.next_id 4 },
        true) := by
  obtain ⟨rest, hrest⟩ := board_fields_head g h.hx h.hy
  unfold gamma_golden_possible
  rw [if_neg (by rw [h.player]; simp), if_neg (by rw [h.made]; simp), hrest]
  unfold golden_possible_loop
  dsimp only
  rw [h.probe]
  rfl

/-- The state `g` with the label of the first field and the label counter
replaced. -/
def burnt (g : gamma_t) (l n : Nat) : gamma_t :=
  { g with area_id := set2 g.area_id 0 0 l, next_id := n }

theorem LoneField.after_burn {g : gamma_t} {p : Nat} (h : LoneField g p 0 0) (l n : Nat) :
    LoneField (burnt g l n) p 0 0 :=
  ⟨h.width_lt, h.height_lt, h.player, h.hx, h.hy, h.made, h.other, h.owned, h.room, h.alone,
    h.fits⟩

theorem burn_step {g : gamma_t} {p : Nat} (h : LoneField g p 0 0) (l n : Nat) :
    Call.run (burnt g l n) (Call.golden_possible p) = burnt g n (add32 n 4) := by
  show (gamma_golden_possible (burnt g l n) p).1 = _
  rw [(h.after_burn l n).golden_possible]
  show ({ g with area_id := set2 (set2 g.area_id 0 0 l) 0 0 n, next_id := add32 n 4 } :
    gamma_t) = { g with area_id := set2 g.area_id 0 0 n, next_id := add32 n 4 }
  rw [set2_set2]

/-- Many probes in a row: each uses up four labels; the counter wraps. -/
theorem burn_many {g : gamma_t} {p : Nat} (h : LoneField g p 0 0) : ∀ (k l n : Nat),
    n < UINT32_SIZE →
    run_calls (burnt g l n) (List.replicate (k + 1) (Call.golden_possible p)) =
      burnt g ((n + 4 * k) % UINT32_SIZE) ((n + 4 * (k + 1)) % UINT32_SIZE) := by
  intro k
  induction k with
  | zero =>
    intro l n hn
    show Call.run (burnt g l n) (Call.golden_possible p) = _
    rw [burn_step h]
    have e1 : (n + 4 * 0) % UINT32_SIZE = n := by
      rw [Nat.mul_zero, Nat.add_zero]
      exact Nat.mod_eq_of_lt hn
    rw [e1]
    rfl
  | succ k ih =>
    intro l n hn
    show run_calls (Call.run (burnt g l n) (Call.golden_possible p))
      (List.replicate (k + 1) (Call.golden_possible p)) = _
    rw [burn_step h, ih n (add32 n 4) (Nat.mod_lt _ (by unfold UINT32_SIZE; omega))]
    have e1 : (add32 n 4 + 4 * k) % UINT32_SIZE = (n + 4 * (k + 1)) % UINT32_SIZE := by
      unfold add32 UINT32_SIZE
      omega
    have e2 : (add32 n 4 + 4 * (k + 1)) % UINT32_SIZE =
        (n + 4 * (k + 1 + 1)) % UINT32_SIZE := by
      unfold add32 UINT32_SIZE
      omega
    rw [e1, e2]

theorem burn_from {g : gamma_t} {p : Nat} (h : LoneField g p 0 0) (k : Nat)
    (hn : g.next_id < UINT32_SIZE) :
    run_calls g (List.replicate (k + 1) (Call.golden_possible p)) =
      burnt g ((g.next_id + 4 * k) % UINT32_SIZE) ((g.next_id + 4 * (k + 1)) % UINT32_SIZE) := by
  have e : g = burnt g (g.area_id 0 0) g.next_id := by
    unfold burnt
    rw [set2_self]
  have := burn_many h k (g.area_id 0 0) g.next_id hn
  rw [← e] at this
  exact this

theorem run_calls_append (g : gamma_t) (cs ds : List Call) :
    run_calls g (cs ++ ds) = run_calls (run_calls g cs) ds := by
  unfold run_calls
  rw [List.foldl_append]

/-! ## A long game in which the label counter wraps -/

/-- On a board of 4 by 2 fields with area limit 1: player 3 takes (0, 0), and
player 1 a T-shaped area around (2, 0). -/
def wrap_prefix : List Call :=
  [Call.move 3 0 0, Call.move 1 1 0, Call.move 1 2 0, Call.move 1 3 0, Call.move 1 2 1]

/-- The state after `wrap_prefix`: the area of player 1 has the label 2 and
the label counter is 6. -/
def wrap_base : gamma_t := run_calls (board 4 2 3 1) wrap_prefix

/-- After `wrap_prefix`, player 2 asks `gamma_golden_possible` 1073741823
times; every call probes the lone field (0, 0) of player 3 and draws four
labels, so the counter runs from 6 through 2^32 to 2. -/
def wrap_calls : List Call :=
  wrap_prefix ++ List.replicate 1073741823 (Call.golden_possible 2)

/-- The state after `wrap_calls`. -/
def wrapped : gamma_t := run_calls (board 4 2 3 1) wrap_calls

/-- After `wrap_calls`: player 2 seizes the middle (2, 0) of the T, player 3
probes, and player 1 takes (1, 1). -/
def wrap_more : List Call :=
  [Call.golden_move 2 2 0, Call.golden_possible 3, Call.move 1 1 1]

/-- The state after `wrap_calls` and `wrap_more`. -/
def wrapped_more : gamma_t := run_calls (board 4 2 3 1) (wrap_calls ++ wrap_more)

theorem wrap_base_lone : LoneField wrap_base 2 0 0 :=
  ⟨by decide, by decide, by decide, by decide, by decide, by decide, by decide, by decide,
    by decide, by decide, by decide⟩

theorem wrapped_eq : wrapped = burnt wrap_base 4294967294 2 := by
  unfold wrapped wrap_calls
  rw [run_calls_append]
  show run_calls wrap_base (List.replicate (1073741822 + 1) (Call.golden_possible 2)) = _
  rw [burn_from wrap_base_lone 1073741822 (by decide)]
  have e1 : (wrap_base.next_id + 4 * 1073741822) % UINT32_SIZE = 4294967294 := by decide
  have e2 : (wrap_base.next_id + 4 * (1073741822 + 1)) % UINT32_SIZE = 2 := by decide
  rw [e1, e2]

theorem wrapped_more_eq :
    wrapped_more = run_calls (burnt wrap_base 4294967294 2) wrap_more := by
  unfold wrapped_more
  rw [run_calls_append]
  show run_calls wrapped wrap_more = _
  rw [wrapped_eq]

theorem reachable_wrapped : Reachable wrapped :=
  (reachable_board 4 2 3 1 (by decide) (by decide) (by decide) (by decide)
    (by decide)).after_calls _

theorem reachable_wrapped_more : Reachable wrapped_more :=
  (reachable_board 4 2 3 1 (by decide) (by decide) (by decide) (by decide)
    (by decide)).after_calls _

/-- C2, refuted as stated: the state `wrapped_more` is reachable from
`gamma_new`, and after the move of player 1 to (3, 1), which joins two areas
while `area_count[1]` is 0, the counter of player 1 is 4294967295 and exceeds
the area limit 1. -/
theorem area_count_exceeds_limit_after_wrap :
    Reachable (Call.run wrapped_more (Call.move 1 3 1)) ∧
    1 ≤ (Call.run wrapped_more (Call.move 1 3 1)).player_count ∧
    (Call.run wrapped_more (Call.move 1 3 1)).area_count 1 = 4294967295 ∧
    (Call.run wrapped_more (Call.move 1 3 1)).area_count 1 >
      (Call.run wrapped_more (Call.move 1 3 1)).areas_limit := by
  refine ⟨Reachable.step _ _ reachable_wrapped_more, ?_⟩
  rw [wrapped_more_eq]
  decide

/-- In a set without two neighbouring fields every field is an area of its own. -/
theorem Conn.eq_of_scattered {S : Finset (Nat × Nat)}
    (hS : ∀ u ∈ S, ∀ v ∈ S, ¬ adj u v) {a b : Nat × Nat} (h : Conn S a b) : a = b := by
  induction h with
  | refl => rfl
  | @tail u v _ huv _ => exact absurd huv.2.2 (hS u huv.1 v huv.2.1)

theorem AreaCountOf.of_scattered (S T : Finset (Nat × Nat))
    (hS : ∀ u ∈ S, ∀ v ∈ S, ¬ adj u v) : AreaCountOf S T T.card :=
  ⟨T, Finset.Subset.refl T, rfl, fun _ _ _ _ h => h.eq_of_scattered hS,
    fun u hu => ⟨u, hu, Relation.ReflTransGen.refl⟩⟩

/-- The fields of player 1 other than (2, 0) in `wrapped`: the three arms of the T. -/
def wrapped_arms : Finset (Nat × Nat) := (owned_by wrapped 1).erase (2, 0)

theorem wrapped_arms_eq :
    wrapped_arms = (owned_by (burnt wrap_base 4294967294 2) 1).erase (2, 0) := by
  unfold wrapped_arms
  rw [wrapped_eq]

theorem wrapped_arms_count : AreaCountOf wrapped_arms (nbrs wrapped_arms (2, 0)) 3 := by
  have h := AreaCountOf.of_scattered wrapped_arms (nbrs wrapped_arms (2, 0))
    (by rw [wrapped_arms_eq]; decide)
  have hc : (nbrs wrapped_arms (2, 0)).card = 3 := by rw [wrapped_arms_eq]; decide
  rw [hc] at h
  exact h

/-- C3, refuted as stated: in the reachable state `wrapped` the field (2, 0)
belongs to player 1, whose other fields touching it form 3 areas, so with
`area_count[1] = 1` and area limit 1 the split condition
`area_count[1] + 3 - 1 <= areas_limit` fails; yet the golden move of
player 2 to (2, 0) returns true. -/
theorem gamma_golden_move_true_despite_split :
    Reachable wrapped ∧ (gamma_golden_move wrapped 2 2 0).2 = true ∧
    wrapped.owner 0 2 = 1 ∧
    AreaCountOf ((owned_by wrapped (wrapped.owner 0 2)).erase (2, 0))
      (nbrs ((owned_by wrapped (wrapped.owner 0 2)).erase (2, 0)) (2, 0)) 3 ∧
    ¬ (wrapped.area_count (wrapped.owner 0 2) + 3 - 1 ≤ wrapped.areas_limit) := by
  have ho : wrapped.owner 0 2 = 1 := by rw [wrapped_eq]; decide
  refine ⟨reachable_wrapped, ?_, ho, ?_, ?_⟩
  · rw [wrapped_eq]; decide
  · rw [ho]; exact wrapped_arms_count
  · rw [wrapped_eq]; decide

/-- On a row of 4 fields with area limit 1: player 1 takes (0, 0) and player 2
the fields (3, 0) and (2, 0). -/
def stale_prefix : List Call := [Call.move 1 0 0, Call.move 2 3 0, Call.move 2 2 0]

/-- The state after `stale_prefix`: the label counter is 4. -/
def stale_base : gamma_t := run_calls (board 4 1 3 1) stale_prefix

/-- After `stale_prefix`, player 3 asks `gamma_golden_possible` 1073741824
times; the last probe of (0, 0) leaves the label 0 there and the counter
comes back to 4. -/
def stale_calls : List Call :=
  stale_prefix ++ List.replicate 1073741824 (Call.golden_possible 3)

/-- The state after `stale_calls`. -/
def stale : gamma_t := run_calls (board 4 1 3 1) stale_calls

theorem stale_base_lone : LoneField stale_base 3 0 0 :=
  ⟨by decide, by decide, by decide, by decide, by decide, by decide, by decide, by decide,
    by decide, by decide, by decide⟩

theorem stale_eq : stale = burnt stale_base 0 4 := by
  unfold stale stale_calls
  rw [run_calls_append]
  show run_calls stale_base (List.replicate (1073741823 + 1) (Call.golden_possible 3)) = _
  rw [burn_from stale_base_lone 1073741823 (by decide)]
  have e1 : (stale_base.next_id + 4 * 1073741823) % UINT32_SIZE = 0 := by decide
  have e2 : (stale_base.next_id + 4 * (1073741823 + 1)) % UINT32_SIZE = 4 := by decide
  rw [e1, e2]

theorem reachable_stale : Reachable stale :=
  (reachable_board 4 1 3 1 (by decide) (by decide) (by decide) (by decide)
    (by decide)).after_calls _

/-- C5, refuted as stated: in the reachable state `stale` player 1 is a valid
player, the field (1, 0) is on the board and free, and its neighbour (0, 0)
belongs to player 1; yet `gamma_move` of player 1 to (1, 0) returns false. -/
theorem gamma_move_false_beside_own_field :
    Reachable stale ∧ (1 ≤ 1 ∧ 1 ≤ stale.player_count) ∧ 1 < stale.width ∧
    0 < stale.height ∧ stale.owner 0 1 = 0 ∧
    ((0, 0) ∈ cells stale ∧ adj (1, 0) (0, 0) ∧ stale.owner 0 0 = 1) ∧
    (gamma_move stale 1 1 0).2 = false := by
  refine ⟨reachable_stale, ?_⟩
  rw [stale_eq]
  decide

/-! ## Concrete games without a wrap of the label counter -/

/-- The label counter wraps in none of the calls of the list, made in turn. -/
def calls_no_wrap : gamma_t → List Call → Prop
  | _, [] => True
  | g, c :: cs => c.no_wrap g ∧ calls_no_wrap (c.run g) cs

theorem ReachableNW.after_calls_nw {g : gamma_t} (h : ReachableNW g) (cs : List Call)
    (hnw : calls_no_wrap g cs) : ReachableNW (run_calls g cs) := by
  induction cs generalizing g with
  | nil => exact h
  | cons c cs ih => exact ih (ReachableNW.step g c h hnw.1) hnw.2

theorem reachableNW_board (width height players areas : Nat) (hw : width < UINT32_SIZE)
    (hh : height < UINT32_SIZE) (hp : players + 1 < UINT32_SIZE) (ha : areas < UINT32_SIZE)
    (h1 : ¬ (width < 1 ∨ height < 1 ∨ players < 1 ∨ areas < 1)) :
    ReachableNW (board width height players areas) := by
  apply ReachableNW.new width height players areas _ hw hh (by omega) ha
  unfold board gamma_new
  rw [if_neg h1, if_neg (add32_one_ne_zero players hp)]
  rfl

theorem reachableNW_row3_full : ReachableNW row3_full := by
  refine (reachableNW_board 3 1 2 1 (by decide) (by decide) (by decide) (by decide)
    (by decide)).after_calls_nw _ ⟨?_, ?_, ?_, trivial⟩
  · show _ ≤ _; decide
  · show _ ≤ _; decide
  · show _ ≤ _; decide

theorem reachableNW_row3_full_limit2 : ReachableNW row3_full_limit2 := by
  refine (reachableNW_board 3 1 2 2 (by decide) (by decide) (by decide) (by decide)
    (by decide)).after_calls_nw _ ⟨?_, ?_, ?_, trivial⟩
  · show _ ≤ _; decide
  · show _ ≤ _; decide
  · show _ ≤ _; decide

/-- C1 at a concrete state: the full row of three fields of player 1 is one area. -/
theorem area_count_is_number_of_areas_witness :
    ReachableNW row3_full ∧ 1 ≤ 1 ∧ 1 ≤ row3_full.player_count ∧
    AreaCount (owned_by row3_full 1) (row3_full.area_count 1) :=
  ⟨reachableNW_row3_full, by decide, by decide,
    area_count_is_number_of_areas row3_full reachableNW_row3_full 1 (by decide) (by decide)⟩

/-- C2, amended, at a concrete state: player 2 on the full row with area limit 2. -/
theorem area_count_le_limit_witness :
    ReachableNW row3_full_limit2 ∧ 1 ≤ 2 ∧ 2 ≤ row3_full_limit2.player_count ∧
    row3_full_limit2.area_count 2 ≤ row3_full_limit2.areas_limit ∧
    ¬ (row3_full_limit2.area_count 2 > row3_full_limit2.areas_limit) :=
  ⟨reachableNW_row3_full_limit2, by decide, by decide,
    area_count_le_limit row3_full_limit2 reachableNW_row3_full_limit2 2 (by decide)
      (by decide)⟩

/-- C5, amended, at a concrete input: player 2 asks for the taken field (1, 0)
of the full row. -/
theorem gamma_move_true_iff_witness :
    ReachableNW row3_full ∧
    ((gamma_move row3_full 2 1 0).2 = true ↔
      (1 ≤ 2 ∧ 2 ≤ row3_full.player_count) ∧ 1 < row3_full.width ∧ 0 < row3_full.height ∧
      row3_full.owner 0 1 = 0 ∧
      ((∃ n ∈ cells row3_full, adj (1, 0) n ∧ row3_full.owner n.2 n.1 = 2) ∨
        row3_full.area_count 2 < row3_full.areas_limit)) :=
  ⟨reachableNW_row3_full, gamma_move_true_iff row3_full reachableNW_row3_full 2 1 0⟩

/-- A row of three fields with the two left fields taken by player 1 (limit 2). -/
def row3_two : gamma_t :=
  run_calls (board 3 1 2 2) [Call.move 1 0 0, Call.move 1 1 0]

theorem reachableNW_row3_two : ReachableNW row3_two := by
  refine (reachableNW_board 3 1 2 2 (by decide) (by decide) (by decide) (by decide)
    (by decide)).after_calls_nw _ ⟨?_, ?_, trivial⟩
  · show _ ≤ _; decide
  · show _ ≤ _; decide

/-- C3, amended, at a concrete input: the golden move of player 2 onto the
field (0, 0) of the row of two fields of player 1. -/
theorem gamma_golden_move_true_iff_witness :
    ReachableNW row3_two ∧
    row3_two.next_id ≤ (gamma_golden_move row3_two 2 0 0).1.next_id ∧
    ((gamma_golden_move row3_two 2 0 0).2 = true ↔
      (1 ≤ 2 ∧ 2 ≤ row3_two.player_count) ∧ 0 < row3_two.width ∧ 0 < row3_two.height ∧
      row3_two.made_golden_move 2 = false ∧ row3_two.owner 0 0 ≠ 2 ∧ row3_two.owner 0 0 ≠ 0 ∧
      ((∃ n ∈ cells row3_two, adj (0, 0) n ∧ row3_two.owner n.2 n.1 = 2) ∨
        row3_two.area_count 2 < row3_two.areas_limit) ∧
      ∃ f, AreaCountOf ((owned_by row3_two (row3_two.owner 0 0)).erase (0, 0))
          (nbrs ((owned_by row3_two (row3_two.owner 0 0)).erase (0, 0)) (0, 0)) f ∧
        row3_two.area_count (row3_two.owner 0 0) + f ≤ row3_two.areas_limit + 1) :=
  ⟨reachableNW_row3_two, by decide,
    gamma_golden_move_true_iff row3_two reachableNW_row3_two 2 0 0 (by decide)⟩

/-! ## The counting queries and the rejected arguments -/

/-- C11: in every reachable state and for every valid player `p`,
`gamma_busy_fields(g, p)` is the number of fields of the board whose owner is
`p`, and `free_count` is the number of fields without an owner. -/
theorem gamma_busy_fields_counts (g : gamma_t) (h : Reachable g) (p : Nat)
    (hp1 : 1 ≤ p) (hp2 : p ≤ g.player_count) :
    gamma_busy_fields g p = ((cells g).filter (fun c => g.owner c.2 c.1 = p)).card ∧
    g.free_count = ((cells g).filter (fun c => g.owner c.2 c.1 = 0)).card := by
  have hc := h.counted
  have hp : player_correct g p = true := (player_correct_iff g p).2 ⟨hp1, hp2⟩
  refine ⟨?_, hc.free⟩
  unfold gamma_busy_fields
  rw [if_neg (by rw [hp]; simp)]
  exact hc.occupied p hp1 hp2

/-- C11 at a concrete state: player 1 on the full row of three fields. -/
theorem gamma_busy_fields_counts_witness :
    Reachable row3_full ∧ 1 ≤ 1 ∧ 1 ≤ row3_full.player_count ∧
    gamma_busy_fields row3_full 1 =
      ((cells row3_full).filter (fun c => row3_full.owner c.2 c.1 = 1)).card ∧
    row3_full.free_count =
      ((cells row3_full).filter (fun c => row3_full.owner c.2 c.1 = 0)).card :=
  ⟨(reachable_board 3 1 2 1 (by decide) (by decide) (by decide) (by decide)
      (by decide)).after_calls _, by decide, by decide,
    gamma_busy_fields_counts row3_full
      ((reachable_board 3 1 2 1 (by decide) (by decide) (by decide) (by decide)
        (by decide)).after_calls _) 1 (by decide) (by decide)⟩

/-- C13: a call of `gamma_golden_possible`, whatever it returns, leaves the
owner of every field, every player's `area_count` and `occupied_count`,
`free_count` and every `made_golden_move` flag as they were. -/
theorem gamma_golden_possible_commits_nothing (g : gamma_t) (p : Nat) :
    (gamma_golden_possible g p).1.owner = g.owner ∧
    (gamma_golden_possible g p).1.area_count = g.area_count ∧
    (gamma_golden_possible g p).1.occupied_count = g.occupied_count ∧
    (gamma_golden_possible g p).1.free_count = g.free_count ∧
    (gamma_golden_possible g p).1.made_golden_move = g.made_golden_move := by
  obtain ⟨hs, ho⟩ := gamma_golden_possible_frame g p
  exact ⟨ho, hs.2.2.2.2.1, hs.2.2.2.2.2.2.1, hs.2.2.2.2.2.2.2.1, hs.2.2.2.2.2.1⟩

theorem player_correct_false (g : gamma_t) (p : Nat) (h : p = 0 ∨ p > g.player_count) :
    player_correct g p = false := by
  unfold player_correct NOBODY
  rw [if_pos h]

theorem check_false_of_off_board (g : gamma_t) (p x y : Nat) (h : x ≥ g.width ∨ y ≥ g.height) :
    check_golden_move_parameters g p x y = false := by
  unfold check_golden_move_parameters
  by_cases hp : player_correct g p = false
  · rw [if_pos hp]
  · rw [if_neg hp, if_pos h]

/-- C15: with a player id that is 0 or above `players`, `gamma_move` and
`gamma_golden_move` return false, `gamma_busy_fields` and `gamma_free_fields`
return 0 and `gamma_golden_possible` returns false; with `x >= width` or
`y >= height`, `gamma_move` and `gamma_golden_move` return false; the state is
the same after each of these calls. -/
theorem invalid_arguments_rejected (g : gamma_t) (p x y : Nat) :
    ((p = 0 ∨ p > g.player_count) →
      gamma_move g p x y = (g, false) ∧ gamma_golden_move g p x y = (g, false) ∧
      gamma_busy_fields g p = 0 ∧ gamma_free_fields g p = 0 ∧
      gamma_golden_possible g p = (g, false)) ∧
    ((x ≥ g.width ∨ y ≥ g.height) →
      gamma_move g p x y = (g, false) ∧ gamma_golden_move g p x y = (g, false)) := by
  constructor
  · intro h
    have hp := player_correct_false g p h
    have hc : check_golden_move_parameters g p x y = false := by
      unfold check_golden_move_parameters
      rw [if_pos hp]
    refine ⟨?_, ?_, ?_, ?_, ?_⟩
    · unfold gamma_move
      rw [if_pos hp]
    · unfold gamma_golden_move
      rw [if_pos hc]
    · unfold gamma_busy_fields
      rw [if_pos hp]
    · unfold gamma_free_fields
      rw [if_pos hp]
    · unfold gamma_golden_possible
      rw [if_pos hp]
  · intro h
    refine ⟨?_, ?_⟩
    · unfold gamma_move
      by_cases hp : player_correct g p = false
      · rw [if_pos hp]
      · rw [if_neg hp, if_pos h]
    · unfold gamma_golden_move
      rw [if_pos (check_false_of_off_board g p x y h)]

/-- C15 at concrete inputs: player 3 of 2 on the full row, and player 2 at the
field (3, 0) off the row. -/
theorem invalid_arguments_rejected_witness :
    (3 = 0 ∨ 3 > row3_full.player_count) ∧
    (gamma_move row3_full 3 1 0 = (row3_full, false) ∧
      gamma_golden_move row3_full 3 1 0 = (row3_full, false) ∧
      gamma_busy_fields row3_full 3 = 0 ∧ gamma_free_fields row3_full 3 = 0 ∧
      gamma_golden_possible row3_full 3 = (row3_full, false)) ∧
    (3 ≥ row3_full.width ∨ 0 ≥ row3_full.height) ∧
    (gamma_move row3_full 2 3 0 = (row3_full, false) ∧
      gamma_golden_move row3_full 2 3 0 = (row3_full, false)) :=
  ⟨by decide, (invalid_arguments_rejected row3_full 3 1 0).1 (by decide), by decide,
    (invalid_arguments_rejected row3_full 2 3 0).2 (by decide)⟩

/-! ## Scenarios -/

/-- The board of 2 by 2 fields, 2 players, area limit 1, after `gamma_move(1,0,0)`,
`gamma_move(2,1,1)` and `gamma_move(1,1,0)`. -/
def square_three : gamma_t :=
  run_calls (board 2 2 2 1) [Call.move 1 0 0, Call.move 2 1 1, Call.move 1 1 0]

/-- C16, refuted as stated: after the three moves, which all return true and
leave player 1 with one area, `gamma_move(1,0,1)` does not return false. -/
theorem square_fourth_move_not_false :
    gamma_new 2 2 2 1 = some (board 2 2 2 1) ∧
    (gamma_move (board 2 2 2 1) 1 0 0).2 = true ∧
    (gamma_move (run_calls (board 2 2 2 1) [Call.move 1 0 0]) 2 1 1).2 = true ∧
    (gamma_move (run_calls (board 2 2 2 1) [Call.move 1 0 0, Call.move 2 1 1]) 1 1 0).2 = true ∧
    square_three.area_count 1 = 1 ∧
    ¬ ((gamma_move square_three 1 0 1).2 = false) :=
  ⟨rfl, by decide, by decide, by decide, by decide, by decide⟩

/-- C16, amended: on the fresh board of 2 by 2 fields with 2 players and area
limit 1 the calls `gamma_move(1,0,0)`, `gamma_move(2,1,1)` and
`gamma_move(1,1,0)` each return true, player 1 has one area after the third,
and the following `gamma_move(1,0,1)` returns true as well: the field (0, 1)
shares a side with the field (0, 0) of player 1, so the area grows and
`area_count[1]` stays 1. -/
theorem square_scenario :
    gamma_new 2 2 2 1 = some (board 2 2 2 1) ∧
    (gamma_move (board 2 2 2 1) 1 0 0).2 = true ∧
    (gamma_move (run_calls (board 2 2 2 1) [Call.move 1 0 0]) 2 1 1).2 = true ∧
    (gamma_move (run_calls (board 2 2 2 1) [Call.move 1 0 0, Call.move 2 1 1]) 1 1 0).2 = true ∧
    square_three.area_count 1 = 1 ∧
    adj (0, 1) (0, 0) ∧ square_three.owner 0 0 = 1 ∧
    (gamma_move square_three 1 0 1).2 = true ∧
    (gamma_move square_three 1 0 1).1.area_count 1 = 1 :=
  ⟨rfl, by decide, by decide, by decide, by decide, by decide, by decide, by decide, by decide⟩

/-- C17: on the fresh board of width 3 and height 1 with 2 players and area
limit 1, after `gamma_move(1,0,0)`, `gamma_move(1,1,0)`, `gamma_move(1,2,0)`
(all true, `area_count[1] = 1`) the call `gamma_golden_move(2,1,0)` returns
false, and afterwards every field has owner 1, `occupied_count` is 3 for
player 1 and 0 for player 2, `area_count[1]` is 1 and player 2 has not used
the golden move. -/
theorem row_split_scenario :
    gamma_new 3 1 2 1 = some (board 3 1 2 1) ∧
    (gamma_move (board 3 1 2 1) 1 0 0).2 = true ∧
    (gamma_move (run_calls (board 3 1 2 1) [Call.move 1 0 0]) 1 1 0).2 = true ∧
    (gamma_move (run_calls (board 3 1 2 1) [Call.move 1 0 0, Call.move 1 1 0]) 1 2 0).2 = true ∧
    row3_full.area_count 1 = 1 ∧
    (gamma_golden_move row3_full 2 1 0).2 = false ∧
    (∀ c ∈ cells (gamma_golden_move row3_full 2 1 0).1,
      (gamma_golden_move row3_full 2 1 0).1.owner c.2 c.1 = 1) ∧
    (gamma_golden_move row3_full 2 1 0).1.occupied_count 1 = 3 ∧
    (gamma_golden_move row3_full 2 1 0).1.occupied_count 2 = 0 ∧
    (gamma_golden_move row3_full 2 1 0).1.area_count 1 = 1 ∧
    (gamma_golden_move row3_full 2 1 0).1.made_golden_move 2 = false :=
  ⟨rfl, by decide, by decide, by decide, by decide, by decide, by decide, by decide, by decide,
    by decide, by decide⟩

/-! ## The fresh board -/

/-- The fresh board when `players + 1` does not wrap: `gamma_new` returns no
board if a parameter is less than 1; otherwise it returns a board with the
given width, height, player count and area limit on which every field is
unowned, `area_count`, `occupied_count` and `made_golden_move` are 0, 0 and
false for every player, `free_count` is the product `width * height` (the
parameters are `uint32_t`, the product is taken in 64 bits and does not wrap)
and the label counter is 1. -/
theorem gamma_new_spec (width height players areas : Nat) (hw : width < UINT32_SIZE)
    (hh : height < UINT32_SIZE) (hp : players + 1 < UINT32_SIZE) :
    ((width < 1 ∨ height < 1 ∨ players < 1 ∨ areas < 1) →
      gamma_new width height players areas = none) ∧
    (¬ (width < 1 ∨ height < 1 ∨ players < 1 ∨ areas < 1) →
      gamma_new_returns width height players areas = true ∧
      ∃ g, gamma_new width height players areas = some g ∧
        g.width = width ∧ g.height = height ∧ g.player_count = players ∧
        g.areas_limit = areas ∧ (∀ x y, g.owner y x = 0) ∧
        (∀ p, g.area_count p = 0 ∧ g.occupied_count p = 0 ∧ g.made_golden_move p = false) ∧
        g.free_count = width * height ∧ g.next_id = 1) := by
  have hne := add32_one_ne_zero players hp
  constructor
  · intro h
    unfold gamma_new
    rw [if_pos h]
  · intro h
    refine ⟨by unfold gamma_new_returns; simp [hne], ?_⟩
    unfold gamma_new
    rw [if_neg h, if_neg hne]
    refine ⟨_, rfl, rfl, rfl, rfl, rfl, fun _ _ => rfl, fun _ => ⟨rfl, rfl, rfl⟩, ?_, rfl⟩
    show width * height % UINT64_SIZE = width * height
    apply Nat.mod_eq_of_lt
    have : width * height < UINT32_SIZE * UINT32_SIZE := Nat.mul_lt_mul'' hw hh
    unfold UINT32_SIZE at this
    unfold UINT64_SIZE
    omega

/-- The fresh board at concrete inputs: a board of the largest width and
height, and a call with 0 players. -/
theorem gamma_new_spec_witness :
    4294967295 < UINT32_SIZE ∧
    (4294967295 < 1 ∨ 4294967295 < 1 ∨ 0 < 1 ∨ 1 < 1) ∧
    gamma_new 4294967295 4294967295 0 1 = none ∧
    ¬ (4294967295 < 1 ∨ 4294967295 < 1 ∨ 2 < 1 ∨ 1 < 1) ∧
    (∃ g, gamma_new 4294967295 4294967295 2 1 = some g ∧
        g.width = 4294967295 ∧ g.height = 4294967295 ∧ g.player_count = 2 ∧
        g.areas_limit = 1 ∧ (∀ x y, g.owner y x = 0) ∧
        (∀ p, g.area_count p = 0 ∧ g.occupied_count p = 0 ∧ g.made_golden_move p = false) ∧
        g.free_count = 4294967295 * 4294967295 ∧ g.next_id = 1) :=
  ⟨by decide, by decide,
    (gamma_new_spec 4294967295 4294967295 0 1 (by decide) (by decide) (by decide)).1
      (by decide),
    by decide,
    ((gamma_new_spec 4294967295 4294967295 2 1 (by decide) (by decide) (by decide)).2
      (by decide)).2⟩

/-- C18 at the failing input: in `gamma_new(1, 1, 4294967295, 1)` no parameter
is less than 1, but `players + 1` wraps to 0, so the arrays `area_count`,
`made_golden_move` and `occupied_count` are allocated with no element and the
loop `for (uint32_t i = 0; i <= players; ++i)` has no last iteration: the call
does not come back and no board is returned. -/
theorem gamma_new_max_players :
    ¬ (1 < 1 ∨ 1 < 1 ∨ 4294967295 < 1 ∨ 1 < 1) ∧
    4294967295 < UINT32_SIZE ∧ add32 4294967295 1 = 0 ∧
    (∀ i, i < UINT32_SIZE → i ≤ 4294967295) ∧
    gamma_new_returns 1 1 4294967295 1 = false ∧
    (gamma_new 1 1 4294967295 1).isSome = false := by
  refine ⟨by decide, by decide, by decide, ?_, by decide, by decide⟩
  intro i hi
  unfold UINT32_SIZE at hi
  omega

/-! ## The label invariant -/

/-- C20: in every state reachable without a wrap of the label counter, for
every player `p` and every two fields `c1`, `c2` of the board owned by `p`,
the labels of `c1` and `c2` are equal exactly when a path of neighbouring
fields of `p` joins them, that is when they lie in the same area of `p`. -/
theorem labels_tell_areas (g : gamma_t) (h : ReachableNW g) (p : Nat)
    (hp1 : 1 ≤ p) (hp2 : p ≤ g.player_count) (c1 c2 : Nat × Nat)
    (h1 : c1 ∈ cells g) (h2 : c2 ∈ cells g)
    (ho1 : g.owner c1.2 c1.1 = p) (ho2 : g.owner c2.2 c2.1 = p) :
    g.area_id c1.2 c1.1 = g.area_id c2.2 c2.1 ↔ Conn (owned_by g p) c1 c2 :=
  (h.sound.players p hp1 hp2).1 c1 ((mem_owned_by g p c1).2 ⟨h1, ho1⟩) c2
    ((mem_owned_by g p c2).2 ⟨h2, ho2⟩)

/-- C20 at a concrete state: the ends of the full row of player 1. -/
theorem labels_tell_areas_witness :
    ReachableNW row3_full ∧ 1 ≤ 1 ∧ 1 ≤ row3_full.player_count ∧
    (0, 0) ∈ cells row3_full ∧ (2, 0) ∈ cells row3_full ∧
    row3_full.owner 0 0 = 1 ∧ row3_full.owner 0 2 = 1 ∧
    (row3_full.area_id 0 0 = row3_full.area_id 0 2 ↔
      Conn (owned_by row3_full 1) (0, 0) (2, 0)) :=
  ⟨reachableNW_row3_full, by decide, by decide, by decide, by decide, by decide, by decide,
    labels_tell_areas row3_full reachableNW_row3_full 1 (by decide) (by decide) (0, 0) (2, 0)
      (by decide) (by decide) (by decide) (by decide)⟩

/-! ## A probe that meets a label from before the wrap -/

/-- On a board of 4 by 5 fields with 5 players and area limit 1: player 5
takes the row (1, 1), (2, 1), (3, 1), player 4 the field (2, 2) above its
middle, player 3 the corner (0, 0); one probe of player 2 moves the label
counter to 10, and player 1 takes a T-shaped area around (2, 3), which gets
the label 10. -/
def echo_prefix : List Call :=
  [Call.move 5 1 1, Call.move 5 2 1, Call.move 5 3 1, Call.move 4 2 2, Call.move 3 0 0,
    Call.golden_possible 2, Call.move 1 2 3, Call.move 1 1 3, Call.move 1 3 3, Call.move 1 2 4]

/-- The state after `echo_prefix`: the label counter is 14. -/
def echo_base : gamma_t := run_calls (board 4 5 5 1) echo_prefix

/-- After `echo_prefix`, player 2 asks `gamma_golden_possible` 1073741822
times; the counter runs from 14 through 2^32 to 6, four short of the label
of the T-shaped area. -/
def echo_calls : List Call :=
  echo_prefix ++ List.replicate 1073741822 (Call.golden_possible 2)

/-- The state after `echo_calls`. -/
def echo : gamma_t := run_calls (board 4 5 5 1) echo_calls

theorem echo_base_lone : LoneField echo_base 2 0 0 :=
  ⟨by decide, by decide, by decide, by decide, by decide, by decide, by decide, by decide,
    by decide, by decide, by decide⟩

theorem echo_eq : echo = burnt echo_base 2 6 := by
  unfold echo echo_calls
  rw [run_calls_append]
  show run_calls echo_base (List.replicate (1073741821 + 1) (Call.golden_possible 2)) = _
  rw [burn_from echo_base_lone 1073741821 (by decide)]
  have e1 : (echo_base.next_id + 4 * 1073741821) % UINT32_SIZE = 2 := by decide
  have e2 : (echo_base.next_id + 4 * (1073741821 + 1)) % UINT32_SIZE = 6 := by decide
  rw [e1, e2]

theorem reachable_echo : Reachable echo :=
  (reachable_board 4 5 5 1 (by decide) (by decide) (by decide) (by decide)
    (by decide)).after_calls _

/-- C12, refuted as stated: in the reachable state `echo` player 4 is valid
and `gamma_golden_possible` returns true for player 4, although
`gamma_golden_move` of player 4, called on the same state, returns false for
every field. -/
theorem gamma_golden_possible_true_without_target :
    Reachable echo ∧ (1 ≤ 4 ∧ 4 ≤ echo.player_count) ∧
    (gamma_golden_possible echo 4).2 = true ∧
    ∀ x y, (gamma_golden_move echo 4 x y).2 = false := by
  refine ⟨reachable_echo, ?_, ?_, ?_⟩
  · rw [echo_eq]; decide
  · rw [echo_eq]; decide
  · intro x y
    by_cases h : x ≥ echo.width ∨ y ≥ echo.height
    · rw [gamma_golden_move_of_check_false echo 4 x y (check_false_of_off_board echo 4 x y h)]
    · have hx : x < 4 := by
        have : echo.width = 4 := by rw [echo_eq]; decide
        omega
      have hy : y < 5 := by
        have : echo.height = 5 := by rw [echo_eq]; decide
        omega
      have hall : ∀ a < 4, ∀ b < 5, (gamma_golden_move echo 4 a b).2 = false := by
        rw [echo_eq]; decide
      exact hall x hx y hy

/-! ## What `gamma_golden_possible` finds -/

/-- The golden move of `p` to (x, y) is legal: the player is valid and has the
golden move left, the field is on the board and belongs to another player `q`,
the mover has a field next to it or room for a new area, and `q` stays within
the limit when the field is taken out (`f` areas of the other fields of `q`
touch it). -/
def golden_legal (g : gamma_t) (p x y : Nat) : Prop :=
  (1 ≤ p ∧ p ≤ g.player_count) ∧ x < g.width ∧ y < g.height ∧
  g.made_golden_move p = false ∧ g.owner y x ≠ p ∧ g.owner y x ≠ 0 ∧
  ((∃ n ∈ cells g, adj (x, y) n ∧ g.owner n.2 n.1 = p) ∨ g.area_count p < g.areas_limit) ∧
  ∃ f, AreaCountOf ((owned_by g (g.owner y x)).erase (x, y))
      (nbrs ((owned_by g (g.owner y x)).erase (x, y)) (x, y)) f ∧
    g.area_count (g.owner y x) + f ≤ g.areas_limit + 1

theorem border_iff (g : gamma_t) (hs : Sound g) (p x y : Nat)
    (hp : player_correct g p = true) (hx : x < g.width) (hy : y < g.height) :
    ¬ (bordering_area_id g p x y = 0 ∧ g.area_count p ≥ g.areas_limit) ↔
    ((∃ n ∈ cells g, adj (x, y) n ∧ g.owner n.2 n.1 = p) ∨
      g.area_count p < g.areas_limit) := by
  rw [← bordering_ne_zero_iff g hs p x y hp hx hy]
  constructor
  · intro hnot
    by_cases hb : bordering_area_id g p x y = 0
    · right
      by_contra hcon
      exact hnot ⟨hb, by omega⟩
    · exact Or.inl hb
  · rintro (hb | hlt) ⟨h1, h2⟩
    · exact hb h1
    · omega

/-- In a sound state with room for four labels, `check_golden_move_parameters`
and the split test accept exactly the legal golden moves. -/
theorem accept_iff (g : gamma_t) (hs : Sound g) (p x y : Nat)
    (hn : check_golden_move_parameters g p x y = true → g.next_id + 4 < UINT32_SIZE) :
    (check_golden_move_parameters g p x y = true ∧ split_ok g p x y = true) ↔
      golden_legal g p x y := by
  constructor
  · rintro ⟨hc, hok⟩
    have hn' := hn hc
    have sf := tentative_facts g p x y hs hc (by omega)
    obtain ⟨hqpos, hqlt, hqok⟩ := split_ok_iff g p x y hs hc hn'
    obtain ⟨hp, hx, hy, hmade, hne, hnobody, hroom⟩ := check_true g p x y hc
    refine ⟨(player_correct_iff g p).1 hp, hx, hy, hmade, hne, hnobody,
      (border_iff g hs p x y hp hx hy).1 hroom, _,
      sf.areas.area_count_of _ (Finset.filter_subset _ _), ?_⟩
    have := hqok.1 hok
    rw [← sf.split_count_eq]
    omega
  · rintro ⟨hp, hx, hy, hmade, hne, hnobody, hnear, f, hf, hbound⟩
    have hp' := (player_correct_iff g p).2 hp
    have hc : check_golden_move_parameters g p x y = true :=
      (check_iff g p x y).2 ⟨hp', hx, hy, hmade, hne, hnobody,
        (border_iff g hs p x y hp' hx hy).2 hnear⟩
    have hn' := hn hc
    have sf := tentative_facts g p x y hs hc (by omega)
    obtain ⟨hqpos, hqlt, hqok⟩ := split_ok_iff g p x y hs hc hn'
    have hf' := sf.areas.area_count_of _ (Finset.filter_subset (fun n => adj (x, y) n) _)
    have hfeq : f = split_count g p x y := by
      rw [sf.split_count_eq]
      exact hf.unique hf'
    refine ⟨hc, ?_⟩
    apply hqok.2
    rw [← hfeq]
    omega

theorem golden_legal_congr {g g' : gamma_t} (hst : same_stats g g') (ho : g'.owner = g.owner)
    (p x y : Nat) : golden_legal g' p x y ↔ golden_legal g p x y := by
  obtain ⟨hw, hh, hpc, hl, hac, hm, -, -, -⟩ := hst
  unfold golden_legal
  rw [owned_by_congr hw hh ho, cells_congr hw hh, ho, hw, hh, hpc, hl, hac, hm]

/-- The verdict of a probe that does not wrap the label counter. -/
theorem probe_result (g : gamma_t) (hs : Sound g) (p x y : Nat)
    (hnw : g.next_id ≤ (golden_move_possible g p x y true).1.next_id) :
    (golden_move_possible g p x y true).2 = true ↔ golden_legal g p x y := by
  cases hc : check_golden_move_parameters g p x y
  · rw [← accept_iff g hs p x y (by rw [hc]; intro h; exact absurd h (by simp))]
    unfold golden_move_possible
    rw [if_pos hc, hc]
    simp
  · rw [golden_move_possible_eq g p x y true hc, if_pos (Or.inl rfl)] at hnw
    have h : g.next_id ≤ add32 g.next_id 4 := by
      have := reverted_next_id g p x y
      rw [← this]
      exact hnw
    have hn := add32_no_wrap _ 4 hs.labelled.next_lt (by omega) (by omega) h
    rw [← accept_iff g hs p x y (fun _ => by omega), golden_move_possible_eq g p x y true hc, hc]
    simp

/-- The verdict of a golden move that does not wrap the label counter. -/
theorem golden_move_result (g : gamma_t) (hs : Sound g) (p x y : Nat)
    (hnw : g.next_id ≤ (gamma_golden_move g p x y).1.next_id) :
    (gamma_golden_move g p x y).2 = true ↔ golden_legal g p x y := by
  cases hc : check_golden_move_parameters g p x y
  · rw [← accept_iff g hs p x y (by rw [hc]; intro h; exact absurd h (by simp)),
      gamma_golden_move_of_check_false g p x y hc, hc]
    simp
  · have hn := golden_move_room g p x y hs hc hnw
    rw [← accept_iff g hs p x y (fun _ => hn), gamma_golden_move_eq g p x y hc, hc]
    by_cases hok : split_ok g p x y = true
    · rw [if_pos hok]
      simp [hok]
    · rw [if_neg hok]
      simp [hok]

theorem mem_board_fields (g : gamma_t) (c : Nat × Nat) :
    c ∈ board_fields g ↔ c.1 < g.width ∧ c.2 < g.height := by
  obtain ⟨a, b⟩ := c
  unfold board_fields
  simp only [List.mem_flatMap, List.mem_map, List.mem_range, Prod.mk.injEq]
  constructor
  · rintro ⟨y, hy, x, hx, rfl, rfl⟩
    exact ⟨hx, hy⟩
  · rintro ⟨hx, hy⟩
    exact ⟨b, hy, a, hx, rfl, rfl⟩

/-- The loop of `gamma_golden_possible` returns true exactly when one of the
fields it visits is a legal target. -/
theorem loop_result (g : gamma_t) (p : Nat) (cs : List (Nat × Nat)) :
    ∀ g' : gamma_t, Sound g' → no_wrap_loop p cs g' → same_stats g g' → g'.owner = g.owner →
      ((golden_possible_loop p cs g').2 = true ↔ ∃ c ∈ cs, golden_legal g p c.1 c.2) := by
  induction cs with
  | nil =>
    intro g' _ _ _ _
    unfold golden_possible_loop
    simp
  | cons c cs ih =>
    intro g' hs hnw hst ho
    obtain ⟨h1, h2⟩ := hnw
    have hres := (probe_result g' hs p c.1 c.2 h1).trans (golden_legal_congr hst ho p c.1 c.2)
    obtain ⟨f1, f2⟩ := golden_move_possible_probe g' p c.1 c.2
    unfold golden_possible_loop
    dsimp only
    by_cases hr : (golden_move_possible g' p c.1 c.2 true).2 = true
    · rw [if_pos hr]
      constructor
      · intro _
        exact ⟨c, List.mem_cons_self _ _, hres.1 hr⟩
      · intro _
        rfl
    · rw [if_neg hr,
        ih _ (hs.after_probe p c.1 c.2 h1) (h2 (by simpa using hr)) (same_stats_trans hst f1)
          (f2.trans ho)]
      constructor
      · rintro ⟨d, hd, hl⟩
        exact ⟨d, List.mem_cons_of_mem _ hd, hl⟩
      · rintro ⟨d, hd, hl⟩
        rcases List.mem_cons.1 hd with hdc | hd'
        · rw [hdc] at hl
          exact absurd (hres.2 hl) hr
        · exact ⟨d, hd', hl⟩

/-- Decision procedure for `no_wrap_loop`: run the probes. -/
def no_wrap_loop_dec (player : Nat) :
    (cs : List (Nat × Nat)) → (g : gamma_t) → Decidable (no_wrap_loop player cs g)
  | [], _ => isTrue trivial
  | c :: cs, g =>
    if h1 : g.next_id ≤ (golden_move_possible g player c.1 c.2 true).1.next_id then
      if h2 : (golden_move_possible g player c.1 c.2 true).2 = false then
        match no_wrap_loop_dec player cs (golden_move_possible g player c.1 c.2 true).1 with
        | isTrue h => isTrue ⟨h1, fun _ => h⟩
        | isFalse h => isFalse (fun hh => h (hh.2 h2))
      else isTrue ⟨h1, fun hh => absurd hh h2⟩
    else isFalse (fun hh => h1 hh.1)

instance (player : Nat) (cs : List (Nat × Nat)) (g : gamma_t) :
    Decidable (no_wrap_loop player cs g) :=
  no_wrap_loop_dec player cs g

/-- C12, amended: in every state reachable without a wrap of the label
counter and for every valid player `p`, if the label counter wraps neither in
the call `gamma_golden_possible(g, p)` nor in a call `gamma_golden_move` of `p`
on the same state, then `gamma_golden_possible(g, p)` returns true exactly when
`gamma_golden_move(g, p, x, y)`, called on the same state, returns true for
some field (x, y) of the board; it returns false whenever `p` has made a
golden move. -/
theorem gamma_golden_possible_iff (g : gamma_t) (h : ReachableNW g) (p : Nat)
    (hp1 : 1 ≤ p) (hp2 : p ≤ g.player_count)
    (hnw : Call.no_wrap g (Call.golden_possible p))
    (hroom : ∀ x < g.width, ∀ y < g.height,
      g.next_id ≤ (gamma_golden_move g p x y).1.next_id) :
    ((gamma_golden_possible g p).2 = true ↔
      ∃ x y, x < g.width ∧ y < g.height ∧ (gamma_golden_move g p x y).2 = true) ∧
    (g.made_golden_move p = true → (gamma_golden_possible g p).2 = false) := by
  have hs := h.sound
  have hpc : player_correct g p = true := (player_correct_iff g p).2 ⟨hp1, hp2⟩
  have hmade : g.made_golden_move p = true → (gamma_golden_possible g p).2 = false := by
    intro hm
    unfold gamma_golden_possible
    rw [if_neg (by rw [hpc]; simp), if_pos hm]
  refine ⟨?_, hmade⟩
  by_cases hm : g.made_golden_move p = true
  · rw [hmade hm]
    constructor
    · intro hf
      exact absurd hf (by simp)
    · rintro ⟨x, y, hx, hy, hret⟩
      have hl := (golden_move_result g hs p x y (hroom x hx y hy)).1 hret
      have := hl.2.2.2.1
      rw [hm] at this
      exact absurd this (by simp)
  · have hm' : g.made_golden_move p = false := by simpa using hm
    have hloop : gamma_golden_possible g p = golden_possible_loop p (board_fields g) g := by
      unfold gamma_golden_possible
      rw [if_neg (by rw [hpc]; simp), if_neg hm]
    rw [hloop, loop_result g p (board_fields g) g hs (hnw hpc hm') (same_stats_refl g) rfl]
    constructor
    · rintro ⟨c, hc, hl⟩
      obtain ⟨hx, hy⟩ := (mem_board_fields g c).1 hc
      exact ⟨c.1, c.2, hx, hy, (golden_move_result g hs p c.1 c.2 (hroom c.1 hx c.2 hy)).2 hl⟩
    · rintro ⟨x, y, hx, hy, hret⟩
      exact ⟨(x, y), (mem_board_fields g (x, y)).2 ⟨hx, hy⟩,
        (golden_move_result g hs p x y (hroom x hx y hy)).1 hret⟩

/-- C12, amended, at a concrete state: player 2 on the full row with area
limit 2. -/
theorem gamma_golden_possible_iff_witness :
    ReachableNW row3_full_limit2 ∧ 1 ≤ 2 ∧ 2 ≤ row3_full_limit2.player_count ∧
    Call.no_wrap row3_full_limit2 (Call.golden_possible 2) ∧
    (∀ x < row3_full_limit2.width, ∀ y < row3_full_limit2.height,
      row3_full_limit2.next_id ≤ (gamma_golden_move row3_full_limit2 2 x y).1.next_id) ∧
    ((gamma_golden_possible row3_full_limit2 2).2 = true ↔
      ∃ x y, x < row3_full_limit2.width ∧ y < row3_full_limit2.height ∧
        (gamma_golden_move row3_full_limit2 2 x y).2 = true) ∧
    (row3_full_limit2.made_golden_move 2 = true →
      (gamma_golden_possible row3_full_limit2 2).2 = false) :=
  ⟨reachableNW_row3_full_limit2, by decide, by decide, fun _ _ => by decide, by decide,
    gamma_golden_possible_iff row3_full_limit2 reachableNW_row3_full_limit2 2 (by decide)
      (by decide) (fun _ _ => by decide) (by decide)⟩

/-! ## What `gamma_free_fields` counts -/

/-- The free fields of the board that have a field of player `p` next to them. -/
def free_beside (g : gamma_t) (p : Nat) : Finset (Nat × Nat) :=
  (cells g).filter
    (fun c => g.owner c.2 c.1 = 0 ∧ ∃ n ∈ cells g, adj c n ∧ g.owner n.2 n.1 = p)

theorem board_fields_nodup (g : gamma_t) : (board_fields g).Nodup := by
  unfold board_fields
  rw [List.nodup_flatMap]
  constructor
  · intro y _
    exact (List.nodup_range g.width).map (fun a b hab => (Prod.mk.inj hab).1)
  · refine (List.nodup_range g.height).imp ?_
    intro y1 y2 hne c h1 h2
    obtain ⟨a, -, rfl⟩ := List.mem_map.1 h1
    obtain ⟨b, -, hb⟩ := List.mem_map.1 h2
    exact hne (Prod.mk.inj hb).2.symm

theorem board_fields_toFinset (g : gamma_t) : (board_fields g).toFinset = cells g := by
  ext c
  rw [List.mem_toFinset, mem_board_fields]
  obtain ⟨a, b⟩ := c
  exact (mem_cells g a b).symm

/-- A loop that adds one to a 64-bit counter at the elements that pass a test
counts them, modulo `2^64`. -/
theorem foldl_counter {α : Type} (f : Nat → α → Nat) (t : α → Bool)
    (hf : ∀ k c, f k c = if t c = true then add64 k 1 else k) (l : List α) :
    ∀ k, k < UINT64_SIZE → l.foldl f k = (k + (l.filter t).length) % UINT64_SIZE := by
  induction l with
  | nil =>
    intro k hk
    show k = (k + 0) % UINT64_SIZE
    rw [Nat.add_zero, Nat.mod_eq_of_lt hk]
  | cons c l ih =>
    intro k hk
    rw [List.foldl_cons, hf]
    by_cases hc : t c = true
    · have hlt : add64 k 1 < UINT64_SIZE := Nat.mod_lt _ (by unfold UINT64_SIZE; omega)
      rw [if_pos hc, List.filter_cons_of_pos hc, List.length_cons, ih (add64 k 1) hlt]
      unfold add64 UINT64_SIZE
      omega
    · rw [if_neg hc, List.filter_cons_of_neg hc, ih k hk]

/-- C14, refuted as stated: in the reachable state `stale` player 1 is valid
and holds exactly `areas_limit` areas, one free field has a field of player 1
next to it, yet `gamma_free_fields` returns 0 for player 1. -/
theorem gamma_free_fields_misses_neighbour :
    Reachable stale ∧ (1 ≤ 1 ∧ 1 ≤ stale.player_count) ∧
    stale.area_count 1 = stale.areas_limit ∧
    ((cells stale).filter (fun c => stale.owner c.2 c.1 = 0 ∧
      ∃ n ∈ cells stale, adj c n ∧ stale.owner n.2 n.1 = 1)).card = 1 ∧
    gamma_free_fields stale 1 = 0 := by
  refine ⟨reachable_stale, ?_⟩
  rw [stale_eq]
  decide

/-- At the limit `gamma_free_fields` counts the free fields beside a field of
the player, in a sound state. -/
theorem free_fields_at_limit (g : gamma_t) (hs : Sound g) (p : Nat)
    (hpc : player_correct g p = true) (hlim : g.area_count p = g.areas_limit) :
    gamma_free_fields g p = (free_beside g p).card := by
  unfold gamma_free_fields
  rw [if_neg (by rw [hpc]; simp), if_neg (by omega), if_neg (by omega)]
  rw [foldl_counter _
    (fun c => decide (g.owner c.2 c.1 = 0 ∧ bordering_area_id g p c.1 c.2 ≠ 0)) ?_
    (board_fields g) 0 (by unfold UINT64_SIZE; omega)]
  · have hcard : ((board_fields g).filter
        (fun c => decide (g.owner c.2 c.1 = 0 ∧ bordering_area_id g p c.1 c.2 ≠ 0))).length =
        (free_beside g p).card := by
      rw [← List.toFinset_card_of_nodup ((board_fields_nodup g).filter _),
        List.toFinset_filter, board_fields_toFinset]
      unfold free_beside
      apply congrArg Finset.card
      apply Finset.filter_congr
      intro c hc
      obtain ⟨a, b⟩ := c
      obtain ⟨ha, hb⟩ := (mem_cells g a b).1 hc
      rw [decide_eq_true_iff, bordering_ne_zero_iff g hs p a b hpc ha hb]
    rw [hcard, Nat.zero_add]
    apply Nat.mod_eq_of_lt
    have h1 : (free_beside g p).card ≤ (cells g).card := Finset.card_filter_le _ _
    have h2 := cells_lt_uint64 g hs.counted.width_lt hs.counted.height_lt
    rw [card_cells] at h1
    omega
  · intro k c
    unfold NOBODY
    by_cases h1 : g.owner c.2 c.1 = 0
    · by_cases h2 : bordering_area_id g p c.1 c.2 ≠ 0
      · rw [if_pos h1, if_pos h2, if_pos (by simp [h1, h2])]
      · rw [if_pos h1, if_neg h2, if_neg (by simp [h1, h2])]
    · rw [if_neg h1, if_neg (by simp [h1])]

/-- C14, amended: for every state `g` and every valid player `p`,
`gamma_free_fields(g, p)` is `free_count` when `area_count[p] < areas_limit`
and 0 when `area_count[p] > areas_limit`, and the call leaves the state as it
is; in every state reachable without a wrap of the label counter, when
`area_count[p] = areas_limit` it is the number of unowned fields with at least
one 4-neighbour owned by `p`. -/
theorem gamma_free_fields_spec (g : gamma_t) (p : Nat)
    (hp1 : 1 ≤ p) (hp2 : p ≤ g.player_count) :
    (g.area_count p < g.areas_limit → gamma_free_fields g p = g.free_count) ∧
    (g.area_count p > g.areas_limit → gamma_free_fields g p = 0) ∧
    Call.run g (Call.free_fields p) = g ∧
    (ReachableNW g → g.area_count p = g.areas_limit →
      gamma_free_fields g p = ((cells g).filter (fun c => g.owner c.2 c.1 = 0 ∧
        ∃ n ∈ cells g, adj c n ∧ g.owner n.2 n.1 = p)).card) := by
  have hpc : player_correct g p = true := (player_correct_iff g p).2 ⟨hp1, hp2⟩
  refine ⟨?_, ?_, rfl, ?_⟩
  · intro hlt
    unfold gamma_free_fields
    rw [if_neg (by rw [hpc]; simp), if_pos hlt]
  · intro hgt
    unfold gamma_free_fields
    rw [if_neg (by rw [hpc]; simp), if_neg (by omega), if_pos hgt]
  · intro h hlim
    exact free_fields_at_limit g h.sound p hpc hlim

/-- The state after the whole game `wrap_calls`, `wrap_more` and the move of
player 1 to (3, 1): player 1 has `area_count` 4294967295. -/
def overfull : gamma_t :=
  run_calls (board 4 2 3 1) (wrap_calls ++ (wrap_more ++ [Call.move 1 3 1]))

theorem overfull_eq :
    overfull = run_calls (burnt wrap_base 4294967294 2) (wrap_more ++ [Call.move 1 3 1]) := by
  unfold overfull
  rw [run_calls_append]
  show run_calls wrapped (wrap_more ++ [Call.move 1 3 1]) = _
  rw [wrapped_eq]

theorem overfull_facts :
    (1 ≤ 1 ∧ 1 ≤ overfull.player_count) ∧ overfull.area_count 1 > overfull.areas_limit := by
  rw [overfull_eq]
  decide

/-- The row of three fields after `gamma_move(1, 0, 0)`, area limit 1. -/
def row3_one : gamma_t := run_calls (board 3 1 2 1) [Call.move 1 0 0]

theorem reachableNW_row3_one : ReachableNW row3_one :=
  (reachableNW_board 3 1 2 1 (by decide) (by decide) (by decide) (by decide)
    (by decide)).after_calls_nw _ ⟨by show _ ≤ _; decide, trivial⟩

/-- C14, amended, at concrete states: player 2 below the limit and player 1 at
the limit on the row with one field taken, and player 1 above the limit in
the state `overfull`. -/
theorem gamma_free_fields_spec_witness :
    (1 ≤ 2 ∧ 2 ≤ row3_one.player_count) ∧
    row3_one.area_count 2 < row3_one.areas_limit ∧
    gamma_free_fields row3_one 2 = row3_one.free_count ∧
    (1 ≤ 1 ∧ 1 ≤ overfull.player_count) ∧
    overfull.area_count 1 > overfull.areas_limit ∧ gamma_free_fields overfull 1 = 0 ∧
    (1 ≤ 1 ∧ 1 ≤ row3_one.player_count) ∧ ReachableNW row3_one ∧
    row3_one.area_count 1 = row3_one.areas_limit ∧
    gamma_free_fields row3_one 1 = 1 ∧
    gamma_free_fields row3_one 1 =
      ((cells row3_one).filter (fun c => row3_one.owner c.2 c.1 = 0 ∧
        ∃ n ∈ cells row3_one, adj c n ∧ row3_one.owner n.2 n.1 = 1)).card :=
  ⟨by decide, by decide,
    (gamma_free_fields_spec row3_one 2 (by decide) (by decide)).1 (by decide),
    overfull_facts.1, overfull_facts.2,
    (gamma_free_fields_spec overfull 1 overfull_facts.1.1 overfull_facts.1.2).2.1
      overfull_facts.2,
    by decide, reachableNW_row3_one, by decide, by decide,
    (gamma_free_fields_spec row3_one 1 (by decide) (by decide)).2.2.2 reachableNW_row3_one
      (by decide)⟩

/-! ## The text of the board -/

/-- The terminating character of a C string. -/
def NUL : Char := Char.ofNat 0

/-- The line feed that `sprintf(buffer, "\n")` writes. -/
def LF : Char := Char.ofNat 10

/-- The characters `cs` stored into the memory `mem` from index `pos` on. -/
def store (mem : Nat → Char) (pos : Nat) (cs : List Char) : Nat → Char :=
  fun i => if pos ≤ i ∧ i < pos + cs.length then cs.getD (i - pos) NUL else mem i

/-- What the conversion `%d` prints for a `uint32_t` argument: `printf` reads
it as an `int`, so a value from `2^31` on appears as the negative number with
the same 32 bits. -/
def format_d (n : Nat) : List Char :=
  if n < 2147483648 then Nat.toDigits 10 n else '-' :: Nat.toDigits 10 (UINT32_SIZE - n)

/-- What `sprintf(buffer, "%-*d", frame, owner)` stores: the numeral, spaces on
the right up to the minimal width `frame`, and the terminating `NUL`. -/
def sprintf_field (frame owner : Nat) : List Char :=
  format_d owner ++ List.replicate (frame - (format_d owner).length) ' ' ++ [NUL]

/-- The local variables of `gamma_board`: the memory behind `result`, the
offset of the pointer `buffer` from `result`, and the index `next`. -/
structure board_text where
  mem : Nat → Char
  buffer : Nat
  next : Nat

/-- The loop `for (i = 0; i < g->frame - 1; ++i)` that pads a free field. -/
def pad_free (count : Nat) (mem : Nat → Char) (next : Nat) : (Nat → Char) × Nat :=
  (List.range count).foldl (fun r _ => (store r.1 r.2 [' '], add32 r.2 1)) (mem, next)

/-- The body of the inner loop of `gamma_board` for the field `x` of the row
printed at loop index `y` (the row `y - 1` of the board). -/
def board_field (g : gamma_t) (y : Nat) (s : board_text) (x : Nat) : board_text :=
  let owner := g.owner (y - 1) x
  if owner > NOBODY then
    { mem := store s.mem s.buffer (sprintf_field g.frame owner)
      buffer := s.buffer + g.frame
      next := add32 s.next g.frame }
  else
    let r := pad_free (sub32 g.frame 1) (store s.mem s.next ['.']) (add32 s.next 1)
    { mem := r.1, buffer := s.buffer + g.frame, next := r.2 }

/-- The body of the outer loop of `gamma_board`: one row and its line feed. -/
def board_row (g : gamma_t) (s : board_text) (y : Nat) : board_text :=
  let s1 := (List.range g.width).foldl (board_field g y) s
  { mem := store s1.mem s1.buffer [LF, NUL], buffer := s1.buffer + 1, next := add32 s1.next 1 }

/-- The values `height, height - 1, ..., 1` of the loop variable `y`. -/
def board_rows (g : gamma_t) : List Nat :=
  ((List.range g.height).map (fun i => i + 1)).reverse

/-- The number of bytes `gamma_board` allocates; the product `frame * width`
and the sum with 1 are taken in `uint32_t`, the rest in `size_t`. -/
def board_size (g : gamma_t) : Nat :=
  (add32 ((g.frame * g.width) % UINT32_SIZE) 1 * g.height + 1) % UINT64_SIZE

/-- The C string that starts at index 0 of the memory of `size` bytes. -/
def c_string (mem : Nat → Char) (size : Nat) : List Char :=
  ((List.range size).map mem).takeWhile (fun c => c ≠ NUL)

/-- Embeds `gamma_board` (allocation taken to succeed): the text returned,
given the content `init` of the fresh memory. -/
def gamma_board (g : gamma_t) (init : Nat → Char) : List Char :=
  c_string ((board_rows g).foldl (board_row g) ⟨init, 0, 0⟩).mem (board_size g)

/-- A board of one field for 3000000000 players, the field taken by the last
player. -/
def crowd : gamma_t :=
  run_calls (board 1 1 3000000000 1) [Call.move 3000000000 0 0]

theorem reachable_crowd : Reachable crowd :=
  (reachable_board 1 1 3000000000 1 (by decide) (by decide) (by decide) (by decide)
    (by decide)).after_calls _

/-- C19 at the failing input: on the reachable board `crowd` of one field,
owned by player 3000000000, the frame is 10 = `digit_count(players)`, and the
text of `gamma_board` is `-129496729` and a line feed, whatever the fresh
memory holds: `%d` prints the owner as the `int` -1294967296, and the line
feed overwrites the eleventh character.  The claim asks for the decimal
numeral `3000000000` of the owner followed by the line feed. -/
theorem gamma_board_prints_negative_owner :
    Reachable crowd ∧ crowd.width = 1 ∧ crowd.height = 1 ∧
    crowd.frame = digit_count crowd.player_count ∧ crowd.frame = 10 ∧
    crowd.owner 0 0 = 3000000000 ∧
    Nat.toDigits 10 (crowd.owner 0 0) = ['3', '0', '0', '0', '0', '0', '0', '0', '0', '0'] ∧
    (∀ init, gamma_board crowd init =
      ['-', '1', '2', '9', '4', '9', '6', '7', '2', '9', LF]) ∧
    (∀ init, gamma_board crowd init ≠ Nat.toDigits 10 (crowd.owner 0 0) ++ [LF]) := by
  have htext : ∀ init, gamma_board crowd init =
      ['-', '1', '2', '9', '4', '9', '6', '7', '2', '9', LF] := fun _ => rfl
  refine ⟨reachable_crowd, by decide, by decide, by decide, by decide, by decide, by decide,
    htext, ?_⟩
  intro init
  rw [htext init]
  decide

/-! ## Label freshness -/

/-- The most labels a call can draw from the counter: one for a move, four
for the tentative seizure and one more for the commit of a golden move, four
for each field that `gamma_golden_possible` probes. -/
def max_drawn (g : gamma_t) : Call → Nat
  | Call.move _ _ _ => 1
  | Call.golden_move _ _ _ => 5
  | Call.golden_possible _ => 4 * (g.width * g.height)
  | Call.free_fields _ => 0
  | Call.busy_fields _ => 0

theorem board_fields_length (g : gamma_t) : (board_fields g).length = g.width * g.height := by
  rw [← List.toFinset_card_of_nodup (board_fields_nodup g), board_fields_toFinset, card_cells]

theorem probe_next_id (g : gamma_t) (p x y : Nat) :
    (golden_move_possible g p x y true).1.next_id = g.next_id ∨
    (golden_move_possible g p x y true).1.next_id = add32 g.next_id 4 := by
  cases hc : check_golden_move_parameters g p x y
  · left
    unfold golden_move_possible
    rw [if_pos hc]
  · right
    rw [golden_move_possible_eq g p x y true hc, if_pos (Or.inl rfl)]
    exact reverted_next_id g p x y

/-- The loop of `gamma_golden_possible` draws four labels for each of `k`
probes, `k` at most the number of fields it visits. -/
theorem loop_next_id (player : Nat) (cs : List (Nat × Nat)) :
    ∀ g : gamma_t, g.next_id < UINT32_SIZE →
      ∃ k, k ≤ cs.length ∧
        (golden_possible_loop player cs g).1.next_id = (g.next_id + 4 * k) % UINT32_SIZE := by
  induction cs with
  | nil =>
    intro g hn
    exact ⟨0, Nat.le_refl _, (Nat.mod_eq_of_lt hn).symm⟩
  | cons c cs ih =>
    intro g hn
    unfold golden_possible_loop
    dsimp only
    have hstep : ∃ d, d ≤ 1 ∧ (golden_move_possible g player c.1 c.2 true).1.next_id =
        (g.next_id + 4 * d) % UINT32_SIZE := by
      rcases probe_next_id g player c.1 c.2 with h | h
      · exact ⟨0, by omega, by rw [h]; exact (Nat.mod_eq_of_lt hn).symm⟩
      · exact ⟨1, by omega, by rw [h]; rfl⟩
    obtain ⟨d, hd, e⟩ := hstep
    by_cases hr : (golden_move_possible g player c.1 c.2 true).2 = true
    · rw [if_pos hr]
      exact ⟨d, by rw [List.length_cons]; omega, e⟩
    · rw [if_neg hr]
      obtain ⟨k, hk, e'⟩ := ih (golden_move_possible g player c.1 c.2 true).1
        (by rw [e]; exact Nat.mod_lt _ (by unfold UINT32_SIZE; omega))
      refine ⟨d + k, by rw [List.length_cons]; omega, ?_⟩
      rw [e', e]
      unfold UINT32_SIZE
      omega

/-- Every call adds the labels it draws to the counter, modulo `2^32`. -/
theorem run_next_id (g : gamma_t) (hn : g.next_id < UINT32_SIZE) (c : Call) :
    ∃ d, d ≤ max_drawn g c ∧ (c.run g).next_id = (g.next_id + d) % UINT32_SIZE := by
  have h0 : g.next_id = (g.next_id + 0) % UINT32_SIZE := (Nat.mod_eq_of_lt hn).symm
  cases c with
  | move player x y =>
    show ∃ d, d ≤ 1 ∧ (gamma_move g player x y).1.next_id = _
    rw [gamma_move_eq]
    by_cases hok : move_ok g player x y
    · rw [if_pos hok]
      obtain ⟨a, e⟩ := moved_shape g player x y
      rw [e]
      exact ⟨1, Nat.le_refl 1, rfl⟩
    · rw [if_neg hok]
      exact ⟨0, by omega, h0⟩
  | golden_move player x y =>
    show ∃ d, d ≤ 5 ∧ (gamma_golden_move g player x y).1.next_id = _
    cases hc : check_golden_move_parameters g player x y
    · rw [gamma_golden_move_of_check_false g player x y hc]
      exact ⟨0, by omega, h0⟩
    · rw [gamma_golden_move_eq g player x y hc]
      by_cases hs : split_ok g player x y = true
      · rw [if_pos hs]
        obtain ⟨a, e⟩ := committed_shape g player x y
        rw [e]
        exact ⟨5, Nat.le_refl 5, add32_add32 g.next_id⟩
      · rw [if_neg hs]
        exact ⟨4, by omega, reverted_next_id g player x y⟩
  | golden_possible player =>
    show ∃ d, d ≤ 4 * (g.width * g.height) ∧ (gamma_golden_possible g player).1.next_id = _
    unfold gamma_golden_possible
    by_cases hp : player_correct g player = false
    · rw [if_pos hp]
      exact ⟨0, by omega, h0⟩
    rw [if_neg hp]
    by_cases hm : g.made_golden_move player = true
    · rw [if_pos hm]
      exact ⟨0, by omega, h0⟩
    rw [if_neg hm]
    obtain ⟨k, hk, e⟩ := loop_next_id player (board_fields g) g hn
    rw [board_fields_length] at hk
    exact ⟨4 * k, by omega, e⟩
  | free_fields player => exact ⟨0, Nat.le_refl 0, h0⟩
  | busy_fields player => exact ⟨0, Nat.le_refl 0, h0⟩

/-- C25: in every state reachable without a wrap of the label counter,
`next_id` is at least 1; every call adds to `next_id`, modulo `2^32`, the
number `d` of labels it draws (at most 1 for `gamma_move`, 5 for
`gamma_golden_move`, 4 for each field for `gamma_golden_possible`), so that
`next_id` grows by `d` and does not decrease as long as the sum does not wrap;
every owned field of the board carries a label `l` with `1 <= l < next_id`,
every unowned field carries the label 0, and so the label `next_id` is on no
field of the board. -/
theorem label_freshness (g : gamma_t) (h : ReachableNW g) :
    1 ≤ g.next_id ∧
    (∀ c : Call, ∃ d, d ≤ max_drawn g c ∧
      (c.run g).next_id = (g.next_id + d) % UINT32_SIZE ∧
      (g.next_id + d < UINT32_SIZE →
        (c.run g).next_id = g.next_id + d ∧ g.next_id ≤ (c.run g).next_id)) ∧
    (∀ c ∈ cells g, g.owner c.2 c.1 ≠ 0 →
      1 ≤ g.area_id c.2 c.1 ∧ g.area_id c.2 c.1 < g.next_id) ∧
    (∀ c ∈ cells g, g.owner c.2 c.1 = 0 → g.area_id c.2 c.1 = 0) ∧
    (∀ c ∈ cells g, g.area_id c.2 c.1 ≠ g.next_id) := by
  have hl := h.sound.labelled
  refine ⟨hl.next_pos, ?_, hl.owned, hl.free, ?_⟩
  · intro c
    obtain ⟨d, hd, e⟩ := run_next_id g hl.next_lt c
    refine ⟨d, hd, e, ?_⟩
    intro hlt
    rw [e, Nat.mod_eq_of_lt hlt]
    exact ⟨rfl, Nat.le_add_right _ _⟩
  · intro c hc
    have hpos := hl.next_pos
    by_cases ho : g.owner c.2 c.1 = 0
    · have := hl.free c hc ho
      unfold lab at this
      omega
    · have := (hl.owned c hc ho).2
      unfold lab at this
      omega

/-- C25 at a concrete state: on the full row of three fields, whose fields
carry the label 1 with the counter at 4, the rejected golden move of player 2
draws four labels. -/
theorem label_freshness_witness :
    ReachableNW row3_full ∧ 1 ≤ row3_full.next_id ∧
    (∃ d, d ≤ 5 ∧
      (gamma_golden_move row3_full 2 1 0).1.next_id = (row3_full.next_id + d) % UINT32_SIZE ∧
      (row3_full.next_id + d < UINT32_SIZE →
        (gamma_golden_move row3_full 2 1 0).1.next_id = row3_full.next_id + d ∧
        row3_full.next_id ≤ (gamma_golden_move row3_full 2 1 0).1.next_id)) ∧
    (gamma_golden_move row3_full 2 1 0).1.next_id = row3_full.next_id + 4 ∧
    (1, 0) ∈ cells row3_full ∧ row3_full.owner 0 1 ≠ 0 ∧
    (1 ≤ row3_full.area_id 0 1 ∧ row3_full.area_id 0 1 < row3_full.next_id) ∧
    row3_full.area_id 0 1 ≠ row3_full.next_id :=
  ⟨reachableNW_row3_full, (label_freshness row3_full reachableNW_row3_full).1,
    (label_freshness row3_full reachableNW_row3_full).2.1 (Call.golden_move 2 1 0),
    by decide, by decide, by decide,
    (label_freshness row3_full reachableNW_row3_full).2.2.1 (1, 0) (by decide) (by decide),
    (label_freshness row3_full reachableNW_row3_full).2.2.2.2 (1, 0) (by decide)⟩

/-! ## What the mutating calls leave alone -/

theorem moved_area_id_of_ne (g : gamma_t) (p x y y' x' : Nat)
    (h : set2 g.owner y x p y' x' ≠ p) :
    (moved g p x y).area_id y' x' = g.area_id y' x' := by
  unfold moved
  dsimp only
  exact merge_areas_area_id_of_ne _ p x y _ 1 y' x' h

theorem gamma_move_dims (g : gamma_t) (player x y : Nat) :
    (gamma_move g player x y).1.width = g.width ∧
    (gamma_move g player x y).1.height = g.height ∧
    (gamma_move g player x y).1.player_count = g.player_count ∧
    (gamma_move g player x y).1.areas_limit = g.areas_limit := by
  rw [gamma_move_eq]
  by_cases hok : move_ok g player x y
  · rw [if_pos hok]
    obtain ⟨a, e⟩ := moved_shape g player x y
    rw [e]
    exact ⟨rfl, rfl, rfl, rfl⟩
  · rw [if_neg hok]
    exact ⟨rfl, rfl, rfl, rfl⟩

theorem gamma_golden_move_dims (g : gamma_t) (player x y : Nat) :
    (gamma_golden_move g player x y).1.width = g.width ∧
    (gamma_golden_move g player x y).1.height = g.height ∧
    (gamma_golden_move g player x y).1.player_count = g.player_count ∧
    (gamma_golden_move g player x y).1.areas_limit = g.areas_limit := by
  cases hc : check_golden_move_parameters g player x y
  · rw [gamma_golden_move_of_check_false g player x y hc]
    exact ⟨rfl, rfl, rfl, rfl⟩
  · rw [gamma_golden_move_eq g player x y hc]
    by_cases hs : split_ok g player x y = true
    · rw [if_pos hs]
      obtain ⟨a, e⟩ := committed_shape g player x y
      rw [e]
      exact ⟨rfl, rfl, rfl, rfl⟩
    · rw [if_neg hs]
      obtain ⟨h1, h2, h3, h4, -⟩ := reverted_same_stats g player x y
      exact ⟨h1, h2, h3, h4⟩

/-- No call changes the size of the board, the number of players or the
area limit. -/
theorem run_dims (g : gamma_t) (c : Call) :
    (c.run g).width = g.width ∧ (c.run g).height = g.height ∧
    (c.run g).player_count = g.player_count ∧ (c.run g).areas_limit = g.areas_limit := by
  cases c with
  | move player x y => exact gamma_move_dims g player x y
  | golden_move player x y => exact gamma_golden_move_dims g player x y
  | golden_possible player =>
    obtain ⟨⟨h1, h2, h3, h4, -⟩, -⟩ := gamma_golden_possible_frame g player
    exact ⟨h1, h2, h3, h4⟩
  | free_fields player => exact ⟨rfl, rfl, rfl, rfl⟩
  | busy_fields player => exact ⟨rfl, rfl, rfl, rfl⟩

/-- C27: a call of `gamma_move(g, p, x, y)` that returns true changes the owner
of no field other than (x, y), the `area_count`, `occupied_count` and
`made_golden_move` of no player other than `p`, and the label of no field owned
by another player; a call of `gamma_golden_move(g, p, x, y)` that returns true,
with `q` the owner of (x, y) before, changes the owner of no field other than
(x, y) and the statistics of no player other than `p` and `q`; no call changes
the width, the height, the number of players or the area limit. -/
theorem mutating_calls_frame (g : gamma_t) (p x y : Nat) :
    ((gamma_move g p x y).2 = true →
      (∀ x' y', ¬ (y' = y ∧ x' = x) → (gamma_move g p x y).1.owner y' x' = g.owner y' x') ∧
      (∀ r, r ≠ p → (gamma_move g p x y).1.area_count r = g.area_count r ∧
        (gamma_move g p x y).1.occupied_count r = g.occupied_count r ∧
        (gamma_move g p x y).1.made_golden_move r = g.made_golden_move r) ∧
      (∀ x' y', g.owner y' x' ≠ p → g.owner y' x' ≠ 0 →
        (gamma_move g p x y).1.area_id y' x' = g.area_id y' x')) ∧
    ((gamma_golden_move g p x y).2 = true →
      (∀ x' y', ¬ (y' = y ∧ x' = x) →
        (gamma_golden_move g p x y).1.owner y' x' = g.owner y' x') ∧
      (∀ r, r ≠ p → r ≠ g.owner y x →
        (gamma_golden_move g p x y).1.area_count r = g.area_count r ∧
        (gamma_golden_move g p x y).1.occupied_count r = g.occupied_count r ∧
        (gamma_golden_move g p x y).1.made_golden_move r = g.made_golden_move r)) ∧
    (∀ c : Call, (c.run g).width = g.width ∧ (c.run g).height = g.height ∧
      (c.run g).player_count = g.player_count ∧ (c.run g).areas_limit = g.areas_limit) := by
  refine ⟨?_, ?_, run_dims g⟩
  · intro hret
    rw [gamma_move_eq] at hret ⊢
    by_cases hok : move_ok g p x y
    swap
    · rw [if_neg hok] at hret
      exact absurd hret (by simp)
    rw [if_pos hok]
    obtain ⟨-, -, -, hfree, -⟩ := hok
    refine ⟨?_, ?_, ?_⟩
    · intro x' y' hne
      obtain ⟨a, e⟩ := moved_shape g p x y
      rw [e]
      exact set2_other _ _ _ _ _ _ hne
    · intro r hr
      obtain ⟨a, e⟩ := moved_shape g p x y
      rw [e]
      exact ⟨set1_other _ _ _ _ hr, set1_other _ _ _ _ hr, rfl⟩
    · intro x' y' h1 h2
      apply moved_area_id_of_ne
      have hne : ¬ (y' = y ∧ x' = x) := by
        rintro ⟨rfl, rfl⟩
        exact h2 hfree
      rw [set2_other _ _ _ _ _ _ hne]
      exact h1
  · intro hret
    cases hc : check_golden_move_parameters g p x y
    · rw [gamma_golden_move_of_check_false g p x y hc] at hret
      exact absurd hret (by simp)
    rw [gamma_golden_move_eq g p x y hc] at hret ⊢
    by_cases hs : split_ok g p x y = true
    swap
    · rw [if_neg hs] at hret
      exact absurd hret (by simp)
    rw [if_pos hs]
    obtain ⟨a, e⟩ := committed_shape g p x y
    rw [e]
    refine ⟨?_, ?_⟩
    · intro x' y' hne
      exact set2_other _ _ _ _ _ _ hne
    · intro r hr hq
      refine ⟨?_, ?_, set1_other _ _ _ _ hr⟩
      · show set1 (set1 g.area_count p _) (g.owner y x) _ r = _
        rw [set1_other _ _ _ _ hq, set1_other _ _ _ _ hr]
      · show set1 (set1 g.occupied_count p _) (g.owner y x) _ r = _
        rw [set1_other _ _ _ _ hq, set1_other _ _ _ _ hr]

/-- C27 at concrete inputs: the third move of player 1 on the row, and the
golden move of player 2 onto the middle of the full row with area limit 2. -/
theorem mutating_calls_frame_witness :
    (gamma_move row3_two 1 2 0).2 = true ∧
    (∀ x' y', ¬ (y' = 0 ∧ x' = 2) →
      (gamma_move row3_two 1 2 0).1.owner y' x' = row3_two.owner y' x') ∧
    (gamma_golden_move row3_full_limit2 2 1 0).2 = true ∧
    (∀ x' y', ¬ (y' = 0 ∧ x' = 1) →
      (gamma_golden_move row3_full_limit2 2 1 0).1.owner y' x' =
        row3_full_limit2.owner y' x') :=
  ⟨by decide, ((mutating_calls_frame row3_two 1 2 0).1 (by decide)).1, by decide,
    ((mutating_calls_frame row3_full_limit2 2 1 0).2.1 (by decide)).1⟩

/-! ## The width of a field of the text -/

theorem digit_count_loop_zero (fuel d : Nat) : digit_count_loop fuel 0 d = d := by
  cases fuel with
  | zero => rfl
  | succ fuel =>
    unfold digit_count_loop
    rw [if_neg (by simp)]

/-- The loop of `digit_count` adds the number of decimal digits of `n`. -/
theorem digit_count_loop_spec : ∀ (fuel n d : Nat), 1 ≤ n → n ≤ fuel →
    ∃ k, 1 ≤ k ∧ digit_count_loop fuel n d = d + k ∧ 10 ^ (k - 1) ≤ n ∧ n < 10 ^ k := by
  intro fuel
  induction fuel with
  | zero => intro n d h1 h2; omega
  | succ fuel ih =>
    intro n d h1 h2
    unfold digit_count_loop
    rw [if_pos (by omega)]
    by_cases h10 : n < 10
    · refine ⟨1, Nat.le_refl 1, ?_, ?_, ?_⟩
      · rw [Nat.div_eq_of_lt h10, digit_count_loop_zero]
      · show 10 ^ 0 ≤ n
        rw [Nat.pow_zero]
        exact h1
      · rw [Nat.pow_one]
        exact h10
    · obtain ⟨k, hk, e, hlo, hhi⟩ := ih (n / 10) (d + 1) (by omega) (by omega)
      refine ⟨k + 1, by omega, by rw [e]; omega, ?_, ?_⟩
      · have hp : 10 ^ (k + 1 - 1) = 10 ^ (k - 1) * 10 := by
          rw [← Nat.pow_succ]
          congr 1
          omega
        rw [hp]
        omega
      · rw [Nat.pow_succ]
        omega

theorem digit_count_bounds (n : Nat) (h : 1 ≤ n) :
    1 ≤ digit_count n ∧ 10 ^ (digit_count n - 1) ≤ n ∧ n < 10 ^ digit_count n := by
  obtain ⟨k, hk, e, hlo, hhi⟩ := digit_count_loop_spec n n 0 h (Nat.le_refl n)
  have hd : digit_count n = k := by
    unfold digit_count
    rw [if_neg (by omega), e, Nat.zero_add]
  rw [hd]
  exact ⟨hk, hlo, hhi⟩

theorem digit_count_pos (n : Nat) : 1 ≤ digit_count n := by
  by_cases h : n = 0
  · rw [h]
    exact Nat.le_refl 1
  · exact (digit_count_bounds n (by omega)).1

theorem digit_count_mono (n m : Nat) (h : n ≤ m) : digit_count n ≤ digit_count m := by
  by_cases h0 : n = 0
  · rw [h0]
    exact digit_count_pos m
  · obtain ⟨-, hlo, -⟩ := digit_count_bounds n (by omega)
    obtain ⟨-, -, hhi⟩ := digit_count_bounds m (by omega)
    by_contra hcon
    have hle : digit_count m ≤ digit_count n - 1 := by omega
    have := Nat.pow_le_pow_right (by decide : 0 < 10) hle
    omega

/-- C29: `digit_count(0) = 1`; for every `n >= 1`,
`10^(digit_count(n) - 1) <= n < 10^digit_count(n)`; `digit_count` is monotone;
`gamma_new` sets `frame = digit_count(players)`, and for every player `p` with
`1 <= p <= players` the decimal numeral of `p` has at most
`digit_count(players)` characters. -/
theorem digit_count_spec :
    digit_count 0 = 1 ∧
    (∀ n, 1 ≤ n → 10 ^ (digit_count n - 1) ≤ n ∧ n < 10 ^ digit_count n) ∧
    (∀ n m, n ≤ m → digit_count n ≤ digit_count m) ∧
    (∀ width height players areas g, gamma_new width height players areas = some g →
      g.frame = digit_count players) ∧
    (∀ p players, 1 ≤ p → p ≤ players →
      digit_count p ≤ digit_count players ∧
      (Nat.toDigits 10 p).length ≤ digit_count players) := by
  refine ⟨rfl, fun n hn => (digit_count_bounds n hn).2, digit_count_mono, ?_, ?_⟩
  · intro width height players areas g hnew
    unfold gamma_new at hnew
    by_cases hbad : width < 1 ∨ height < 1 ∨ players < 1 ∨ areas < 1
    · rw [if_pos hbad] at hnew
      exact absurd hnew (by simp)
    · rw [if_neg hbad] at hnew
      by_cases hwrap : add32 players 1 = 0
      · rw [if_pos hwrap] at hnew
        exact absurd hnew (by simp)
      · rw [if_neg hwrap] at hnew
        have := Option.some.inj hnew
        rw [← this]
  · intro p players hp1 hp2
    refine ⟨digit_count_mono p players hp2, ?_⟩
    obtain ⟨hpos, -, hhi⟩ := digit_count_bounds players (by omega)
    exact Nat.toDigitsCore_length 10 (by decide) (p + 1) p (digit_count players)
      (by omega) hpos

/-- C29 at concrete inputs: 1000 has 4 digits, and the numeral of player 7 of
12 fits the frame of 2 characters. -/
theorem digit_count_spec_witness :
    1 ≤ 1000 ∧ (10 ^ (digit_count 1000 - 1) ≤ 1000 ∧ 1000 < 10 ^ digit_count 1000) ∧
    99 ≤ 100 ∧ digit_count 99 ≤ digit_count 100 ∧
    gamma_new 3 1 12 1 = some (board 3 1 12 1) ∧ (board 3 1 12 1).frame = digit_count 12 ∧
    1 ≤ 7 ∧ 7 ≤ 12 ∧
    (digit_count 7 ≤ digit_count 12 ∧ (Nat.toDigits 10 7).length ≤ digit_count 12) :=
  ⟨by decide, digit_count_spec.2.1 1000 (by decide), by decide,
    digit_count_spec.2.2.1 99 100 (by decide), rfl,
    digit_count_spec.2.2.2.1 3 1 12 1 (board 3 1 12 1) rfl, by decide, by decide,
    digit_count_spec.2.2.2.2 7 12 (by decide) (by decide)⟩

/-! ## Reading the owner of a field -/

/-- Embeds `get_owner`: the read `g->owner[y][x]` with `int` indices and no
test of the range.  The grid that `initialize_board` allocates is `height`
rows of `width` fields; `none` stands for a read outside of it, which C leaves
undefined. -/
def get_owner (g : gamma_t) (x y : Int) : Option Nat :=
  if 0 ≤ y ∧ y < g.height ∧ 0 ≤ x ∧ x < g.width then some (g.owner y.toNat x.toNat) else none

/-- The board of 2 by 2 fields after `gamma_move(1, 0, 0)`. -/
def square_one : gamma_t := run_calls (board 2 2 2 1) [Call.move 1 0 0]

/-- C28 at the failing input: on the board `square_one` of width 2 and height
2, `get_owner` returns the owner for coordinates on the board, but the calls
`get_owner(g, 2, 0)`, `get_owner(g, 0, 2)`, `get_owner(g, -1, 0)` and
`get_owner(g, 0, -1)` read outside the grid instead of returning 0. -/
theorem get_owner_reads_outside :
    square_one.width = 2 ∧ square_one.height = 2 ∧
    get_owner square_one 0 0 = some 1 ∧ get_owner square_one 1 1 = some 0 ∧
    get_owner square_one 2 0 = none ∧ get_owner square_one 0 2 = none ∧
    get_owner square_one (-1) 0 = none ∧ get_owner square_one 0 (-1) = none ∧
    get_owner square_one 2 0 ≠ some 0 := by
  decide

/-! ## The cursor of the interactive mode -/

/-- Modelled from the spec: the cursor of the interactive session, the fields
`x` and `y` of `struct gamma`, whose declaration in `gamma.h` is not among the
sources; the spec keeps the cursor in a session object apart from the board.
The coordinates are `uint32_t`, like the sizes `move_cursor` compares them
with. -/
structure cursor_t where
  x : Nat
  y : Nat

/-- The cursor that `initiate` sets on the new game: `x = 0`, `y = 0`. -/
def initiate : cursor_t := ⟨0, 0⟩

/-- Embeds the updates of the cursor in `move_cursor`; `c` is the value of
`getchar()` (65 is `A`, 66 is `B`, 67 is `C`, 68 is `D`); the output to the
terminal is left out. -/
def move_cursor (g : gamma_t) (s : cursor_t) (c : Int) : cursor_t :=
  if c = 65 ∧ s.y < sub32 g.height 1 then { s with y := add32 s.y 1 }
  else if c = 66 ∧ s.y > 0 then { s with y := sub32 s.y 1 }
  else if c = 67 ∧ s.x < sub32 g.width 1 then { s with x := add32 s.x 1 }
  else if c = 68 ∧ s.x > 0 then { s with x := sub32 s.x 1 }
  else s

/-- The conversion of a `uint32_t` argument to an `int` parameter: values from
`2^31` on become negative. -/
def to_int (n : Nat) : Int :=
  if n < 2147483648 then (n : Int) else (n : Int) - 4294967296

/-- The first statement of `print_field`: `get_owner(g, g->x, g->y)`. -/
def print_field (g : gamma_t) (s : cursor_t) : Option Nat :=
  get_owner g (to_int s.x) (to_int s.y)

/-- Embeds `max` of `interactive_mode.c`. -/
def max (x y : Nat) : Nat :=
  if x > y then x else y

/-- Embeds `check_terminal_size`; `ws_col` and `ws_row` are the sizes of the
terminal that `ioctl` reports (`unsigned short`).  The products and sums of
the `uint32_t` fields are taken in `uint32_t`; `digit_count` of
`interactive_mode.c` has the body of `digit_count` of `gamma.c`. -/
def check_terminal_size (g : gamma_t) (ws_col ws_row : Nat) : Bool :=
  decide (ws_col ≥ max ((g.frame * g.width) % UINT32_SIZE)
    (add32 (add32 11 g.frame)
      ((2 * digit_count ((g.width * g.height) % UINT32_SIZE)) % UINT32_SIZE))) &&
  decide (ws_row ≥ add32 g.height g.player_count)

/-- The cursor in a run of `interactive_mode` on a terminal of `ws_col` columns
and `ws_row` rows, after the keys `keys` have been processed by `move_cursor`
one by one from the initial cursor; `none` when `check_terminal_size` fails
and `interactive_mode` returns before it reads a key. -/
def cursor_after (g : gamma_t) (ws_col ws_row : Nat) (keys : List Int) : Option cursor_t :=
  if check_terminal_size g ws_col ws_row = true then some (keys.foldl (move_cursor g) initiate)
  else none

theorem move_cursor_bounds (g : gamma_t) (hw : g.width < UINT32_SIZE)
    (hh : g.height < UINT32_SIZE) (s : cursor_t) (c : Int)
    (hx : s.x < g.width) (hy : s.y < g.height) :
    (move_cursor g s c).x < g.width ∧ (move_cursor g s c).y < g.height := by
  unfold move_cursor
  have e1 : sub32 g.width 1 = g.width - 1 := sub32_one g.width (by omega) hw
  have e2 : sub32 g.height 1 = g.height - 1 := sub32_one g.height (by omega) hh
  rw [e1, e2]
  unfold UINT32_SIZE at hw hh
  by_cases h1 : c = 65 ∧ s.y < g.height - 1
  · rw [if_pos h1]
    refine ⟨hx, ?_⟩
    show add32 s.y 1 < g.height
    unfold add32 UINT32_SIZE
    omega
  rw [if_neg h1]
  by_cases h2 : c = 66 ∧ s.y > 0
  · rw [if_pos h2]
    refine ⟨hx, ?_⟩
    show sub32 s.y 1 < g.height
    rw [sub32_one s.y (by omega) (by unfold UINT32_SIZE; omega)]
    omega
  rw [if_neg h2]
  by_cases h3 : c = 67 ∧ s.x < g.width - 1
  · rw [if_pos h3]
    refine ⟨?_, hy⟩
    show add32 s.x 1 < g.width
    unfold add32 UINT32_SIZE
    omega
  rw [if_neg h3]
  by_cases h4 : c = 68 ∧ s.x > 0
  · rw [if_pos h4]
    refine ⟨?_, hy⟩
    show sub32 s.x 1 < g.width
    rw [sub32_one s.x (by omega) (by unfold UINT32_SIZE; omega)]
    omega
  rw [if_neg h4]
  exact ⟨hx, hy⟩

theorem cursor_bounds (g : gamma_t) (hw : g.width < UINT32_SIZE) (hh : g.height < UINT32_SIZE)
    (keys : List Int) : ∀ s : cursor_t, s.x < g.width → s.y < g.height →
      (keys.foldl (move_cursor g) s).x < g.width ∧
      (keys.foldl (move_cursor g) s).y < g.height := by
  induction keys with
  | nil => intro s hx hy; exact ⟨hx, hy⟩
  | cons c keys ih =>
    intro s hx hy
    obtain ⟨h1, h2⟩ := move_cursor_bounds g hw hh s c hx hy
    exact ih _ h1 h2

/-- The key `C` pressed `k` times moves the cursor `k` fields to the right
while the board has room. -/
theorem cursor_right (g : gamma_t) (hw : g.width < UINT32_SIZE) (k : Nat) :
    ∀ s : cursor_t, s.x + k < g.width →
      (List.replicate k (67 : Int)).foldl (move_cursor g) s = { s with x := s.x + k } := by
  induction k with
  | zero => intro s _; rfl
  | succ k ih =>
    intro s hs
    rw [List.replicate_succ, List.foldl_cons]
    have e1 : sub32 g.width 1 = g.width - 1 := sub32_one g.width (by omega) hw
    have hstep : move_cursor g s 67 = { s with x := s.x + 1 } := by
      unfold move_cursor
      rw [if_neg (fun h => absurd h.1 (by decide)), if_neg (fun h => absurd h.1 (by decide)),
        if_pos ⟨rfl, by rw [e1]; omega⟩]
      show ({ x := add32 s.x 1, y := s.y } : cursor_t) = _
      have : add32 s.x 1 = s.x + 1 := by
        unfold add32
        apply Nat.mod_eq_of_lt
        omega
      rw [this]
    rw [hstep, ih _ (by show s.x + 1 + k < g.width; omega)]
    show ({ x := s.x + 1 + k, y := s.y } : cursor_t) = { x := s.x + (k + 1), y := s.y }
    rw [Nat.add_assoc, Nat.add_comm 1 k]

/-- A board of 2147483649 by 1 fields for 10 players: the frame is 2, and the
product `frame * width` wraps to 2 in `uint32_t`. -/
def wide : gamma_t := board 2147483649 1 10 1

/-- C30 at the failing input: the board `wide` is made by
`gamma_new(2147483649, 1, 10, 1)`; on a terminal of 80 columns and 24 rows
`check_terminal_size` passes (`frame * width` wraps to 2), so
`interactive_mode` reads the keys; after the key `C` pressed 2147483648 times
the cursor is at `x = 2147483648`, `y = 0`, which is on the board, but the
call `get_owner(g, g->x, g->y)` of `print_field` gets the `int` -2147483648
for `x` and reads outside the grid. -/
theorem print_field_reads_outside :
    gamma_new 2147483649 1 10 1 = some wide ∧ wide.frame = 2 ∧
    check_terminal_size wide 80 24 = true ∧
    ∃ s, cursor_after wide 80 24 (List.replicate 2147483648 67) = some s ∧
      s.x = 2147483648 ∧ s.y = 0 ∧ s.x < wide.width ∧ s.y < wide.height ∧
      to_int s.x = -2147483648 ∧ print_field wide s = none := by
  have hcheck : check_terminal_size wide 80 24 = true := by decide
  refine ⟨rfl, by decide, hcheck, ⟨2147483648, 0⟩, ?_, rfl, rfl, by decide, by decide, by decide,
    by decide⟩
  unfold cursor_after
  rw [if_pos hcheck, cursor_right wide (by decide) 2147483648 initiate (by decide)]
  rfl

theorem print_field_on_board (g : gamma_t) (s : cursor_t) (hx : s.x < g.width)
    (hy : s.y < g.height) (hw : g.width ≤ 2147483648) (hh : g.height ≤ 2147483648) :
    print_field g s = some (g.owner s.y s.x) := by
  unfold print_field to_int get_owner
  rw [if_pos (by omega), if_pos (by omega), if_pos (by omega)]
  simp

/-- The cursor in a run of `interactive_mode`: after any sequence of keys
processed by `move_cursor` the cursor satisfies `x < width` and `y < height`;
a key that would leave the board, or any character other than `A`, `B`, `C`,
`D`, leaves the cursor unchanged; and on a board whose width and height are at
most `2^31` the call `get_owner(g, g->x, g->y)` of `print_field` reads the
owner of the field under the cursor, inside the grid. -/
theorem cursor_stays_on_board (g : gamma_t) (hw1 : 1 ≤ g.width) (hw : g.width < UINT32_SIZE)
    (hh1 : 1 ≤ g.height) (hh : g.height < UINT32_SIZE) (ws_col ws_row : Nat)
    (keys : List Int) (s : cursor_t) (hs : cursor_after g ws_col ws_row keys = some s) :
    s.x < g.width ∧ s.y < g.height ∧
    (∀ c : Int, (c = 65 → s.y + 1 = g.height) → (c = 66 → s.y = 0) →
      (c = 67 → s.x + 1 = g.width) → (c = 68 → s.x = 0) → move_cursor g s c = s) ∧
    (g.width ≤ 2147483648 → g.height ≤ 2147483648 →
      print_field g s = some (g.owner s.y s.x)) := by
  have e : s = keys.foldl (move_cursor g) initiate := by
    unfold cursor_after at hs
    by_cases hc : check_terminal_size g ws_col ws_row = true
    · rw [if_pos hc] at hs
      exact (Option.some.inj hs).symm
    · rw [if_neg hc] at hs
      exact absurd hs (by simp)
  obtain ⟨hx, hy⟩ := cursor_bounds g hw hh keys initiate (by show 0 < g.width; omega)
    (by show 0 < g.height; omega)
  rw [← e] at hx hy
  refine ⟨hx, hy, ?_, fun h1 h2 => print_field_on_board g _ hx hy h1 h2⟩
  intro c hA hB hC hD
  have e1 : sub32 g.width 1 = g.width - 1 := sub32_one g.width hw1 hw
  have e2 : sub32 g.height 1 = g.height - 1 := sub32_one g.height hh1 hh
  unfold move_cursor
  rw [e1, e2]
  rw [if_neg (fun h => by have := hA h.1; omega), if_neg (fun h => by have := hB h.1; omega),
    if_neg (fun h => by have := hC h.1; omega), if_neg (fun h => by have := hD h.1; omega)]

/-- The cursor at a concrete input: on the board of 2 by 2 fields, on a
terminal of 80 by 24, the keys `A`, `A`, `C` leave the cursor at (1, 1), where
`A` and `C` would leave the board. -/
theorem cursor_stays_on_board_witness :
    1 ≤ square_one.width ∧ square_one.width < UINT32_SIZE ∧
    1 ≤ square_one.height ∧ square_one.height < UINT32_SIZE ∧
    cursor_after square_one 80 24 [65, 65, 67] = some ⟨1, 1⟩ ∧
    move_cursor square_one ⟨1, 1⟩ 65 = ⟨1, 1⟩ ∧
    print_field square_one ⟨1, 1⟩ = some (square_one.owner 1 1) :=
  ⟨by decide, by decide, by decide, by decide, rfl,
    (cursor_stays_on_board square_one (by decide) (by decide) (by decide) (by decide) 80 24
      [65, 65, 67] ⟨1, 1⟩ rfl).2.2.1 65 (fun _ => by decide) (fun h => absurd h (by decide))
      (fun h => absurd h (by decide)) (fun h => absurd h (by decide)),
    (cursor_stays_on_board square_one (by decide) (by decide) (by decide) (by decide) 80 24
      [65, 65, 67] ⟨1, 1⟩ rfl).2.2.2 (by decide) (by decide)⟩

/-! ## The fragment count of the tentative seizure -/

/-- C21, refuted as stated: in the reachable state `wrapped` the field (2, 0)
of player 1 passes the parameter check for player 2, the other fields of
player 1 that touch it form 3 areas, and `distinct_neighbour_count` in the
tentative state is 1. -/
theorem fragment_count_misses_after_wrap :
    Reachable wrapped ∧ check_golden_move_parameters wrapped 2 2 0 = true ∧
    wrapped.owner 0 2 = 1 ∧
    AreaCountOf ((owned_by wrapped 1).erase (2, 0))
      (nbrs ((owned_by wrapped 1).erase (2, 0)) (2, 0)) 3 ∧
    distinct_neighbour_count (tentative wrapped 2 2 0) 1 2 0 = 1 ∧
    ¬ AreaCountOf ((owned_by wrapped 1).erase (2, 0))
      (nbrs ((owned_by wrapped 1).erase (2, 0)) (2, 0))
      (distinct_neighbour_count (tentative wrapped 2 2 0) 1 2 0) := by
  have hcount : distinct_neighbour_count (tentative wrapped 2 2 0) 1 2 0 = 1 := by
    rw [wrapped_eq]; decide
  refine ⟨reachable_wrapped, ?_, ?_, wrapped_arms_count, hcount, ?_⟩
  · rw [wrapped_eq]; decide
  · rw [wrapped_eq]; decide
  · rw [hcount]
    intro h1
    have := wrapped_arms_count.unique h1
    omega

/-- C21, amended: in every state reachable without a wrap of the label
counter, for every field (x, y) owned by `q` that passes the parameter check
for the mover `p`, if the four fresh labels are drawn without wrapping, then
`distinct_neighbour_count(q, x, y)` in the tentative state (the field given to
`p`, `merge_areas` run from the left, right, lower and upper neighbour) is the
number of areas of the other fields of `q` that contain a 4-neighbour of
(x, y); it is at most 4, and 0 when no field of `q` is next to (x, y). -/
theorem fragment_count (g : gamma_t) (h : ReachableNW g) (p x y : Nat)
    (hc : check_golden_move_parameters g p x y = true)
    (hn : g.next_id + 3 < UINT32_SIZE) :
    AreaCountOf ((owned_by g (g.owner y x)).erase (x, y))
      (nbrs ((owned_by g (g.owner y x)).erase (x, y)) (x, y))
      (distinct_neighbour_count (tentative g p x y) (g.owner y x) x y) ∧
    distinct_neighbour_count (tentative g p x y) (g.owner y x) x y ≤ 4 ∧
    (nbrs ((owned_by g (g.owner y x)).erase (x, y)) (x, y) = ∅ →
      distinct_neighbour_count (tentative g p x y) (g.owner y x) x y = 0) := by
  have sf := tentative_facts g p x y h.sound hc hn
  have e : distinct_neighbour_count (tentative g p x y) (g.owner y x) x y =
      ((nbrs ((owned_by g (g.owner y x)).erase (x, y)) (x, y)).image
        (lab (tentative g p x y))).card := sf.split_count_eq
  rw [e]
  refine ⟨sf.areas.area_count_of _ (Finset.filter_subset _ _),
    card_image_nbrs_le_four _ _ _, ?_⟩
  intro hempty
  rw [hempty]
  rfl

/-- C21, amended, at a concrete input: the golden move of player 2 onto the
middle of the full row of player 1 finds 2 fragments. -/
theorem fragment_count_witness :
    ReachableNW row3_full ∧ check_golden_move_parameters row3_full 2 1 0 = true ∧
    row3_full.next_id + 3 < UINT32_SIZE ∧
    distinct_neighbour_count (tentative row3_full 2 1 0) (row3_full.owner 0 1) 1 0 = 2 ∧
    AreaCountOf ((owned_by row3_full (row3_full.owner 0 1)).erase (1, 0))
      (nbrs ((owned_by row3_full (row3_full.owner 0 1)).erase (1, 0)) (1, 0))
      (distinct_neighbour_count (tentative row3_full 2 1 0) (row3_full.owner 0 1) 1 0) :=
  ⟨reachableNW_row3_full, by decide, by decide, by decide,
    (fragment_count row3_full reachableNW_row3_full 2 1 0 (by decide) (by decide)).1⟩

/-! ## The labels after a seizure is taken back -/

/-- On a board of 4 by 2 fields with 4 players and area limit 2: player 1
takes (2, 0), which gets the label 1, player 3 the corner (0, 0), player 1 the
field (3, 1) as a second area with the label 3, and player 4 the field (1, 1). -/
def fuse_prefix : List Call :=
  [Call.move 1 2 0, Call.move 3 0 0, Call.move 1 3 1, Call.move 4 1 1]

/-- The state after `fuse_prefix`: the label counter is 5. -/
def fuse_base : gamma_t := run_calls (board 4 2 4 2) fuse_prefix

/-- After `fuse_prefix`, player 2 asks `gamma_golden_possible` 1073741823
times; the counter runs from 5 through 2^32 to 1, the label of (2, 0). -/
def fuse_calls : List Call :=
  fuse_prefix ++ List.replicate 1073741823 (Call.golden_possible 2)

/-- The state after `fuse_calls`. -/
def fuse : gamma_t := run_calls (board 4 2 4 2) fuse_calls

theorem fuse_base_lone : LoneField fuse_base 2 0 0 :=
  ⟨by decide, by decide, by decide, by decide, by decide, by decide, by decide, by decide,
    by decide, by decide, by decide⟩

theorem fuse_eq : fuse = burnt fuse_base 4294967293 1 := by
  unfold fuse fuse_calls
  rw [run_calls_append]
  show run_calls fuse_base (List.replicate (1073741822 + 1) (Call.golden_possible 2)) = _
  rw [burn_from fuse_base_lone 1073741822 (by decide)]
  have e1 : (fuse_base.next_id + 4 * 1073741822) % UINT32_SIZE = 4294967293 := by decide
  have e2 : (fuse_base.next_id + 4 * (1073741822 + 1)) % UINT32_SIZE = 1 := by decide
  rw [e1, e2]

theorem reachable_fuse : Reachable fuse :=
  (reachable_board 4 2 4 2 (by decide) (by decide) (by decide) (by decide)
    (by decide)).after_calls _

/-- C22, refuted as stated: in the reachable state `fuse` the fields (2, 0) and
(3, 1) of player 1 carry different labels; the probe of (3, 1) by player 2
passes the parameter check and takes the revert path, and afterwards the two
fields carry the same label. -/
theorem revert_joins_labels_after_wrap :
    Reachable fuse ∧ check_golden_move_parameters fuse 2 3 1 = true ∧
    fuse.owner 0 2 = 1 ∧ fuse.owner 1 3 = 1 ∧
    fuse.area_id 0 2 ≠ fuse.area_id 1 3 ∧
    (golden_move_possible fuse 2 3 1 true).1.area_id 0 2 =
      (golden_move_possible fuse 2 3 1 true).1.area_id 1 3 := by
  refine ⟨reachable_fuse, ?_⟩
  rw [fuse_eq]
  decide

/-- C22, amended: in every state reachable without a wrap of the label
counter, a call of `golden_move_possible` that passes the parameter check,
does not wrap the label counter and takes the revert path (`always_reverse`
set, or the area count of the previous owner `q` would exceed the limit)
leaves the owner of every field as before; afterwards all fields of the area
of `q` that contains (x, y) carry the label of (x, y), and two fields of the
board with the same owner carry equal labels exactly when they did before. -/
theorem revert_refuses (g : gamma_t) (h : ReachableNW g) (p x y : Nat) (always_reverse : Bool)
    (hc : check_golden_move_parameters g p x y = true)
    (hn : g.next_id + 4 < UINT32_SIZE)
    (hrev : always_reverse = true ∨ split_ok g p x y = false) :
    (golden_move_possible g p x y always_reverse).1.owner = g.owner ∧
    (∀ u ∈ cells g, g.owner u.2 u.1 = g.owner y x →
      Conn (owned_by g (g.owner y x)) (x, y) u →
      (golden_move_possible g p x y always_reverse).1.area_id u.2 u.1 =
        (golden_move_possible g p x y always_reverse).1.area_id y x) ∧
    (∀ u ∈ cells g, ∀ v ∈ cells g, g.owner u.2 u.1 = g.owner v.2 v.1 →
      ((golden_move_possible g p x y always_reverse).1.area_id u.2 u.1 =
          (golden_move_possible g p x y always_reverse).1.area_id v.2 v.1 ↔
        g.area_id u.2 u.1 = g.area_id v.2 v.1)) := by
  have hs := h.sound
  have e : (golden_move_possible g p x y always_reverse).1 = reverted g p x y := by
    rw [golden_move_possible_eq g p x y always_reverse hc, if_pos hrev]
  rw [e]
  have hs' := hs.after_revert p x y hc hn
  have hst := reverted_same_stats g p x y
  have ho := reverted_owner g p x y
  have hcells : cells (reverted g p x y) = cells g := cells_congr hst.1 hst.2.1
  have hsets : ∀ r, owned_by (reverted g p x y) r = owned_by g r :=
    fun r => owned_by_congr hst.1 hst.2.1 ho r
  have key : ∀ u ∈ cells g, ∀ v ∈ cells g, g.owner u.2 u.1 = g.owner v.2 v.1 →
      g.owner v.2 v.1 ≠ 0 →
      ((lab (reverted g p x y) u = lab (reverted g p x y) v ↔
          Conn (owned_by g (g.owner v.2 v.1)) u v) ∧
        (lab g u = lab g v ↔ Conn (owned_by g (g.owner v.2 v.1)) u v)) := by
    intro u hu v hv hsame hne
    have hr2 := hs.counted.owner_le v hv
    have hu' := (mem_owned_by g _ u).2 ⟨hu, hsame⟩
    have hv' := (mem_owned_by g _ v).2 ⟨hv, rfl⟩
    have h1 := (hs'.players (g.owner v.2 v.1) (by omega) (by rw [hst.2.2.1]; exact hr2)).1
    rw [hsets] at h1
    exact ⟨h1 u hu' v hv', (hs.players (g.owner v.2 v.1) (by omega) hr2).1 u hu' v hv'⟩
  obtain ⟨-, hx, hy, -, -, hnobody, -⟩ := check_true g p x y hc
  have hcell : (x, y) ∈ cells g := (mem_cells g x y).2 ⟨hx, hy⟩
  refine ⟨ho, ?_, ?_⟩
  · intro u hu hou hconn
    have := (key u hu (x, y) hcell hou hnobody).1
    exact this.2 hconn.symm
  · intro u hu v hv hsame
    by_cases hz : g.owner v.2 v.1 = 0
    · have a1 := hs.labelled.free u hu (hsame.trans hz)
      have a2 := hs.labelled.free v hv hz
      have b1 := hs'.labelled.free u (by rw [hcells]; exact hu)
        (by rw [ho]; exact hsame.trans hz)
      have b2 := hs'.labelled.free v (by rw [hcells]; exact hv) (by rw [ho]; exact hz)
      unfold lab at a1 a2 b1 b2
      rw [a1, a2, b1, b2]
    · obtain ⟨k1, k2⟩ := key u hu v hv hsame hz
      exact k1.trans k2.symm

/-- C22, amended, at a concrete input: the rejected golden move of player 2
onto the middle of the full row of player 1. -/
theorem revert_refuses_witness :
    ReachableNW row3_full ∧ check_golden_move_parameters row3_full 2 1 0 = true ∧
    row3_full.next_id + 4 < UINT32_SIZE ∧
    (false = true ∨ split_ok row3_full 2 1 0 = false) ∧
    (golden_move_possible row3_full 2 1 0 false).1.owner = row3_full.owner ∧
    (golden_move_possible row3_full 2 1 0 false).1.area_id 0 0 =
      (golden_move_possible row3_full 2 1 0 false).1.area_id 0 1 :=
  ⟨reachableNW_row3_full, by decide, by decide, by decide,
    (revert_refuses row3_full reachableNW_row3_full 2 1 0 false (by decide) (by decide)
      (by decide)).1,
    (revert_refuses row3_full reachableNW_row3_full 2 1 0 false (by decide) (by decide)
      (by decide)).2.1 (0, 0) (by decide) (by decide)
      (Conn.single (by decide) (by decide) (by decide))⟩

/-! ## What `merge_areas` changes -/

/-- The fields of the board owned by `player` (a field whose owner is `NOBODY`
is owned by no player) whose label is not among `ids[0..length-1]`. -/
def unmarked (g : gamma_t) (player : Nat) (ids : List Nat) (length : Nat) :
    Finset (Nat × Nat) :=
  (cells g).filter (fun c => player ≠ NOBODY ∧ g.owner c.2 c.1 = player ∧
    g.area_id c.2 c.1 ∉ ids.take length)

theorem skip_id_iff (ids : List Nat) (length l : Nat) (h : length ≤ ids.length) :
    skip_id ids length l = true ↔ l ∈ ids.take length := by
  unfold skip_id
  rw [List.any_eq_true, List.mem_take_iff_getElem]
  constructor
  · rintro ⟨i, hi, heq⟩
    have hi' : i < length := List.mem_range.1 hi
    have hlt : i < ids.length := by omega
    refine ⟨i, by omega, ?_⟩
    rw [List.getD_eq_getElem ids 0 hlt] at heq
    exact (beq_iff_eq.1 heq).symm
  · rintro ⟨i, hm, heq⟩
    have hb : i < length ∧ i < ids.length := by omega
    refine ⟨i, List.mem_range.2 hb.1, ?_⟩
    rw [List.getD_eq_getElem ids 0 hb.2, heq]
    simp

theorem unmarked_eq_free_cells (g : gamma_t) (player : Nat) (ids : List Nat) (length : Nat)
    (hp : player_correct g player = true) (hids : length ≤ ids.length) :
    unmarked g player ids length = free_cells g player ids length := by
  obtain ⟨hp1, -⟩ := (player_correct_iff g player).1 hp
  unfold unmarked free_cells NOBODY
  apply Finset.filter_congr
  intro c _
  have := skip_id_iff ids length (g.area_id c.2 c.1) hids
  constructor
  · rintro ⟨-, h1, h2⟩
    refine ⟨h1, ?_⟩
    rw [← Bool.not_eq_true, this]
    exact h2
  · rintro ⟨h1, h2⟩
    refine ⟨by omega, h1, ?_⟩
    rw [← this, h2]
    simp

theorem unmarked_eq_empty (g : gamma_t)
    (hown : ∀ c ∈ cells g, g.owner c.2 c.1 ≤ g.player_count) (player : Nat) (ids : List Nat)
    (length : Nat) (hp : player_correct g player = false) :
    unmarked g player ids length = ∅ := by
  unfold unmarked NOBODY
  apply Finset.filter_eq_empty_iff.2
  intro c hcell
  rintro ⟨h0, h1, -⟩
  have := hown c hcell
  have hv : player_correct g player = true := (player_correct_iff g player).2 ⟨by omega, by omega⟩
  rw [hp] at hv
  exact absurd hv (by simp)

theorem merge_areas_of_invalid (g : gamma_t) (player x y : Nat) (ids : List Nat) (length : Nat)
    (hp : player_correct g player = false) : merge_areas g player x y ids length = g := by
  unfold merge_areas merge_areas_fuel
  rw [if_pos (Or.inl hp)]
  rfl

/-- The flood in terms of the fields of `player` with an unmarked label, for a
valid player on any board and for any player id on a board whose owners are
players or `NOBODY`. -/
theorem merge_areas_unmarked (g : gamma_t) (player x y : Nat) (ids : List Nat) (length : Nat)
    (hw : g.width < UINT32_SIZE) (hh : g.height < UINT32_SIZE)
    (hg : player_correct g player = true ∨
      ∀ c ∈ cells g, g.owner c.2 c.1 ≤ g.player_count)
    (hlen : 1 ≤ length) (hids : length ≤ ids.length) :
    ∃ a, merge_areas g player x y ids length = with_area_id g a ∧
      ∀ c : Nat × Nat,
        (Reach (unmarked g player ids length) (x, y) c →
          a c.2 c.1 = ids.getD (length - 1) 0) ∧
        (¬ Reach (unmarked g player ids length) (x, y) c → a c.2 c.1 = g.area_id c.2 c.1) := by
  cases hp : player_correct g player
  · have hown : ∀ c ∈ cells g, g.owner c.2 c.1 ≤ g.player_count := by
      rcases hg with h | h
      · rw [hp] at h
        exact absurd h (by simp)
      · exact h
    refine ⟨g.area_id, merge_areas_of_invalid g player x y ids length hp, ?_⟩
    intro c
    refine ⟨?_, fun _ => rfl⟩
    intro hr
    have := hr.1
    rw [unmarked_eq_empty g hown player ids length hp] at this
    exact absurd this (Finset.not_mem_empty _)
  · rw [unmarked_eq_free_cells g player ids length hp hids]
    exact merge_areas_spec g player x y ids length hp hlen hw hh

/-- C23: on every board (the sizes are `uint32_t`; `player` is a valid player,
or the owners on the board are players or `NOBODY`, as they are in every state
the calls produce, also between the steps of a call),
`merge_areas(g, player, x, y, ids, length)` with `length >= 1` changes only
labels: exactly the fields reached from (x, y) by a path of neighbouring
fields (the field (x, y) included) that are owned by `player` and carry a
label not among `ids[0..length-1]` change their label, each to
`ids[length-1]`; every other field keeps its label; if (x, y) is off the
board, not owned by `player` or labelled with one of `ids[0..length-1]`,
nothing changes; owners and counters are never modified; for a player id that
is not valid the call changes nothing. -/
theorem merge_areas_relabels (g : gamma_t) (player x y : Nat) (ids : List Nat) (length : Nat)
    (hw : g.width < UINT32_SIZE) (hh : g.height < UINT32_SIZE)
    (hg : player_correct g player = true ∨
      ∀ c ∈ cells g, g.owner c.2 c.1 ≤ g.player_count)
    (hlen : 1 ≤ length) (hids : length ≤ ids.length) :
    (merge_areas g player x y ids length).owner = g.owner ∧
    same_stats g (merge_areas g player x y ids length) ∧
    (merge_areas g player x y ids length).next_id = g.next_id ∧
    (∀ c : Nat × Nat, Reach (unmarked g player ids length) (x, y) c →
      (merge_areas g player x y ids length).area_id c.2 c.1 = ids.getD (length - 1) 0 ∧
      (merge_areas g player x y ids length).area_id c.2 c.1 ≠ g.area_id c.2 c.1) ∧
    (∀ c : Nat × Nat, ¬ Reach (unmarked g player ids length) (x, y) c →
      (merge_areas g player x y ids length).area_id c.2 c.1 = g.area_id c.2 c.1) ∧
    ((x ≥ g.width ∨ y ≥ g.height ∨ g.owner y x ≠ player ∨
        g.area_id y x ∈ ids.take length) →
      merge_areas g player x y ids length = g) ∧
    (player_correct g player = false → merge_areas g player x y ids length = g) := by
  obtain ⟨a, e, r⟩ := merge_areas_unmarked g player x y ids length hw hh hg hlen hids
  refine ⟨merge_areas_owner g player x y ids length,
    merge_areas_same_stats g player x y ids length,
    merge_areas_next_id g player x y ids length, ?_, ?_, ?_,
    merge_areas_of_invalid g player x y ids length⟩
  · intro c hr
    rw [e]
    have ht : (with_area_id g a).area_id c.2 c.1 = ids.getD (length - 1) 0 := (r c).1 hr
    refine ⟨ht, ?_⟩
    rw [ht]
    have hmem := hr.mem_free
    unfold unmarked at hmem
    have hold := (Finset.mem_filter.1 hmem).2.2.2
    intro heq
    apply hold
    rw [← heq, List.mem_take_iff_getElem]
    have hlt : length - 1 < ids.length := by omega
    exact ⟨length - 1, by omega, (List.getD_eq_getElem ids 0 hlt).symm⟩
  · intro c hr
    rw [e]
    exact (r c).2 hr
  · intro hout
    have hnot : (x, y) ∉ unmarked g player ids length := by
      intro hmem
      unfold unmarked at hmem
      obtain ⟨hcell, -, ho, hl⟩ := Finset.mem_filter.1 hmem
      obtain ⟨hx, hy⟩ := (mem_cells g x y).1 hcell
      rcases hout with h1 | h1 | h1 | h1
      · omega
      · omega
      · exact h1 ho
      · exact hl h1
    have ha : a = g.area_id := by
      funext y' x'
      exact (r (x', y')).2 (fun hr => hnot hr.1)
    rw [e, ha]
    rfl

/-- C23 at concrete inputs: the first flood of `golden_move_possible` for the
golden move of player 2 onto the middle of the full row of player 1, run on
the state `seized` between the steps of the call, gives the field (0, 0) the
fresh label 4; and on the full row itself the flood from (0, 0) with
`ids = [7]` reaches the field (2, 0). -/
theorem merge_areas_relabels_witness :
    (seized row3_full 2 1 0).width < UINT32_SIZE ∧
    (seized row3_full 2 1 0).height < UINT32_SIZE ∧
    player_correct (seized row3_full 2 1 0) 1 = true ∧
    fresh_ids row3_full = [4, 5, 6, 7] ∧
    Reach (unmarked (seized row3_full 2 1 0) 1 (fresh_ids row3_full) 1) (0, 0) (0, 0) ∧
    ((merge_areas (seized row3_full 2 1 0) 1 0 0 (fresh_ids row3_full) 1).area_id 0 0 = 4 ∧
      (merge_areas (seized row3_full 2 1 0) 1 0 0 (fresh_ids row3_full) 1).area_id 0 0 ≠
        (seized row3_full 2 1 0).area_id 0 0) ∧
    Reach (unmarked row3_full 1 [7] 1) (0, 0) (2, 0) ∧
    ((merge_areas row3_full 1 0 0 [7] 1).area_id 0 2 = 7 ∧
      (merge_areas row3_full 1 0 0 [7] 1).area_id 0 2 ≠ row3_full.area_id 0 2) :=
  ⟨by decide, by decide, by decide, by decide,
    ⟨by decide, Conn.rfl' _ _⟩,
    (merge_areas_relabels (seized row3_full 2 1 0) 1 0 0 (fresh_ids row3_full) 1 (by decide)
      (by decide) (Or.inl (by decide)) (by decide) (by decide)).2.2.2.1 (0, 0)
      ⟨by decide, Conn.rfl' _ _⟩,
    ⟨by decide, (Conn.single (by decide) (by decide) (by decide)).trans
      (Conn.single (by decide) (by decide) (by decide) : Conn _ (1, 0) (2, 0))⟩,
    (merge_areas_relabels row3_full 1 0 0 [7] 1 (by decide) (by decide) (Or.inl (by decide))
      (by decide) (by decide)).2.2.2.1 (2, 0)
      ⟨by decide, (Conn.single (by decide) (by decide) (by decide)).trans
        (Conn.single (by decide) (by decide) (by decide) : Conn _ (1, 0) (2, 0))⟩⟩

/-! ## Termination of `merge_areas` -/

/-- The function `merge_areas_fuel` together with the number of assignments
`g->area_id[y][x] = ids[length - 1]` made by the call and the calls below it. -/
def merge_areas_steps :
    Nat → gamma_t → Nat → Nat → Nat → List Nat → Nat → Option (gamma_t × Nat)
  | 0, _, _, _, _, _, _ => none
  | fuel + 1, g, player, x, y, ids, length =>
    if player_correct g player = false ∨ x ≥ g.width ∨ y ≥ g.height ∨ length < 1 then
      some (g, 0)
    else if g.owner y x ≠ player then some (g, 0)
    else if skip_id ids length (g.area_id y x) = true then some (g, 0)
    else
      let g0 := with_area_id g (set2 g.area_id y x (ids.getD (length - 1) 0))
      match merge_areas_steps fuel g0 player (sub32 x 1) y ids length with
      | none => none
      | some r1 =>
        match merge_areas_steps fuel r1.1 player (add32 x 1) y ids length with
        | none => none
        | some r2 =>
          match merge_areas_steps fuel r2.1 player x (sub32 y 1) ids length with
          | none => none
          | some r3 =>
            match merge_areas_steps fuel r3.1 player x (add32 y 1) ids length with
            | none => none
            | some r4 => some (r4.1, 1 + r1.2 + r2.2 + r3.2 + r4.2)

/-- Counting the assignments does not change what `merge_areas_fuel` computes. -/
theorem merge_areas_steps_state (fuel : Nat) : ∀ (g : gamma_t) (player x y : Nat)
    (ids : List Nat) (length : Nat),
    (merge_areas_steps fuel g player x y ids length).map Prod.fst =
      merge_areas_fuel fuel g player x y ids length := by
  induction fuel with
  | zero => intro g player x y ids length; rfl
  | succ fuel ih =>
    intro g player x y ids length
    unfold merge_areas_steps merge_areas_fuel
    by_cases h1 : player_correct g player = false ∨ x ≥ g.width ∨ y ≥ g.height ∨ length < 1
    · rw [if_pos h1, if_pos h1]
      rfl
    rw [if_neg h1, if_neg h1]
    by_cases h2 : g.owner y x ≠ player
    · rw [if_pos h2, if_pos h2]
      rfl
    rw [if_neg h2, if_neg h2]
    by_cases h3 : skip_id ids length (g.area_id y x) = true
    · rw [if_pos h3, if_pos h3]
      rfl
    rw [if_neg h3, if_neg h3]
    dsimp only
    rw [← ih (with_area_id g (set2 g.area_id y x (ids.getD (length - 1) 0))) player
      (sub32 x 1) y ids length]
    cases r1 : merge_areas_steps fuel
      (with_area_id g (set2 g.area_id y x (ids.getD (length - 1) 0))) player (sub32 x 1) y
      ids length with
    | none => rfl
    | some v1 =>
      dsimp only [Option.map]
      rw [← ih v1.1 player (add32 x 1) y ids length]
      cases r2 : merge_areas_steps fuel v1.1 player (add32 x 1) y ids length with
      | none => rfl
      | some v2 =>
        dsimp only [Option.map]
        rw [← ih v2.1 player x (sub32 y 1) ids length]
        cases r3 : merge_areas_steps fuel v2.1 player x (sub32 y 1) ids length with
        | none => rfl
        | some v3 =>
          dsimp only [Option.map]
          rw [← ih v3.1 player x (add32 y 1) ids length]
          cases r4 : merge_areas_steps fuel v3.1 player x (add32 y 1) ids length with
          | none => rfl
          | some v4 => rfl

/-- The assignment at a field still to relabel takes exactly that field out of
the fields still to relabel. -/
theorem free_cells_assign (g : gamma_t) (player x y : Nat) (ids : List Nat) (length : Nat)
    (hlen : 1 ≤ length) (hmem : (x, y) ∈ free_cells g player ids length) :
    free_cells (with_area_id g (set2 g.area_id y x (ids.getD (length - 1) 0))) player ids
      length = (free_cells g player ids length).erase (x, y) ∧
    (free_cells (with_area_id g (set2 g.area_id y x (ids.getD (length - 1) 0))) player ids
      length).card + 1 = (free_cells g player ids length).card := by
  have hset : free_cells (with_area_id g (set2 g.area_id y x (ids.getD (length - 1) 0)))
      player ids length = (free_cells g player ids length).erase (x, y) := by
    ext c
    rw [free_cells_relabel g player ids length _ (fun c => c = (x, y))
      (ids.getD (length - 1) 0) (skip_id_target ids length hlen) ?_ c, Finset.mem_erase]
    · exact And.comm
    · intro c
      obtain ⟨a, b⟩ := c
      constructor
      · intro h
        obtain ⟨rfl, rfl⟩ := Prod.mk.inj h
        exact set2_same _ _ _ _
      · intro h
        apply set2_other
        rintro ⟨rfl, rfl⟩
        exact h rfl
  refine ⟨hset, ?_⟩
  rw [hset]
  exact Finset.card_erase_add_one hmem

/-- With enough fuel the flood returns, and every assignment it makes takes
one field out of the fields still to relabel. -/
theorem merge_areas_steps_count (player : Nat) (ids : List Nat) (length : Nat)
    (hlen : 1 ≤ length) : ∀ (fuel : Nat) (g : gamma_t), player_correct g player = true →
    (free_cells g player ids length).card < fuel → ∀ x y : Nat,
    ∃ a n, merge_areas_steps fuel g player x y ids length = some (with_area_id g a, n) ∧
      n + (free_cells (with_area_id g a) player ids length).card =
        (free_cells g player ids length).card := by
  intro fuel
  induction fuel with
  | zero => intro g _ hcard; omega
  | succ fuel ih =>
    intro g hp hcard x y
    by_cases hs : (x, y) ∈ free_cells g player ids length
    swap
    · refine ⟨g.area_id, 0, ?_, by rw [with_area_id_self, Nat.zero_add]⟩
      rw [with_area_id_self]
      unfold merge_areas_steps
      by_cases h1 : player_correct g player = false ∨ x ≥ g.width ∨ y ≥ g.height ∨ length < 1
      · rw [if_pos h1]
      rw [if_neg h1]
      by_cases h2 : g.owner y x ≠ player
      · rw [if_pos h2]
      rw [if_neg h2]
      by_cases h3 : skip_id ids length (g.area_id y x) = true
      · rw [if_pos h3]
      exfalso
      apply hs
      rw [mem_free_cells, mem_cells]
      exact ⟨⟨by omega, by omega⟩, by simpa using h2, by simpa using h3⟩
    · obtain ⟨hcell, hown, hskip⟩ := (mem_free_cells g player ids length (x, y)).1 hs
      obtain ⟨hx, hy⟩ := (mem_cells g x y).1 hcell
      obtain ⟨-, hc0⟩ := free_cells_assign g player x y ids length hlen hs
      obtain ⟨a1, n1, e1, c1⟩ := ih (with_area_id g (set2 g.area_id y x (ids.getD (length - 1) 0)))
        hp (by omega) (sub32 x 1) y
      rw [with_area_id_twice] at e1 c1
      obtain ⟨a2, n2, e2, c2⟩ := ih (with_area_id g a1) hp (by omega) (add32 x 1) y
      rw [with_area_id_twice] at e2 c2
      obtain ⟨a3, n3, e3, c3⟩ := ih (with_area_id g a2) hp (by omega) x (sub32 y 1)
      rw [with_area_id_twice] at e3 c3
      obtain ⟨a4, n4, e4, c4⟩ := ih (with_area_id g a3) hp (by omega) x (add32 y 1)
      rw [with_area_id_twice] at e4 c4
      refine ⟨a4, 1 + n1 + n2 + n3 + n4, ?_, by omega⟩
      unfold merge_areas_steps
      rw [if_neg (by rw [hp]; simp; omega), if_neg (by simp [hown]), if_neg (by simp [hskip])]
      dsimp only
      rw [e1]
      dsimp only
      rw [e2]
      dsimp only
      rw [e3]
      dsimp only
      rw [e4]

/-- C24: on every board and for every input, `merge_areas` run with the depth
`width * height + 1` returns; the number of assignments of `ids[length - 1]`
it makes is at most `width * height`; and for a valid player and
`length >= 1` the label `ids[length - 1]` is among `ids[0..length-1]` and every
assignment takes one field out of the fields of the player whose label is not
among them, so that their number goes down by the number of assignments. -/
theorem merge_areas_terminates (g : gamma_t) (player x y : Nat) (ids : List Nat)
    (length : Nat) :
    ∃ g' n,
      merge_areas_steps (g.width * g.height + 1) g player x y ids length = some (g', n) ∧
      merge_areas_fuel (g.width * g.height + 1) g player x y ids length = some g' ∧
      merge_areas g player x y ids length = g' ∧
      n ≤ g.width * g.height ∧
      (player_correct g player = true → 1 ≤ length →
        skip_id ids length (ids.getD (length - 1) 0) = true ∧
        n + (free_cells g' player ids length).card = (free_cells g player ids length).card) := by
  have hfinish : ∀ g' n,
      merge_areas_steps (g.width * g.height + 1) g player x y ids length = some (g', n) →
      merge_areas_fuel (g.width * g.height + 1) g player x y ids length = some g' ∧
      merge_areas g player x y ids length = g' := by
    intro g' n e
    have h1 : merge_areas_fuel (g.width * g.height + 1) g player x y ids length = some g' := by
      rw [← merge_areas_steps_state, e]
      rfl
    refine ⟨h1, ?_⟩
    unfold merge_areas
    rw [h1]
    rfl
  by_cases hbad : player_correct g player = false ∨ length < 1
  · have e : merge_areas_steps (g.width * g.height + 1) g player x y ids length = some (g, 0) := by
      unfold merge_areas_steps
      rw [if_pos (by rcases hbad with h | h; exact Or.inl h; exact Or.inr (Or.inr (Or.inr h)))]
    refine ⟨g, 0, e, (hfinish g 0 e).1, (hfinish g 0 e).2, Nat.zero_le _, ?_⟩
    intro hp hlen
    rcases hbad with h | h
    · rw [hp] at h
      exact absurd h (by simp)
    · omega
  · have hp : player_correct g player = true := by
      cases h : player_correct g player
      · exact absurd (Or.inl h) hbad
      · rfl
    have hlen : 1 ≤ length := by
      by_contra hcon
      exact hbad (Or.inr (by omega))
    obtain ⟨a, n, e, hcount⟩ := merge_areas_steps_count player ids length hlen
      (g.width * g.height + 1) g hp
      (Nat.lt_succ_of_le (card_free_cells_le g player ids length)) x y
    refine ⟨with_area_id g a, n, e, (hfinish _ n e).1, (hfinish _ n e).2, ?_, ?_⟩
    · have := card_free_cells_le g player ids length
      omega
    · intro _ _
      exact ⟨skip_id_target ids length hlen, hcount⟩

/-- C24 at a concrete input: the flood of the full row of player 1 from (0, 0)
with `ids = [7]`. -/
theorem merge_areas_terminates_witness :
    player_correct row3_full 1 = true ∧ 1 ≤ 1 ∧
    ∃ g' n,
      merge_areas_steps (row3_full.width * row3_full.height + 1) row3_full 1 0 0 [7] 1 =
        some (g', n) ∧
      merge_areas row3_full 1 0 0 [7] 1 = g' ∧ n ≤ row3_full.width * row3_full.height ∧
      n + (free_cells g' 1 [7] 1).card = (free_cells row3_full 1 [7] 1).card :=
  ⟨by decide, by decide,
    match merge_areas_terminates row3_full 1 0 0 [7] 1 with
    | ⟨g', n, h1, _, h3, h4, h5⟩ => ⟨g', n, h1, h3, h4, (h5 (by decide) (by decide)).2⟩⟩

/-! ## Free fields and possible moves -/

/-- C26, refuted as stated: in the reachable state `overfull` player 1 is
valid and `gamma_move` of player 1 would return true for one field of the
board, yet `gamma_free_fields` returns 0 for player 1. -/
theorem gamma_free_fields_not_moves :
    Reachable overfull ∧ (1 ≤ 1 ∧ 1 ≤ overfull.player_count) ∧
    (0, 1) ∈ cells overfull ∧ (gamma_move overfull 1 0 1).2 = true ∧
    ((cells overfull).filter (fun c => (gamma_move overfull 1 c.1 c.2).2 = true)).card = 1 ∧
    gamma_free_fields overfull 1 = 0 := by
  refine ⟨(reachable_board 4 2 3 1 (by decide) (by decide) (by decide) (by decide)
    (by decide)).after_calls _, ?_⟩
  rw [overfull_eq]
  decide

theorem gamma_move_true_iff_ok (g : gamma_t) (p x y : Nat) :
    (gamma_move g p x y).2 = true ↔ move_ok g p x y := by
  rw [gamma_move_eq]
  by_cases hok : move_ok g p x y
  · rw [if_pos hok]
    simp [hok]
  · rw [if_neg hok]
    simp [hok]

/-- At the limit `gamma_free_fields` counts the free fields at which
`bordering_area_id` finds a label. -/
theorem free_fields_fold (g : gamma_t) (hw : g.width < UINT32_SIZE)
    (hh : g.height < UINT32_SIZE) (p : Nat) (hpc : player_correct g p = true)
    (hlim : g.area_count p = g.areas_limit) :
    gamma_free_fields g p = ((cells g).filter
      (fun c => g.owner c.2 c.1 = 0 ∧ bordering_area_id g p c.1 c.2 ≠ 0)).card := by
  unfold gamma_free_fields
  rw [if_neg (by rw [hpc]; simp), if_neg (by omega), if_neg (by omega)]
  rw [foldl_counter _
    (fun c => decide (g.owner c.2 c.1 = 0 ∧ bordering_area_id g p c.1 c.2 ≠ 0)) ?_
    (board_fields g) 0 (by unfold UINT64_SIZE; omega)]
  · have hcard : ((board_fields g).filter
        (fun c => decide (g.owner c.2 c.1 = 0 ∧ bordering_area_id g p c.1 c.2 ≠ 0))).length =
        ((cells g).filter
          (fun c => g.owner c.2 c.1 = 0 ∧ bordering_area_id g p c.1 c.2 ≠ 0)).card := by
      rw [← List.toFinset_card_of_nodup ((board_fields_nodup g).filter _),
        List.toFinset_filter, board_fields_toFinset]
      apply congrArg Finset.card
      apply Finset.filter_congr
      intro c _
      rw [decide_eq_true_iff]
    rw [hcard, Nat.zero_add]
    apply Nat.mod_eq_of_lt
    have h1 : ((cells g).filter
        (fun c => g.owner c.2 c.1 = 0 ∧ bordering_area_id g p c.1 c.2 ≠ 0)).card ≤
        (cells g).card := Finset.card_filter_le _ _
    have h2 := cells_lt_uint64 g hw hh
    rw [card_cells] at h1
    omega
  · intro k c
    unfold NOBODY
    by_cases h1 : g.owner c.2 c.1 = 0
    · by_cases h2 : bordering_area_id g p c.1 c.2 ≠ 0
      · rw [if_pos h1, if_pos h2, if_pos (by simp [h1, h2])]
      · rw [if_pos h1, if_neg h2, if_neg (by simp [h1, h2])]
    · rw [if_neg h1, if_neg (by simp [h1])]

/-- C26, amended: in every reachable state and for every valid player `p`
with `area_count[p] <= areas_limit`, `gamma_free_fields(g, p)` is the number of
fields (x, y) of the board for which `gamma_move(g, p, x, y)`, called on the
same state, returns true. -/
theorem gamma_free_fields_counts_moves (g : gamma_t) (h : Reachable g) (p : Nat)
    (hp1 : 1 ≤ p) (hp2 : p ≤ g.player_count) (hlim : g.area_count p ≤ g.areas_limit) :
    gamma_free_fields g p =
      ((cells g).filter (fun c => (gamma_move g p c.1 c.2).2 = true)).card := by
  have hc := h.counted
  have hpc : player_correct g p = true := (player_correct_iff g p).2 ⟨hp1, hp2⟩
  by_cases hlt : g.area_count p < g.areas_limit
  · have e : gamma_free_fields g p = (owned_by g 0).card := by
      unfold gamma_free_fields
      rw [if_neg (by rw [hpc]; simp), if_pos hlt]
      exact hc.free
    rw [e]
    unfold owned_by
    apply congrArg Finset.card
    apply Finset.filter_congr
    intro c hcell
    obtain ⟨a, b⟩ := c
    obtain ⟨ha, hb⟩ := (mem_cells g a b).1 hcell
    rw [gamma_move_true_iff_ok]
    unfold move_ok NOBODY
    constructor
    · intro h0
      exact ⟨hpc, ha, hb, h0, fun hcon => by omega⟩
    · intro hok
      exact hok.2.2.2.1
  · have heq : g.area_count p = g.areas_limit := by omega
    rw [free_fields_fold g hc.width_lt hc.height_lt p hpc heq]
    apply congrArg Finset.card
    apply Finset.filter_congr
    intro c hcell
    obtain ⟨a, b⟩ := c
    obtain ⟨ha, hb⟩ := (mem_cells g a b).1 hcell
    rw [gamma_move_true_iff_ok]
    unfold move_ok NOBODY
    constructor
    · rintro ⟨h0, hb0⟩
      exact ⟨hpc, ha, hb, h0, fun hcon => hb0 hcon.1⟩
    · rintro ⟨-, -, -, h0, hn⟩
      exact ⟨h0, fun hb0 => hn ⟨hb0, by omega⟩⟩

/-- C26, amended, at a concrete state: player 1 on the row with two fields
taken and area limit 2. -/
theorem gamma_free_fields_counts_moves_witness :
    Reachable row3_two ∧ 1 ≤ 1 ∧ 1 ≤ row3_two.player_count ∧
    row3_two.area_count 1 ≤ row3_two.areas_limit ∧
    gamma_free_fields row3_two 1 = 1 ∧
    gamma_free_fields row3_two 1 =
      ((cells row3_two).filter (fun c => (gamma_move row3_two 1 c.1 c.2).2 = true)).card :=
  ⟨reachableNW_row3_two.reachable, by decide, by decide, by decide, by decide,
    gamma_free_fields_counts_moves row3_two reachableNW_row3_two.reachable 1 (by decide)
      (by decide) (by decide)⟩

end Gamma
